import Mathlib

/-!
ExpressionParser: a shallow embedding.

The C++ class `ExpressionParser` compiles a textual condition such as
`">10 and (<50 or >100)"` into a graph of heap nodes linked by `m_pNext` /
`m_pPrev` pointers and evaluates that graph against an integer.

Embedding conventions.

* A `std::string_view` is a `List Char`, one `Char` per `char`.
* The heap is a `List Node`; a `std::shared_ptr` is an index into it and
  `nullptr` is `none`.  Allocation appends a node.
* A function that can throw an uncaught exception, dereference a null
  pointer, perform an invalid downcast or loop forever returns `none` there.
* `size_t` values are natural numbers (a view is always shorter than `2^64`),
  `npos` is `none`; the cast `(int)conditionStart` keeps its 32 bit wrap.
-/

namespace ExpressionParser

/-- The enum `ExpressionParser::ParseResult`. -/
inductive ParseResult
  | OK
  | AlreadyConstructed
  | EmptyStatement
  | ParsingInvalidCharacter
  | ClosingUnopenedBrace
  | InvalidExpression
  | InvalidLogic
  deriving DecidableEq, Repr

/-- A possibly null pointer to a heap node. -/
abbrev Ptr := Option Nat

/-- The dynamic type of a heap node together with the members its class adds
to `Node`.  `destroyed` is a `BranchNode` whose last owning pointer is gone:
a `weak_ptr` to it no longer locks. -/
inductive NodeKind
  | branch (m_pOrRoot m_pAndRoot : Ptr)
  | branchRoot (m_pParentBranch : Nat) (m_isOrLogic : Bool)
  | fork (m_pBranchRoot : Ptr)
  | expression (m_isValid : Bool) (m_operation : Nat) (m_value : Int)
  | destroyed
  deriving DecidableEq, Repr

/-- The struct `Node`: the two chain links, plus the derived part. -/
structure Node where
  kind : NodeKind
  m_pNext : Ptr
  m_pPrev : Ptr
  deriving DecidableEq, Repr

/-- The heap of nodes. -/
abbrev Heap := List Node

/-- A node as its constructor leaves it: both links null. -/
def Node.fresh (k : NodeKind) : Node := ⟨k, none, none⟩

/-- Read `p->m_pNext`. -/
def Heap.next (h : Heap) (p : Nat) : Option Ptr := (h[p]?).map Node.m_pNext

/-- Read `p->m_pPrev`. -/
def Heap.prev (h : Heap) (p : Nat) : Option Ptr := (h[p]?).map Node.m_pPrev

/-- Write `p->m_pNext = v`. -/
def Heap.setNext (h : Heap) (p : Nat) (v : Ptr) : Option Heap :=
  (h[p]?).map fun n => h.set p { n with m_pNext := v }

/-- Write `p->m_pPrev = v`. -/
def Heap.setPrev (h : Heap) (p : Nat) (v : Ptr) : Option Heap :=
  (h[p]?).map fun n => h.set p { n with m_pPrev := v }

/-- The expression `pMyNewNextNode != nullptr ? pMyNewNextNode->m_pNext : nullptr`. -/
def Heap.nextOrNull (h : Heap) : Ptr → Option Ptr
  | none => some none
  | some b => h.next b

/-- The expression `pMyNewNextNode != nullptr ? pMyNewNextNode->m_pPrev : nullptr`. -/
def Heap.prevOrNull (h : Heap) : Ptr → Option Ptr
  | none => some none
  | some b => h.prev b

/-- Step 1 of `Node::SetNext`: link the current and new nodes together. -/
def Node.SetNext.step1 (h : Heap) (self : Nat) (pMyNewNextNode : Ptr) : Option Heap := do
  let h ← h.setNext self pMyNewNextNode
  match pMyNewNextNode with
  | some b => h.setPrev b (some self)
  | none => some h

/-- Step 2 of `Node::SetNext`: link the gap made by moving the new next node.
The new next of the old previous node is read from the new node after step 1. -/
def Node.SetNext.step2 (h : Heap) (pMyNewNextNode pTheirOldPrevNode : Ptr) : Option Heap :=
  match pTheirOldPrevNode with
  | some q => do
    let v ← h.nextOrNull pMyNewNextNode
    let h ← h.setNext q v
    let qn ← h.next q
    match qn with
    | some r => h.setPrev r (some q)
    | none => some h
  | none => some h

/-- Step 3 of `Node::SetNext`: link the new next node to my old one. -/
def Node.SetNext.step3 (h : Heap) (pMyNewNextNode pMyOldNextNode : Ptr) : Option Heap := do
  let h ← match pMyNewNextNode with
    | some b => h.setNext b pMyOldNextNode
    | none => some h
  match pMyOldNextNode with
  | some o => h.setPrev o pMyNewNextNode
  | none => some h

/-- `Node::SetNext`: the three locals are read, then the three steps run. -/
def Node.SetNext (h : Heap) (self : Nat) (pMyNewNextNode : Ptr) : Option Heap := do
  let pMyOldNextNode ← h.next self
  let _pTheirOldNextNode ← h.nextOrNull pMyNewNextNode
  let pTheirOldPrevNode ← h.prevOrNull pMyNewNextNode
  let h ← Node.SetNext.step1 h self pMyNewNextNode
  let h ← Node.SetNext.step2 h pMyNewNextNode pTheirOldPrevNode
  Node.SetNext.step3 h pMyNewNextNode pMyOldNextNode

/-- The loop `while (pNode->m_pPrev != nullptr) pNode = pNode->m_pPrev;` of
`Node::GetRoot`.  A walk longer than the heap has met a node twice and never
ends; it is cut there. -/
def Node.GetRoot.walk (h : Heap) : Nat → Nat → Option Nat
  | 0, _ => none
  | fuel + 1, pNode =>
    match h.prev pNode with
    | none => none
    | some none => some pNode
    | some (some q) => Node.GetRoot.walk h fuel q

/-- The `static_pointer_cast<BranchRootNode>`: defined only on a root. -/
def castBranchRoot (h : Heap) (p : Nat) : Option Nat :=
  match h[p]? with
  | some ⟨.branchRoot _ _, _, _⟩ => some p
  | _ => none

/-- `Node::GetRoot`. -/
def Node.GetRoot (h : Heap) (self : Nat) : Option Nat :=
  match h.prev self with
  | none => none
  | some none => castBranchRoot h self
  | some (some pNode) => (Node.GetRoot.walk h h.length pNode).bind (castBranchRoot h)

/-- The loop `while (pNode->m_pNext != nullptr) pNode = pNode->m_pNext;` of
`Node::GetLast`, cut like the one of `GetRoot`. -/
def Node.GetLast.walk (h : Heap) : Nat → Nat → Option Nat
  | 0, _ => none
  | fuel + 1, pNode =>
    match h.next pNode with
    | none => none
    | some none => some pNode
    | some (some q) => Node.GetLast.walk h fuel q

/-- `Node::GetLast`. -/
def Node.GetLast (h : Heap) (self : Nat) : Option Nat :=
  match h.next self with
  | none => none
  | some none => some self
  | some (some pNode) => Node.GetLast.walk h h.length pNode

/-- `BranchRootNode::IsOrLogic`. -/
def BranchRootNode.IsOrLogic (h : Heap) (p : Nat) : Option Bool :=
  match h[p]? with
  | some ⟨.branchRoot _ o, _, _⟩ => some o
  | _ => none

/-- `BranchRootNode::GetParentBranch`: lock the weak pointer; null when the
branch has been destroyed. -/
def BranchRootNode.GetParentBranch (h : Heap) (p : Nat) : Option Ptr :=
  match h[p]? with
  | some ⟨.branchRoot b _, _, _⟩ =>
    match h[b]? with
    | some ⟨.branch _ _, _, _⟩ => some (some b)
    | _ => some none
  | _ => none

/-- `BranchNode::GetLogicPathRoot`. -/
def BranchNode.GetLogicPathRoot (h : Heap) (p : Nat) (orLogic : Bool) : Option Ptr :=
  match h[p]? with
  | some ⟨.branch o a, _, _⟩ => some (if orLogic then o else a)
  | _ => none

/-- `BranchNode::Create`: the branch, its OR root, its AND root and the fork
to the AND root, which becomes the successor of the OR root.  Returns the
heap and the address of the branch. -/
def BranchNode.Create (h : Heap) : Option (Heap × Nat) := do
  let pNewBranch := h.length
  let orRoot := pNewBranch + 1
  let andRoot := pNewBranch + 2
  let pFork := pNewBranch + 3
  let h := h ++ [Node.fresh (.branch (some orRoot) (some andRoot)),
                 Node.fresh (.branchRoot pNewBranch true),
                 Node.fresh (.branchRoot pNewBranch false),
                 Node.fresh (.fork (some andRoot))]
  let h ← Node.SetNext h orRoot (some pFork)
  pure (h, pNewBranch)

/-- The comparison of `ExpressionNode::Evaluate`, `none` for the `default`
label of the switch. -/
def ExpressionNode.compare (m_operation : Nat) (value m_value : Int) : Option Bool :=
  if m_operation = 1 then some (decide (value < m_value))
  else if m_operation = 5 then some (decide (value ≤ m_value))
  else if m_operation = 4 then some (decide (value = m_value))
  else if m_operation = 8 then some (decide (value ≠ m_value))
  else if m_operation = 6 then some (decide (value ≥ m_value))
  else if m_operation = 2 then some (decide (value > m_value))
  else none

/-- The virtual `Evaluate` of the four node classes.  The first argument
bounds the depth of nested calls; `none` is a call chain deeper than that, a
null or dangling pointer, or an invalid downcast in `GetRoot`. -/
def Node.Evaluate (h : Heap) : Nat → Nat → Int → Option Bool
  | 0, _, _ => none
  | fuel + 1, self, value =>
    match h[self]? with
    | none => none
    | some me =>
      match me.kind with
      | .destroyed => none
      | .branch m_pOrRoot _ =>
        match m_pOrRoot with
        | none => none
        | some r => Node.Evaluate h fuel r value
      | .branchRoot _ _ =>
        match me.m_pNext with
        | none => some false
        | some n => Node.Evaluate h fuel n value
      | .fork m_pBranchRoot =>
        match m_pBranchRoot with
        | none => none
        | some r =>
          match Node.Evaluate h fuel r value with
          | none => none
          | some result =>
            match me.m_pNext with
            | none => some result
            | some n =>
              match (Node.GetRoot h self).bind (BranchRootNode.IsOrLogic h) with
              | none => none
              | some o => if result = o then some result else Node.Evaluate h fuel n value
      | .expression m_isValid m_operation m_value =>
        if m_isValid = false then some false
        else
          match ExpressionNode.compare m_operation value m_value with
          | none => some false
          | some result =>
            match me.m_pNext with
            | none => some result
            | some n =>
              match (Node.GetRoot h self).bind (BranchRootNode.IsOrLogic h) with
              | none => none
              | some o => if result = o then some result else Node.Evaluate h fuel n value

/-- `std::string_view::find_first_not_of(c)`; `none` is `npos`. -/
def find_first_not_of : List Char → Char → Option Nat
  | [], _ => none
  | d :: ds, c => if d ≠ c then some 0 else (find_first_not_of ds c).map (· + 1)

/-- `std::string_view::find_last_not_of(c)`; `none` is `npos`. -/
def find_last_not_of : List Char → Char → Option Nat
  | [], _ => none
  | d :: ds, c =>
    match find_last_not_of ds c with
    | some i => some (i + 1)
    | none => if d ≠ c then some 0 else none

/-- Membership in the character set `"0123456789"`. -/
def isDigit (c : Char) : Bool := decide (c ∈ "0123456789".data)

/-- `data.find_first_of("0123456789")`; `none` is `npos`. -/
def find_first_of_digit : List Char → Option Nat
  | [] => none
  | d :: ds => if isDigit d then some 0 else (find_first_of_digit ds).map (· + 1)

/-- `std::string_view::substr(pos, count)` with `count` already reduced to
what is left of the view: throws `std::out_of_range` when `pos > size()`. -/
def substr (data : List Char) (pos count : Nat) : Option (List Char) :=
  if pos > data.length then none else some ((data.drop pos).take count)

/-- `SplitString(input, " ")` for a delimiter of one character: `cur` is the
piece `input.substr(prevPosOfDelimiter, ...)` scanned so far.  A piece is
pushed at every delimiter; the last piece is pushed only when
`prevPosOfDelimiter < input.length()`, that is when it is not empty. -/
def SplitString.go (delimiter : Char) : List Char → List Char → List (List Char)
  | [], cur => if cur = [] then [] else [cur]
  | c :: cs, cur =>
    if c = delimiter then cur :: SplitString.go delimiter cs []
    else SplitString.go delimiter cs (cur ++ [c])

/-- `SplitString`. -/
def SplitString (input : List Char) (delimiter : Char) : List (List Char) :=
  SplitString.go delimiter input []

/-- The value of a run of decimal digits, most significant first. -/
def digitsValue (ds : List Char) : Nat :=
  ds.foldl (fun acc c => 10 * acc + (c.toNat - 48)) 0

/-- `std::stoi` on a buffer whose first character is a digit: it reads the
longest run of digits and throws `std::out_of_range` (here `none`) when the
value does not fit an `int`.  What follows the view in the buffer is a `)`, a
space or the terminator, so the run read is the one inside the view. -/
def stoi (s : List Char) : Option Int :=
  let run := s.takeWhile isDigit
  if run = [] then none
  else if digitsValue run > 2147483647 then none
  else some (digitsValue run)

/-- The constructor `ExpressionNode::ExpressionNode`: the node it builds. -/
def ExpressionNode.new (data : List Char) : NodeKind :=
  match find_first_of_digit data with
  | none => .expression false 0 0
  | some numberAt =>
    if numberAt ≠ 1 ∧ numberAt ≠ 2 then .expression false 0 0
    else
      let comparisonOperator := data.take numberAt
      let m_operation : Option Nat :=
        if comparisonOperator = "<".data then some 1
        else if comparisonOperator = "<=".data then some 5
        else if comparisonOperator = "=".data then some 4
        else if comparisonOperator = "!=".data then some 8
        else if comparisonOperator = ">=".data then some 6
        else if comparisonOperator = ">".data then some 2
        else none
      match m_operation with
      | none => .expression false 0 0
      | some op =>
        match stoi (data.drop numberAt) with
        | none => .expression false op 0
        | some v => .expression true op v

/-- `ExpressionNode::IsValid`. -/
def NodeKind.IsValid : NodeKind → Bool
  | .expression v _ _ => v
  | _ => false

/-- The data members of the class `ExpressionParser`, with the heap its
pointers refer to.  The top of `m_braceForks` is the head of the list. -/
structure Parser where
  heap : Heap
  m_isValid : Bool
  m_pBaseBranch : Nat
  m_pActiveBranch : Ptr
  m_pActiveBranchRoot : Nat
  m_braceForks : List Nat
  m_result : ParseResult
  m_errorAt : Nat
  deriving DecidableEq, Repr

/-- `ExpressionParser::SetResult`. -/
def SetResult (p : Parser) (result : ParseResult) (at_ : Nat) : ParseResult × Parser :=
  (result, { p with m_result := result, m_errorAt := at_ })

/-- `ExpressionParser::Clear`.  Every member is overwritten, so the result
does not depend on the old state; the nodes of the old tree are referenced by
no member any more and the heap starts again from the new base branch. -/
def Clear (_p : Parser) : Option Parser := do
  let (h, b) ← BranchNode.Create []
  let r ← BranchNode.GetLogicPathRoot h b true
  let r ← r
  pure { heap := h, m_isValid := false, m_pBaseBranch := b, m_pActiveBranch := some b,
         m_pActiveBranchRoot := r, m_braceForks := [], m_result := .OK, m_errorAt := 0 }

/-- `ExpressionParser::Evaluate`: `m_pBaseBranch->Evaluate(value)`.  A chain
of nested calls that terminates meets no node twice, so a depth of one more
than the number of nodes bounds every terminating evaluation. -/
def Evaluate (p : Parser) (value : Int) : Option Bool :=
  Node.Evaluate p.heap (p.heap.length + 1) p.m_pBaseBranch value

/-- `ExpressionParser::AddExpression`.  An invalid node is released again. -/
def AddExpression (p : Parser) (expressionString : List Char) : Option (Bool × Parser) :=
  let node := ExpressionNode.new expressionString
  if node.IsValid = false then some (false, p)
  else do
    let pExpressionNode := p.heap.length
    let h ← Node.SetNext (p.heap ++ [Node.fresh node]) p.m_pActiveBranchRoot (some pExpressionNode)
    pure (true, { p with heap := h })

/-- `ForkNode::SetLinkedRoot`. -/
def ForkNode.SetLinkedRoot (h : Heap) (f : Nat) (pBranchRoot : Ptr) : Option Heap :=
  match h[f]? with
  | some ⟨.fork _, n, q⟩ => some (h.set f ⟨.fork pBranchRoot, n, q⟩)
  | _ => none

/-- `ForkNode::GetLinkedRoot`. -/
def ForkNode.GetLinkedRoot (h : Heap) (f : Nat) : Option Ptr :=
  match h[f]? with
  | some ⟨.fork r, _, _⟩ => some r
  | _ => none

/-- The end of the scope of `pNewBranch` in `OpenBrace`: that local was the
only owning pointer to the new `BranchNode` (its roots hold a `weak_ptr`, the
forks point to the roots, `m_pActiveBranch` is not assigned), so the branch
object is destroyed while its roots and fork live on. -/
def Heap.release (h : Heap) (b : Nat) : Heap :=
  match h[b]? with
  | some n => h.set b { n with kind := .destroyed }
  | none => h

/-- `ExpressionParser::OpenBrace`. -/
def OpenBrace (p : Parser) : Option Parser := do
  let pNewFork := p.heap.length
  let h := p.heap ++ [Node.fresh (.fork none)]
  let (h, pNewBranch) ← BranchNode.Create h
  let r ← BranchNode.GetLogicPathRoot h pNewBranch true
  let h ← ForkNode.SetLinkedRoot h pNewFork r
  let m_braceForks := pNewFork :: p.m_braceForks
  -- Fork nodes are always pushed to the end
  let last ← Node.GetLast h p.m_pActiveBranchRoot
  let h ← Node.SetNext h last (some pNewFork)
  let r ← ForkNode.GetLinkedRoot h pNewFork
  let r ← r
  pure { p with heap := h.release pNewBranch, m_pActiveBranchRoot := r, m_braceForks := m_braceForks }

/-- `ExpressionParser::CloseBrace`. -/
def CloseBrace (p : Parser) : Option (Bool × Parser) :=
  match p.m_braceForks with
  | [] => some (false, p)
  | pResultNode :: rest => do
    let r ← Node.GetRoot p.heap pResultNode
    let b ← BranchRootNode.GetParentBranch p.heap r
    pure (true, { p with m_pActiveBranchRoot := r, m_pActiveBranch := b, m_braceForks := rest })

/-- The cast `(int)conditionStart` of a `size_t`: the low 32 bits, signed. -/
def toInt32 (n : Nat) : Int :=
  if n % 2 ^ 32 < 2 ^ 31 then ((n % 2 ^ 32 : Nat) : Int) else ((n % 2 ^ 32 : Nat) : Int) - 2 ^ 32

/-- What one pass of a loop body of `Parse` leaves: the loop goes on with new
values, or `Parse` returns. -/
inductive Flow (α : Type)
  | next (a : α)
  | ret (r : ParseResult × Parser)

/-- The failure exit of `Parse`: `Clear(); return SetResult(result, at);`. -/
def Parse.fail (p : Parser) (result : ParseResult) (at_ : Nat) : Option (ParseResult × Parser) :=
  (Clear p).map fun q => SetResult q result at_

/-- The loop `for (int charIndex = 0; charIndex < (int)conditionStart; ++charIndex)`
of `Parse`: `n` passes are left, the state is the parser and
`currentLocationInString`. -/
def Parse.leading (data : List Char) : Nat → Nat → Parser → Nat → Option (Flow (Parser × Nat))
  | 0, _, p, loc => some (.next (p, loc))
  | n + 1, charIndex, p, loc =>
    match data[charIndex]? with
    | none => none
    | some c =>
      if c ≠ '(' then (Parse.fail p .ParsingInvalidCharacter loc).map .ret
      else
        match OpenBrace p with
        | none => none
        | some p => Parse.leading data n (charIndex + 1) p (loc + 1)

/-- The loop `for (size_t charIndex = conditionEnd + 1; charIndex < data.length(); ++charIndex)`
of `Parse`: `n` passes are left. -/
def Parse.trailing (data : List Char) : Nat → Nat → Parser → Nat → Option (Flow (Parser × Nat))
  | 0, _, p, loc => some (.next (p, loc))
  | n + 1, charIndex, p, loc =>
    match data[charIndex]? with
    | none => none
    | some c =>
      if c ≠ ')' then (Parse.fail p .ParsingInvalidCharacter loc).map .ret
      else
        match CloseBrace p with
        | none => none
        | some (false, p) => (Parse.fail p .ClosingUnopenedBrace loc).map .ret
        | some (true, p) => Parse.trailing data n (charIndex + 1) p (loc + 1)

/-- The value `conditionEnd + 1` in `size_t` arithmetic: `0` when
`conditionEnd` is `npos`. -/
def endPlusOne : Option Nat → Nat
  | none => 0
  | some conditionEnd => conditionEnd + 1

/-- The body of the loop of `Parse` for a token in condition position.  When
`conditionEnd` is `npos` the count `conditionEnd - conditionStart + 1` of
`substr` wraps to `0` (`conditionStart` is `0` there); otherwise it is at
least `0`, the `(` before `conditionStart` being characters other than `)`
(`conditionStart_le_endPlusOne`), so the subtraction below is exact. -/
def Parse.condition (p : Parser) (loc : Nat) (data : List Char) : Option (Flow (Parser × Nat)) :=
  match find_first_not_of data '(' with
  | none => none
  | some conditionStart =>
    let conditionEnd := find_last_not_of data ')'
    match substr data conditionStart (endPlusOne conditionEnd - conditionStart) with
    | none => none
    | some conditionData =>
      match Parse.leading data (toInt32 conditionStart).toNat 0 p loc with
      | none => none
      | some (.ret r) => some (.ret r)
      | some (.next (p, loc)) =>
        match AddExpression p conditionData with
        | none => none
        | some (false, p) => (Parse.fail p .InvalidExpression loc).map .ret
        | some (true, p) =>
          match Parse.trailing data (data.length - endPlusOne conditionEnd)
              (endPlusOne conditionEnd) p (loc + conditionData.length) with
          | none => none
          | some (.ret r) => some (.ret r)
          | some (.next (p, loc)) => some (.next (p, loc + 1))

/-- The end of the body of the loop of `Parse` for a token in logic position,
from `if (m_pActiveBranchRoot->IsOrLogic() != newLogicIsOr)` on. -/
def Parse.switchLogic (p : Parser) (newLogicIsOr : Bool) : Option Parser := do
  let isOr ← BranchRootNode.IsOrLogic p.heap p.m_pActiveBranchRoot
  if isOr ≠ newLogicIsOr then
    -- the logic is different, swap the active roots
    let b ← p.m_pActiveBranch
    let r ← BranchNode.GetLogicPathRoot p.heap b (!isOr)
    let r ← r
    let p := { p with m_pActiveBranchRoot := r }
    if newLogicIsOr = false then
      -- OR -> AND: move the latest expression added to the OR root
      let o ← BranchNode.GetLogicPathRoot p.heap b true
      let o ← o
      let pNodeToMove ← p.heap.next o
      let h ← Node.SetNext p.heap r pNodeToMove
      pure { p with heap := h }
    else pure p
  else pure p

/-- The body of the loop of `Parse` for a token in logic position. -/
def Parse.logic (p : Parser) (loc : Nat) (data : List Char) : Option (Flow (Parser × Nat)) :=
  let newLogicIsOr : Bool := data = "or".data || data = "||".data
  if newLogicIsOr = false ∧ data ≠ "and".data ∧ data ≠ "&&".data then
    (Parse.fail p .InvalidLogic loc).map .ret
  else
    (Parse.switchLogic p newLogicIsOr).map fun p => .next (p, loc + data.length + 1)

/-- The loop `for (std::string_view data : splitStrings)` of `Parse`, then the
final `return SetResult(ParseResult::OK, 0)`. -/
def Parse.loop : List (List Char) → Parser → Nat → Bool → Option (ParseResult × Parser)
  | [], p, _, _ => some (SetResult p .OK 0)
  | data :: rest, p, loc, parsingCondition =>
    match (if !parsingCondition then Parse.condition p loc data else Parse.logic p loc data) with
    | none => none
    | some (.ret r) => some r
    | some (.next (p, loc)) => Parse.loop rest p loc (!parsingCondition)

/-- `ExpressionParser::Parse`. -/
def Parse (p : Parser) (conditionalDataString : List Char) : Option (ParseResult × Parser) :=
  if p.m_isValid = true then some (SetResult p .AlreadyConstructed 0)
  else if conditionalDataString = [] then some (SetResult p .EmptyStatement 0)
  else Parse.loop (SplitString conditionalDataString ' ') p 0 false

/-- A newly constructed `ExpressionParser`: the constructor only calls
`Clear`, whose result does not depend on the members it overwrites. -/
def new : Option Parser :=
  Clear { heap := [], m_isValid := false, m_pBaseBranch := 0, m_pActiveBranch := none,
          m_pActiveBranchRoot := 0, m_braceForks := [], m_result := .OK, m_errorAt := 0 }

/-- Construct a parser, `Parse` the text, and give the result code with the
parser left behind. -/
def parseFresh (text : List Char) : Option (ParseResult × Parser) :=
  new.bind fun p => Parse p text

/-- Construct, `Parse`, then `Evaluate`: the result code and the value. -/
def run (text : List Char) (value : Int) : Option (ParseResult × Option Bool) :=
  (parseFresh text).map fun r => (r.1, Evaluate r.2 value)

/-- The state `Clear` leaves: the base branch, its two roots and the fork
from the OR chain to the AND root (`new_eq`). -/
def emptyTree : Parser :=
  { heap := [⟨.branch (some 1) (some 2), none, none⟩,
             ⟨.branchRoot 0 true, some 3, none⟩,
             ⟨.branchRoot 0 false, none, none⟩,
             ⟨.fork (some 2), none, some 1⟩],
    m_isValid := false, m_pBaseBranch := 0, m_pActiveBranch := some 0,
    m_pActiveBranchRoot := 1, m_braceForks := [], m_result := .OK, m_errorAt := 0 }

/-! ## The loops of `Parse` once the character tests are known to pass -/

/-- `n` calls of `OpenBrace` in a row. -/
def opening : Nat → Parser → Option Parser
  | 0, p => some p
  | n + 1, p => (OpenBrace p).bind (opening n)

/-- The trailing loop of `Parse` over `n` characters that are all `)`. -/
def closing : Nat → Parser → Nat → Option (Flow (Parser × Nat))
  | 0, p, loc => some (.next (p, loc))
  | n + 1, p, loc =>
    match CloseBrace p with
    | none => none
    | some (false, p) => (Parse.fail p .ClosingUnopenedBrace loc).map .ret
    | some (true, p) => closing n p (loc + 1)

/-- `AddExpression` for a node already known to be valid. -/
def addNode (p : Parser) (node : NodeKind) : Option Parser :=
  (Node.SetNext (p.heap ++ [Node.fresh node]) p.m_pActiveBranchRoot (some p.heap.length)).map
    fun h => { p with heap := h }

/-- The body of the loop of `Parse` for `k` characters `(`, a valid
condition of `len` characters that compiles to `node`, and `m` characters `)`. -/
def conditionOf (p : Parser) (loc k : Nat) (node : NodeKind) (len m : Nat) :
    Option (Flow (Parser × Nat)) :=
  match opening k p with
  | none => none
  | some p =>
    match addNode p node with
    | none => none
    | some p =>
      match closing m p (loc + k + len) with
      | none => none
      | some (.ret r) => some (.ret r)
      | some (.next (p, loc)) => some (.next (p, loc + 1))

/-- A parser state whose base branch is node 0 and still current, with the
given heap, current root and fork stack. -/
def treeOf (heap : Heap) (root : Nat) (forks : List Nat) : Parser :=
  { heap := heap, m_isValid := false, m_pBaseBranch := 0, m_pActiveBranch := some 0,
    m_pActiveBranchRoot := root, m_braceForks := forks, m_result := .OK, m_errorAt := 0 }

/-! ## The grammar's comparison terms -/

/-- The six comparators of the grammar. -/
inductive Comparator
  | lt | le | eq | ne | ge | gt
  deriving DecidableEq, Repr

/-- The text of a comparator. -/
def Comparator.text : Comparator → List Char
  | .lt => "<".data
  | .le => "<=".data
  | .eq => "=".data
  | .ne => "!=".data
  | .ge => ">=".data
  | .gt => ">".data

/-- The meaning of a comparator: `c.holds v n` is `v c n`. -/
def Comparator.holds : Comparator → Int → Int → Bool
  | .lt, v, n => decide (v < n)
  | .le, v, n => decide (v ≤ n)
  | .eq, v, n => decide (v = n)
  | .ne, v, n => decide (v ≠ n)
  | .ge, v, n => decide (v ≥ n)
  | .gt, v, n => decide (v > n)

/-- The value of `ExpressionNode::OperatorFlags` the constructor stores for a
comparator. -/
def Comparator.flags : Comparator → Nat
  | .lt => 1
  | .le => 5
  | .eq => 4
  | .ne => 8
  | .ge => 6
  | .gt => 2

/-- A valid comparison term: a comparator immediately followed by a
non-negative `int` literal, that is a non-empty run of decimal digits whose
value is at most `INT_MAX`. -/
structure Term where
  op : Comparator
  digits : List Char
  digits_ne : digits ≠ []
  digits_all : ∀ c ∈ digits, isDigit c = true
  in_range : digitsValue digits ≤ 2147483647

/-- The text of a term. -/
def Term.text (t : Term) : List Char := t.op.text ++ t.digits

/-- The operand of a term. -/
def Term.value (t : Term) : Int := (digitsValue t.digits : Nat)

/-- The meaning of a term at the integer `v`. -/
def Term.holds (t : Term) (v : Int) : Bool := t.op.holds v t.value

/-- The node a valid term compiles to. -/
def Term.node (t : Term) : NodeKind := .expression true t.op.flags t.value

/-- `m` calls of `CloseBrace` in a row that all find an open brace. -/
def closeAll : Nat → Parser → Option Parser
  | 0, p => some p
  | m + 1, p =>
    match CloseBrace p with
    | some (true, q) => closeAll m q
    | _ => none

/-- A token by what it does to the tree: `k` characters `(`, a valid
condition compiled to `node` and `m` characters `)`; or a logic word. -/
inductive Tok
  | cond (k : Nat) (node : NodeKind) (m : Nat)
  | logic (newLogicIsOr : Bool)

/-- The effect of an accepted token on the parser. -/
def Tok.step (p : Parser) : Tok → Option Parser
  | .cond k node m => ((opening k p).bind fun q => addNode q node).bind (closeAll m)
  | .logic o => Parse.switchLogic p o

/-- The effect of a run of accepted tokens. -/
def acceptAll : List Tok → Parser → Option Parser
  | [], p => some p
  | t :: ts, p => (t.step p).bind (acceptAll ts)

/-- Whether the tokens alternate condition, logic, condition, ... -/
def alternates : Bool → List Tok → Bool
  | _, [] => true
  | false, .cond _ _ _ :: ts => alternates true ts
  | true, .logic _ :: ts => alternates false ts
  | _, _ => false

/-! ## Relabelling the expression nodes

`Parse` never looks inside an expression node once it is built, so the tree
it builds for given comparisons is the tree it builds for placeholders with
the comparisons put in their places. -/

/-- Replace the derived part of a node. -/
def Node.relabel (f : NodeKind → NodeKind) (n : Node) : Node := { n with kind := f n.kind }

/-- Replace the derived part of every node of a heap. -/
def Heap.relabel (f : NodeKind → NodeKind) (h : Heap) : Heap := h.map (Node.relabel f)

/-- Replace the derived part of every node of the heap of a parser. -/
def Parser.relabel (f : NodeKind → NodeKind) (p : Parser) : Parser :=
  { p with heap := Heap.relabel f p.heap }

/-- Replace the node of a condition token. -/
def Tok.relabel (f : NodeKind → NodeKind) : Tok → Tok
  | .cond k node m => .cond k (f node) m
  | .logic o => .logic o

/-- A relabelling that changes expression nodes only, into expression nodes. -/
structure KeepsShape (f : NodeKind → NodeKind) : Prop where
  branch : ∀ o a, f (.branch o a) = .branch o a
  branchRoot : ∀ b o, f (.branchRoot b o) = .branchRoot b o
  fork : ∀ r, f (.fork r) = .fork r
  destroyed : f .destroyed = .destroyed
  expression : ∀ v o n, ∃ v' o' n', f (.expression v o n) = .expression v' o' n'

/-- The placeholder for the `i`-th comparison. -/
def hole (i : Nat) : NodeKind := .expression false 0 i

/-- Put the nodes of the given terms in the places of the placeholders. -/
def fill (ts : List Term) : NodeKind → NodeKind
  | .expression false 0 (.ofNat i) =>
    match ts[i]? with
    | some t => t.node
    | none => .expression false 0 (.ofNat i)
  | k => k

/-- The text of a token with the given effect: `k` characters `(` (fewer than
`2^31`), a valid term and `m` characters `)`; or one of the four logic words. -/
def Tok.renders (data : List Char) : Tok → Prop
  | .cond k node m =>
    k < 2 ^ 31 ∧ ∃ t : Term, node = t.node ∧
      data = List.replicate k '(' ++ t.text ++ List.replicate m ')'
  | .logic true => data = "or".data ∨ data = "||".data
  | .logic false => data = "and".data ∨ data = "&&".data

/-- `ExpressionParser::GetResultCode`. -/
def GetResultCode (p : Parser) : ParseResult := p.m_result

/-- `ExpressionParser::GetErrorLocation`. -/
def GetErrorLocation (p : Parser) : Nat := p.m_errorAt

/-- The loop of `Parse` over the first tokens of the text only: where the
pass stands after them (parser, `currentLocationInString`,
`parsingCondition`), or the result `Parse` has returned meanwhile. -/
def Parse.through : List (List Char) → Parser → Nat → Bool → Option (Flow (Parser × Nat × Bool))
  | [], p, loc, parsingCondition => some (.next (p, loc, parsingCondition))
  | data :: rest, p, loc, parsingCondition =>
    match (if !parsingCondition then Parse.condition p loc data else Parse.logic p loc data) with
    | none => none
    | some (.ret r) => some (.ret r)
    | some (.next (p, loc)) => Parse.through rest p loc (!parsingCondition)

/-- A condition that is malformed in one of the three ways of the grammar:
its first decimal digit is not at index 1 or 2 (or it has no digit), or what
stands before the first digit is not a comparator, or the run of digits
denotes a value above `INT_MAX`. -/
def Malformed (cond : List Char) : Prop :=
  (find_first_of_digit cond ≠ some 1 ∧ find_first_of_digit cond ≠ some 2) ∨
  (∃ n, find_first_of_digit cond = some n ∧
    cond.take n ∉ ["<".data, "<=".data, "=".data, "!=".data, ">=".data, ">".data]) ∨
  (∃ n, find_first_of_digit cond = some n ∧
    digitsValue ((cond.drop n).takeWhile isDigit) > 2147483647)

/-- The failure codes the loop of `Parse` can return. -/
def loopFailures : List ParseResult :=
  [.ParsingInvalidCharacter, .ClosingUnopenedBrace, .InvalidExpression, .InvalidLogic]

/-- The instance states a program can reach: a constructed instance, and what
`Clear` and `Parse` leave (`Evaluate` and the getters are `const`). -/
inductive Reachable : Parser → Prop
  | constructed (p : Parser) : new = some p → Reachable p
  | cleared (p q : Parser) : Reachable p → Clear p = some q → Reachable q
  | parsed (p q : Parser) (text : List Char) (r : ParseResult) :
      Reachable p → Parse p text = some (r, q) → Reachable q

/-- The tree `Parse` builds for the example of the header, `"(>3 or <10) and !=5"`. -/
def headerExample : Heap :=
  [⟨.branch (some 1) (some 2), none, none⟩, ⟨.branchRoot 0 true, some 4, none⟩,
   ⟨.branchRoot 0 false, some 11, none⟩, ⟨.fork (some 2), none, some 11⟩,
   ⟨.fork (some 6), none, some 1⟩, ⟨.destroyed, none, none⟩,
   ⟨.branchRoot 5 true, some 10, none⟩, ⟨.branchRoot 5 false, none, none⟩,
   ⟨.fork (some 7), none, some 9⟩, ⟨.expression true 2 3, some 8, some 10⟩,
   ⟨.expression true 1 10, some 9, some 6⟩, ⟨.expression true 8 5, some 3, some 2⟩]

/-- Link consistency of a heap: `x.next = y` if and only if `y.prev = x`. -/
def Heap.WellLinked (h : Heap) : Prop :=
  ∀ x y, h.next x = some (some y) ↔ h.prev y = some (some x)

/-- The sequence of nodes met from a pointer along the successor links, up to
a node with no successor. -/
def Heap.IsChain (h : Heap) : Ptr → List Nat → Prop
  | p, [] => p = none
  | p, x :: xs => p = some x ∧ ∃ q, h.next x = some q ∧ Heap.IsChain h q xs

/-- The dynamic type of the node at an address, if there is one. -/
def Heap.kindAt (h : Heap) (x : Nat) : Option NodeKind := (h[x]?).map Node.kind

/-! ## Moving a heap behind other nodes

The nodes of a heap `l` placed behind the nodes of `pre`: every address held
in a node of `l` grows by the length of `pre`. -/

/-- The members of a node with every address moved up by `a`. -/
def NodeKind.shift (a : Nat) : NodeKind → NodeKind
  | .branch o r => .branch (o.map (a + ·)) (r.map (a + ·))
  | .branchRoot b o => .branchRoot (a + b) o
  | .fork r => .fork (r.map (a + ·))
  | .expression v o x => .expression v o x
  | .destroyed => .destroyed

/-- A node with every address moved up by `a`. -/
def Node.shift (a : Nat) (n : Node) : Node :=
  ⟨n.kind.shift a, n.m_pNext.map (a + ·), n.m_pPrev.map (a + ·)⟩

/-- The heap `l` allocated after the nodes of `pre`. -/
def Heap.frame (pre l : Heap) : Heap := pre ++ l.map (Node.shift pre.length)

/-- The parser state on the heap `p.heap` allocated after the nodes of `pre`,
with the forks `outer` below its own on the stack.  The base branch and the
current branch are kept as they are. -/
def Parser.frame (pre : Heap) (outer : List Nat) (p : Parser) : Parser :=
  { p with heap := Heap.frame pre p.heap,
           m_pActiveBranchRoot := pre.length + p.m_pActiveBranchRoot,
           m_braceForks := p.m_braceForks.map (pre.length + ·) ++ outer }

/-! ## The trees of nested open brackets -/

/-- The first node of the four that `BranchNode::Create` allocates: the base
branch of the parser, or the branch of a bracket, which `OpenBrace` lets go. -/
def blockKind (top : Bool) : NodeKind :=
  if top then .branch (some 1) (some 2) else .destroyed

/-- The nodes of the innermost branch while it is empty: the branch, its OR
root, its AND root and the fork to the AND root. -/
def lastBlock (top : Bool) : Heap :=
  [⟨blockKind top, none, none⟩, ⟨.branchRoot 0 true, some 3, none⟩,
   ⟨.branchRoot 0 false, none, none⟩, ⟨.fork (some 2), none, some 1⟩]

/-- The nodes of a branch in which a bracket has been opened, with the fork
of that bracket, whose target is the OR root of the nodes that follow. -/
def openBlock (top : Bool) : Heap :=
  [⟨blockKind top, none, none⟩, ⟨.branchRoot 0 true, some 3, none⟩,
   ⟨.branchRoot 0 false, none, none⟩, ⟨.fork (some 2), some 4, some 1⟩,
   ⟨.fork (some 6), none, some 3⟩]

/-- The nodes of the innermost branch once it holds one expression node. -/
def leafBlock (top : Bool) (node : NodeKind) : Heap :=
  [⟨blockKind top, none, none⟩, ⟨.branchRoot 0 true, some 4, none⟩,
   ⟨.branchRoot 0 false, none, none⟩, ⟨.fork (some 2), none, some 4⟩,
   ⟨node, some 3, some 1⟩]

/-- The parser state after `m` brackets have been opened in an empty branch. -/
def nested : Nat → Bool → Parser
  | 0, top => treeOf (lastBlock top) 1 []
  | m + 1, top => (nested m false).frame (openBlock top) [4]

/-- The parser state after `m` brackets have been opened and one expression
node added. -/
def nestedLeaf (node : NodeKind) : Nat → Bool → Parser
  | 0, top => treeOf (leafBlock top node) 1 []
  | m + 1, top => (nestedLeaf node m false).frame (openBlock top) [4]

/-! ## Chains and the value of a chain -/

/-- The nodes after `last` in its chain are `xs`, in order, with the two
links between neighbours consistent and a null successor at the end. -/
def Heap.IsDoubleChain (h : Heap) : Nat → List Nat → Prop
  | last, [] => h.next last = some none
  | last, x :: xs =>
    h.next last = some (some x) ∧ h.prev x = some (some last) ∧ Heap.IsDoubleChain h x xs

/-- The local `result` of `ExpressionNode::Evaluate` and of
`ForkNode::Evaluate`: the value of the node's own test, before the test
`GetNext() == nullptr || result == GetRoot()->IsOrLogic()` on what follows.
A fork gets it from its target, evaluated within the depth `fuel`.  There is
none for a root or a branch, for an expression node that is invalid or whose
operation the switch does not know (both return before that test), and for a
fork without target. -/
def Node.result (h : Heap) (fuel : Nat) (self : Nat) (value : Int) : Option Bool :=
  match h[self]? with
  | none => none
  | some me =>
    match me.kind with
    | .expression m_isValid m_operation m_value =>
      if m_isValid = false then none else ExpressionNode.compare m_operation value m_value
    | .fork (some r) => Node.Evaluate h fuel r value
    | _ => none

/-- A well formed chain headed by a root: `R` is a root of the kind
`isOrLogic` without predecessor, the nodes after it are `xs`, no node is met
twice, and the nodes of `xs` taken alone have the results `rs` at `value`. -/
structure IsChainOf (h : Heap) (R : Nat) (isOrLogic : Bool) (xs : List Nat) (rs : List Bool)
    (value : Int) (fuel : Nat) : Prop where
  root : ∃ b nx, h[R]? = some ⟨.branchRoot b isOrLogic, nx, none⟩
  chain : h.IsDoubleChain R xs
  nodup : (R :: xs).Nodup
  results : List.Forall₂ (fun x r => Node.result h fuel x value = some r) xs rs

/-- The value the specification gives to a chain whose nodes have the results
`rs`: false for a chain without nodes, else `r1 or ... or rn` under an OR
root and `r1 and ... and rn` under an AND root. -/
def chainValue : Bool → List Bool → Bool
  | _, [] => false
  | true, rs => rs.any id
  | false, rs => rs.all id

/-- An OR chain of two nodes: the expression `>3`, then a fork to an AND root
whose chain holds `<10`. -/
def chainExample : Heap :=
  [⟨.branchRoot 5 true, some 1, none⟩, ⟨.expression true 2 3, some 2, some 0⟩,
   ⟨.fork (some 3), none, some 1⟩, ⟨.branchRoot 5 false, some 4, none⟩,
   ⟨.expression true 1 10, none, some 3⟩, ⟨.branch (some 0) (some 3), none, none⟩]

/-- The chain of `chainExample` with its two nodes in the other order. -/
def chainExampleSwapped : Heap :=
  [⟨.branchRoot 5 true, some 2, none⟩, ⟨.expression true 2 3, none, some 2⟩,
   ⟨.fork (some 3), some 1, some 0⟩, ⟨.branchRoot 5 false, some 4, none⟩,
   ⟨.expression true 1 10, none, some 3⟩, ⟨.branch (some 0) (some 3), none, none⟩]

/-! ## Construction, reset and reuse -/

/-- C7. A never-parsed instance and an instance right after `Clear()`,
whatever its state was, are the same: `Evaluate` is false at every integer,
the top-level branch is empty (its OR root is followed only by the fork to
its AND root, which has no successor), the current branch is the base branch,
the current root its OR root, the fork stack is empty, the result is OK at
offset 0, and a following `Parse` does what it does on a new instance. -/
theorem Clear_is_new (p : Parser) :
    Clear p = new ∧
    ∃ q, Clear p = some q ∧
      (∀ v, Evaluate q v = some false) ∧
      q.m_isValid = false ∧ q.m_result = .OK ∧ q.m_errorAt = 0 ∧ q.m_braceForks = [] ∧
      q.m_pActiveBranch = some q.m_pBaseBranch ∧
      BranchNode.GetLogicPathRoot q.heap q.m_pBaseBranch true = some (some q.m_pActiveBranchRoot) ∧
      (∃ f a, q.heap.next q.m_pActiveBranchRoot = some (some f) ∧ q.heap.next f = some none ∧
        ForkNode.GetLinkedRoot q.heap f = some (some a) ∧
        BranchNode.GetLogicPathRoot q.heap q.m_pBaseBranch false = some (some a) ∧
        q.heap.next a = some none) ∧
      ∀ text, Parse q text = parseFresh text := by
  refine ⟨rfl, _, rfl, fun v => rfl, rfl, rfl, rfl, rfl, rfl, rfl, ⟨3, 2, rfl, rfl, rfl, rfl, rfl⟩,
    fun text => rfl⟩

/-- C5, the code at the failing input. `Parse(">5")` on a new instance
returns OK, and a second `Parse("<3")` on the same instance, with no `Clear`
in between, returns OK again instead of AlreadyConstructed and adds its
comparison to the tree: `Evaluate(0)` changes from false to true. -/
theorem Parse_twice_not_guarded :
    ∃ p q, parseFresh ">5".data = some (.OK, p) ∧ Evaluate p 0 = some false ∧
      Parse p "<3".data = some (.OK, q) ∧ Evaluate q 0 = some true := by
  refine ⟨_, _, rfl, rfl, rfl, rfl⟩

/-! ## Precedence: the code at the inputs where it departs from the grammar -/

/-- C1, the code at the failing input. `">10 and <5 or >0 and >1"` has the
two and-joined runs `>10 and <5` and `>0 and >1`; at 3 the second run holds,
so the expression is true, while `Parse` returns OK and `Evaluate(3)` is
false: all four comparisons end up in the one AND chain of the branch. -/
theorem two_and_runs_merged :
    run ">10 and <5 or >0 and >1".data 3 = some (.OK, some false) ∧
    (decide ((3 : Int) > 10 ∧ (3 : Int) < 5) || decide ((3 : Int) > 0 ∧ (3 : Int) > 1)) = true := by
  refine ⟨rfl, rfl⟩

/-- C2, the code at the failing input. The header's example
`"(>3 or <10) and !=5"` is true exactly away from 5; `Parse` returns OK and
`Evaluate(5)` is true: on the switch to AND the node moved out of the OR
chain is its head, the fork to the AND root, not the bracket's fork. -/
theorem header_example_wrong :
    run "(>3 or <10) and !=5".data 5 = some (.OK, some true) ∧
    (decide ((5 : Int) > 3 ∨ (5 : Int) < 10) && decide ((5 : Int) ≠ 5)) = false := by
  refine ⟨rfl, rfl⟩

/-! ## The string primitives -/

theorem find_first_not_of_spec (c : Char) : ∀ (data : List Char) (s : Nat),
    find_first_not_of data c = some s →
      s < data.length ∧ (∀ i, i < s → data[i]? = some c) ∧ data[s]? ≠ some c := by
  intro data
  induction data with
  | nil => intro s h; simp [find_first_not_of] at h
  | cons d ds ih =>
    intro s h
    rw [find_first_not_of] at h
    by_cases hd : d = c
    · subst hd
      simp only [ne_eq, not_true_eq_false, ↓reduceIte, Option.map_eq_some'] at h
      obtain ⟨a, ha, rfl⟩ := h
      obtain ⟨h1, h2, h3⟩ := ih a ha
      refine ⟨by simp; omega, ?_, by simpa using h3⟩
      intro i hi
      cases i with
      | zero => simp
      | succ j => simpa using h2 j (by omega)
    · simp only [ne_eq, hd, not_false_eq_true, ↓reduceIte, Option.some.injEq] at h
      subst h
      refine ⟨by simp, by intro i hi; omega, by simpa using hd⟩

theorem find_last_not_of_spec (c : Char) : ∀ (data : List Char),
    endPlusOne (find_last_not_of data c) ≤ data.length ∧
    (∀ i, endPlusOne (find_last_not_of data c) ≤ i → i < data.length → data[i]? = some c) ∧
    (∀ e, find_last_not_of data c = some e → data[e]? ≠ some c) := by
  intro data
  induction data with
  | nil => simp [find_last_not_of, endPlusOne]
  | cons d ds ih =>
    obtain ⟨h1, h2, h3⟩ := ih
    rw [find_last_not_of]
    cases hl : find_last_not_of ds c with
    | some e =>
      rw [hl] at h1 h2
      simp only [endPlusOne] at h1 h2 ⊢
      refine ⟨by simp; omega, ?_, ?_⟩
      · intro i hi hlt
        cases i with
        | zero => omega
        | succ j => simpa using h2 j (by omega) (by simpa using hlt)
      · intro e' he'
        simp only [Option.some.injEq] at he'
        subst he'
        simpa using h3 e hl
    | none =>
      rw [hl] at h1 h2
      simp only [endPlusOne] at h1 h2
      by_cases hd : d = c
      · subst hd
        simp only [ne_eq, not_true_eq_false, ↓reduceIte, endPlusOne]
        refine ⟨by simp, ?_, by simp⟩
        intro i _ hlt
        cases i with
        | zero => simp
        | succ j => simpa using h2 j (by omega) (by simpa using hlt)
      · simp only [ne_eq, hd, not_false_eq_true, ↓reduceIte, endPlusOne]
        refine ⟨by simp, ?_, ?_⟩
        · intro i hi hlt
          cases i with
          | zero => omega
          | succ j => simpa using h2 j (by omega) (by simpa using hlt)
        · intro e he
          simp only [Option.some.injEq] at he
          subst he
          simpa using hd

/-- The count `conditionEnd - conditionStart + 1` passed to `substr` never
underflows: the characters before `conditionStart` are `(`, hence not `)`. -/
theorem conditionStart_le_endPlusOne (data : List Char) (s : Nat)
    (h : find_first_not_of data '(' = some s) :
    s ≤ endPlusOne (find_last_not_of data ')') := by
  obtain ⟨h1, h2, _⟩ := find_first_not_of_spec '(' data s h
  obtain ⟨_, g2, _⟩ := find_last_not_of_spec ')' data
  by_contra hlt
  have hs : 0 < s := by omega
  have a := h2 (s - 1) (by omega)
  have b := g2 (s - 1) (by omega) (by omega)
  rw [a] at b
  exact absurd b (by decide)

theorem leading_eq_opening (data : List Char) : ∀ (n ci : Nat) (p : Parser) (loc : Nat),
    (∀ i, ci ≤ i → i < ci + n → data[i]? = some '(') →
    Parse.leading data n ci p loc = (opening n p).map fun q => .next (q, loc + n) := by
  intro n
  induction n with
  | zero => intro ci p loc _; simp [Parse.leading, opening]
  | succ n ih =>
    intro ci p loc h
    rw [Parse.leading, h ci (le_refl _) (by omega)]
    simp only [ne_eq, not_true_eq_false, ↓reduceIte, opening]
    cases hO : OpenBrace p with
    | none => simp
    | some q =>
      simp only [Option.some_bind]
      rw [ih (ci + 1) q (loc + 1) (fun i h1 h2 => h i (by omega) (by omega))]
      congr 1
      funext r
      congr 2
      omega

theorem trailing_eq_closing (data : List Char) : ∀ (n ci : Nat) (p : Parser) (loc : Nat),
    (∀ i, ci ≤ i → i < ci + n → data[i]? = some ')') →
    Parse.trailing data n ci p loc = closing n p loc := by
  intro n
  induction n with
  | zero => intro ci p loc _; simp [Parse.trailing, closing]
  | succ n ih =>
    intro ci p loc h
    rw [Parse.trailing, h ci (le_refl _) (by omega), closing]
    simp only [ne_eq, not_true_eq_false, ↓reduceIte]
    cases hC : CloseBrace p with
    | none => rfl
    | some r =>
      obtain ⟨b, q⟩ := r
      cases b with
      | false => rfl
      | true =>
        simp only
        exact ih (ci + 1) q (loc + 1) (fun i h1 h2 => h i (by omega) (by omega))

theorem toInt32_small (n : Nat) (h : n < 2 ^ 31) : (toInt32 n).toNat = n := by
  have h1 : n % 2 ^ 32 = n := Nat.mod_eq_of_lt (by omega)
  unfold toInt32
  rw [h1, if_pos h]
  simp

/-- The body of the loop of `Parse` for a condition token that has a
character other than `(`, fewer than `2^31` characters before it: the two
character tests never fail. -/
theorem condition_eq (p : Parser) (loc : Nat) (data : List Char) (cs : Nat)
    (hcs : find_first_not_of data '(' = some cs) (hsmall : cs < 2 ^ 31) :
    Parse.condition p loc data =
      match opening cs p with
      | none => none
      | some p =>
        match AddExpression p
            ((data.drop cs).take (endPlusOne (find_last_not_of data ')') - cs)) with
        | none => none
        | some (false, p) => (Parse.fail p .InvalidExpression (loc + cs)).map .ret
        | some (true, p) =>
          match closing (data.length - endPlusOne (find_last_not_of data ')')) p
              (loc + cs + (endPlusOne (find_last_not_of data ')') - cs)) with
          | none => none
          | some (.ret r) => some (.ret r)
          | some (.next (p, loc)) => some (.next (p, loc + 1)) := by
  obtain ⟨h1, h2, _⟩ := find_first_not_of_spec '(' data cs hcs
  obtain ⟨g1, g2, _⟩ := find_last_not_of_spec ')' data
  have hle := conditionStart_le_endPlusOne data cs hcs
  have hlen : ((data.drop cs).take (endPlusOne (find_last_not_of data ')') - cs)).length
      = endPlusOne (find_last_not_of data ')') - cs := by
    simp; omega
  unfold Parse.condition
  simp only [hcs, substr, if_neg (show ¬ cs > data.length by omega)]
  rw [toInt32_small cs hsmall,
    leading_eq_opening data cs 0 p loc (fun i _ hi => h2 i (by omega))]
  cases hO : opening cs p with
  | none => rfl
  | some p1 =>
    simp only [Option.map_some']
    cases hA : AddExpression p1
        ((data.drop cs).take (endPlusOne (find_last_not_of data ')') - cs)) with
    | none => rfl
    | some r =>
      obtain ⟨b, p2⟩ := r
      cases b with
      | false => rfl
      | true =>
        simp only
        rw [trailing_eq_closing data _ _ p2 _ (fun i hi1 hi2 => g2 i hi1 (by omega)), hlen]

theorem find_first_not_of_replicate (c x : Char) (hx : x ≠ c) (rest : List Char) :
    ∀ k, find_first_not_of (List.replicate k c ++ x :: rest) c = some k := by
  intro k
  induction k with
  | zero => simp [find_first_not_of, hx]
  | succ k ih => simp [List.replicate_succ, find_first_not_of, ih]

theorem find_last_not_of_replicate (c : Char) :
    ∀ m, find_last_not_of (List.replicate m c) c = none := by
  intro m
  induction m with
  | zero => rfl
  | succ m ih => simp [List.replicate_succ, find_last_not_of, ih]

theorem endPlusOne_find_last (c y : Char) (hy : y ≠ c) (m : Nat) :
    ∀ pre : List Char,
      endPlusOne (find_last_not_of (pre ++ y :: List.replicate m c) c) = pre.length + 1 := by
  intro pre
  induction pre with
  | nil => simp [find_last_not_of, find_last_not_of_replicate, hy, endPlusOne]
  | cons d ds ih =>
    simp only [List.cons_append, find_last_not_of, List.length_cons]
    cases hl : find_last_not_of (ds ++ y :: List.replicate m c) c with
    | none => rw [hl] at ih; simp [endPlusOne] at ih
    | some e => rw [hl] at ih; simp only [endPlusOne] at ih ⊢; omega

theorem isDigit_not_paren (c : Char) (h : isDigit c = true) :
    c ≠ '(' ∧ c ≠ ')' ∧ c ≠ ' ' := by
  refine ⟨?_, ?_, ?_⟩ <;> rintro rfl <;> exact absurd h (by decide)

theorem Comparator.text_cases (o : Comparator) :
    ∃ x rest, o.text = x :: rest ∧ x ≠ '(' ∧ isDigit x = false ∧
      (∀ c ∈ o.text, isDigit c = false ∧ c ≠ ' ') ∧ (o.text.length = 1 ∨ o.text.length = 2) := by
  cases o <;> exact ⟨_, _, rfl, by decide, by decide, by decide, by decide⟩

theorem Term.text_no_space (t : Term) : ∀ c ∈ t.text, c ≠ ' ' := by
  intro c hc
  rcases List.mem_append.mp hc with h | h
  · obtain ⟨_, _, _, _, _, h4, _⟩ := t.op.text_cases
    exact (h4 c h).2
  · exact (isDigit_not_paren c (t.digits_all c h)).2.2

theorem Term.text_ne_nil (t : Term) : t.text ≠ [] := by
  obtain ⟨x, rest, h, _⟩ := t.op.text_cases
  simp [Term.text, h]

theorem find_first_of_digit_append (pre : List Char) (hpre : ∀ c ∈ pre, isDigit c = false)
    (d : Char) (hd : isDigit d = true) (rest : List Char) :
    find_first_of_digit (pre ++ d :: rest) = some pre.length := by
  induction pre with
  | nil => simp [find_first_of_digit, hd]
  | cons x xs ih =>
    have hx : isDigit x = false := hpre x (by simp)
    simp [find_first_of_digit, hx, ih (fun c hc => hpre c (by simp [hc]))]

theorem takeWhile_all (l : List Char) (h : ∀ c ∈ l, isDigit c = true) :
    l.takeWhile isDigit = l := by
  induction l with
  | nil => rfl
  | cons x xs ih =>
    simp [List.takeWhile, h x (by simp), ih (fun c hc => h c (by simp [hc]))]

/-- The constructor accepts every valid term and stores its comparator and
operand. -/
theorem ExpressionNode.new_term (t : Term) : ExpressionNode.new t.text = t.node := by
  obtain ⟨x, rest, hx, _, _, hall, hlen⟩ := t.op.text_cases
  obtain ⟨d, ds, hd⟩ := List.exists_cons_of_ne_nil t.digits_ne
  have hdd : isDigit d = true := t.digits_all d (by simp [hd])
  have hnum : find_first_of_digit t.text = some t.op.text.length := by
    unfold Term.text
    rw [hd]
    exact find_first_of_digit_append _ (fun c hc => (hall c hc).1) d hdd ds
  have hstoi : stoi t.digits = some t.value := by
    unfold stoi
    simp only [takeWhile_all t.digits t.digits_all, if_neg t.digits_ne,
      if_neg (show ¬ digitsValue t.digits > 2147483647 from by have := t.in_range; omega)]
    rfl
  unfold ExpressionNode.new
  rw [hnum]
  have htake : List.take t.op.text.length t.text = t.op.text := by simp [Term.text]
  have hdrop : List.drop t.op.text.length t.text = t.digits := by simp [Term.text]
  simp only [htake, hdrop, hstoi]
  cases h : t.op <;> simp [h, Comparator.text, Term.node, Comparator.flags]

/-- A term between `k` opening and `m` closing brackets. -/
theorem condition_term (p : Parser) (loc : Nat) (t : Term) (k m : Nat) (hk : k < 2 ^ 31) :
    Parse.condition p loc (List.replicate k '(' ++ t.text ++ List.replicate m ')') =
      conditionOf p loc k t.node t.text.length m := by
  obtain ⟨x, rest, hx, hx1, _, _, _⟩ := t.op.text_cases
  have hne : t.digits ≠ [] := t.digits_ne
  have hlast : t.digits = t.digits.dropLast ++ [t.digits.getLast hne] :=
    (List.dropLast_append_getLast hne).symm
  have hy : t.digits.getLast hne ≠ ')' :=
    (isDigit_not_paren _ (t.digits_all _ (List.getLast_mem hne))).2.1
  have hfirst : find_first_not_of (List.replicate k '(' ++ t.text ++ List.replicate m ')') '('
      = some k := by
    have : List.replicate k '(' ++ t.text ++ List.replicate m ')'
        = List.replicate k '(' ++ x :: (rest ++ t.digits ++ List.replicate m ')') := by
      simp [Term.text, hx]
    rw [this]
    exact find_first_not_of_replicate '(' x hx1 _ k
  have hend : endPlusOne (find_last_not_of
      (List.replicate k '(' ++ t.text ++ List.replicate m ')') ')') = k + t.text.length := by
    have : List.replicate k '(' ++ t.text ++ List.replicate m ')'
        = (List.replicate k '(' ++ t.op.text ++ t.digits.dropLast)
          ++ t.digits.getLast hne :: List.replicate m ')' := by
      conv_lhs => rw [Term.text, hlast]
      simp
    rw [this, endPlusOne_find_last ')' _ hy m]
    conv_rhs => rw [Term.text, hlast]
    simp
    omega
  rw [condition_eq p loc _ k hfirst hk, hend]
  have hdata : List.replicate k '(' ++ t.text ++ List.replicate m ')'
      = List.replicate k '(' ++ (t.text ++ List.replicate m ')') := by simp
  have hcond : List.take (k + t.text.length - k)
      (List.drop k (List.replicate k '(' ++ t.text ++ List.replicate m ')')) = t.text := by
    rw [hdata, List.drop_left' (by simp), Nat.add_sub_cancel_left, List.take_left' rfl]
  have hadd : ∀ q : Parser, AddExpression q t.text = (addNode q t.node).map fun r => (true, r) := by
    intro q
    unfold AddExpression addNode
    rw [ExpressionNode.new_term]
    simp only [Term.node, NodeKind.IsValid, Bool.true_eq_false, ↓reduceIte]
    cases Node.SetNext (q.heap ++ [Node.fresh (.expression true t.op.flags t.value)])
      q.m_pActiveBranchRoot (some q.heap.length) <;> rfl
  have hm : (List.replicate k '(' ++ t.text ++ List.replicate m ')').length
      - (k + t.text.length) = m := by
    simp
    omega
  rw [hcond, hm, Nat.add_sub_cancel_left]
  unfold conditionOf
  cases opening k p with
  | none => rfl
  | some p1 =>
    simp only [hadd]
    cases addNode p1 t.node <;> rfl

/-! ## Splitting -/

theorem SplitString.go_token (d : Char) (t : List Char) (ht : ∀ c ∈ t, c ≠ d) :
    ∀ (rest cur : List Char),
      SplitString.go d (t ++ d :: rest) cur = (cur ++ t) :: SplitString.go d rest [] := by
  induction t with
  | nil => intro rest cur; simp [SplitString.go]
  | cons x xs ih =>
    intro rest cur
    have hx : x ≠ d := ht x (by simp)
    rw [List.cons_append, SplitString.go, if_neg hx, ih (fun c hc => ht c (by simp [hc]))]
    simp

theorem SplitString.go_last (d : Char) (t : List Char) (ht : ∀ c ∈ t, c ≠ d) :
    ∀ cur : List Char, cur ++ t ≠ [] → SplitString.go d t cur = [cur ++ t] := by
  induction t with
  | nil => intro cur h; simp at h; simp [SplitString.go, h]
  | cons x xs ih =>
    intro cur _
    have hx : x ≠ d := ht x (by simp)
    rw [SplitString.go, if_neg hx, ih (fun c hc => ht c (by simp [hc])) _ (by simp)]
    simp

theorem SplitString_token (t rest : List Char) (ht : ∀ c ∈ t, c ≠ ' ') :
    SplitString (t ++ ' ' :: rest) ' ' = t :: SplitString rest ' ' := by
  simpa [SplitString] using SplitString.go_token ' ' t ht rest []

theorem SplitString_last (t : List Char) (ht : ∀ c ∈ t, c ≠ ' ') (hne : t ≠ []) :
    SplitString t ' ' = [t] := by
  simpa [SplitString] using SplitString.go_last ' ' t ht [] (by simpa using hne)

theorem new_eq : new = some emptyTree := rfl

theorem parseFresh_eq (text : List Char) (hne : text ≠ []) :
    parseFresh text = Parse.loop (SplitString text ' ') emptyTree 0 false := by
  simp [parseFresh, new_eq, Parse, hne, emptyTree]

theorem split_five (t1 t2 t3 t4 t5 : List Char) (h1 : ∀ c ∈ t1, c ≠ ' ')
    (h2 : ∀ c ∈ t2, c ≠ ' ') (h3 : ∀ c ∈ t3, c ≠ ' ') (h4 : ∀ c ∈ t4, c ≠ ' ')
    (h5 : ∀ c ∈ t5, c ≠ ' ') (hne : t5 ≠ []) :
    SplitString (t1 ++ ' ' :: (t2 ++ ' ' :: (t3 ++ ' ' :: (t4 ++ ' ' :: t5)))) ' '
      = [t1, t2, t3, t4, t5] := by
  rw [SplitString_token _ _ h1, SplitString_token _ _ h2, SplitString_token _ _ h3,
    SplitString_token _ _ h4, SplitString_last _ h5 hne]

theorem split_and_or (a b c : Term) :
    SplitString (a.text ++ " and ".data ++ b.text ++ " or ".data ++ c.text) ' '
      = [a.text, "and".data, b.text, "or".data, c.text] := by
  have h := split_five a.text "and".data b.text "or".data c.text a.text_no_space (by decide)
    b.text_no_space (by decide) c.text_no_space c.text_ne_nil
  rw [← h]
  simp

theorem split_or_and (a b c : Term) :
    SplitString (a.text ++ " or ".data ++ b.text ++ " and ".data ++ c.text) ' '
      = [a.text, "or".data, b.text, "and".data, c.text] := by
  have h := split_five a.text "or".data b.text "and".data c.text a.text_no_space (by decide)
    b.text_no_space (by decide) c.text_no_space c.text_ne_nil
  rw [← h]
  simp

theorem split_bracket (a b c : Term) :
    SplitString (a.text ++ " and (".data ++ b.text ++ " or ".data ++ c.text ++ ")".data) ' '
      = [a.text, "and".data, '(' :: b.text, "or".data, c.text ++ [')']] := by
  have h := split_five a.text "and".data ('(' :: b.text) "or".data (c.text ++ [')'])
    a.text_no_space (by decide)
    (by intro x hx; rcases List.mem_cons.mp hx with rfl | hx
        · decide
        · exact b.text_no_space x hx)
    (by decide)
    (by intro x hx; rcases List.mem_append.mp hx with hx | hx
        · exact c.text_no_space x hx
        · rw [List.mem_singleton.mp hx]; decide)
    (by simp)
  rw [← h]
  simp

theorem Parse.loop_condition (data : List Char) (rest : List (List Char)) (p : Parser)
    (loc : Nat) (q : Parser) (loc' : Nat)
    (h : Parse.condition p loc data = some (.next (q, loc'))) :
    Parse.loop (data :: rest) p loc false = Parse.loop rest q loc' true := by
  simp [Parse.loop, h]

theorem Parse.loop_logic (data : List Char) (rest : List (List Char)) (p : Parser)
    (loc : Nat) (q : Parser) (loc' : Nat)
    (h : Parse.logic p loc data = some (.next (q, loc'))) :
    Parse.loop (data :: rest) p loc true = Parse.loop rest q loc' false := by
  simp [Parse.loop, h]

theorem Term.compare_eq (t : Term) (v : Int) :
    ExpressionNode.compare t.op.flags v t.value = some (t.holds v) := by
  unfold Term.holds
  cases t.op <;> rfl

/-! ## Relabelling commutes with the operations on the heap -/

theorem fill_keepsShape (ts : List Term) : KeepsShape (fill ts) := by
  refine ⟨fun _ _ => rfl, fun _ _ => rfl, fun _ => rfl, rfl, ?_⟩
  intro v o n
  unfold fill
  split
  · split
    · exact ⟨_, _, _, rfl⟩
    · exact ⟨_, _, _, rfl⟩
  · exact ⟨_, _, _, rfl⟩

theorem Heap.relabel_get (f : NodeKind → NodeKind) (h : Heap) (p : Nat) :
    (Heap.relabel f h)[p]? = (h[p]?).map (Node.relabel f) := by
  simp [Heap.relabel]

theorem Heap.relabel_length (f : NodeKind → NodeKind) (h : Heap) :
    (Heap.relabel f h).length = h.length := by
  simp [Heap.relabel]

theorem Heap.relabel_next (f : NodeKind → NodeKind) (h : Heap) (p : Nat) :
    (Heap.relabel f h).next p = h.next p := by
  simp [Heap.next, Heap.relabel_get, Node.relabel, Function.comp_def]

theorem Heap.relabel_prev (f : NodeKind → NodeKind) (h : Heap) (p : Nat) :
    (Heap.relabel f h).prev p = h.prev p := by
  simp [Heap.prev, Heap.relabel_get, Node.relabel, Function.comp_def]

theorem Heap.relabel_nextOrNull (f : NodeKind → NodeKind) (h : Heap) (b : Ptr) :
    (Heap.relabel f h).nextOrNull b = h.nextOrNull b := by
  cases b <;> simp [Heap.nextOrNull, Heap.relabel_next]

theorem Heap.relabel_prevOrNull (f : NodeKind → NodeKind) (h : Heap) (b : Ptr) :
    (Heap.relabel f h).prevOrNull b = h.prevOrNull b := by
  cases b <;> simp [Heap.prevOrNull, Heap.relabel_prev]

theorem Heap.relabel_setNext (f : NodeKind → NodeKind) (h : Heap) (p : Nat) (v : Ptr) :
    (Heap.relabel f h).setNext p v = (h.setNext p v).map (Heap.relabel f) := by
  unfold Heap.setNext
  rw [Heap.relabel_get]
  cases h[p]? with
  | none => rfl
  | some n => simp [Heap.relabel, Node.relabel, List.map_set]

theorem Heap.relabel_setPrev (f : NodeKind → NodeKind) (h : Heap) (p : Nat) (v : Ptr) :
    (Heap.relabel f h).setPrev p v = (h.setPrev p v).map (Heap.relabel f) := by
  unfold Heap.setPrev
  rw [Heap.relabel_get]
  cases h[p]? with
  | none => rfl
  | some n => simp [Heap.relabel, Node.relabel, List.map_set]

theorem Node.SetNext.step1_relabel (f : NodeKind → NodeKind) (h : Heap) (self : Nat) (b : Ptr) :
    Node.SetNext.step1 (Heap.relabel f h) self b
      = (Node.SetNext.step1 h self b).map (Heap.relabel f) := by
  unfold Node.SetNext.step1
  simp only [Option.bind_eq_bind, Heap.relabel_setNext]
  cases h.setNext self b with
  | none => rfl
  | some h1 => cases b <;> simp [Heap.relabel_setPrev]

theorem Node.SetNext.step2_relabel (f : NodeKind → NodeKind) (h : Heap) (b q : Ptr) :
    Node.SetNext.step2 (Heap.relabel f h) b q
      = (Node.SetNext.step2 h b q).map (Heap.relabel f) := by
  unfold Node.SetNext.step2
  cases q with
  | none => rfl
  | some q =>
    simp only [Option.bind_eq_bind, Heap.relabel_nextOrNull]
    cases h.nextOrNull b with
    | none => rfl
    | some v =>
      simp only [Option.some_bind, Heap.relabel_setNext]
      cases h.setNext q v with
      | none => rfl
      | some h1 =>
        simp only [Option.map_some', Option.some_bind, Heap.relabel_next]
        cases h1.next q with
        | none => rfl
        | some qn => cases qn <;> simp [Heap.relabel_setPrev]

theorem Node.SetNext.step3_relabel (f : NodeKind → NodeKind) (h : Heap) (b o : Ptr) :
    Node.SetNext.step3 (Heap.relabel f h) b o
      = (Node.SetNext.step3 h b o).map (Heap.relabel f) := by
  unfold Node.SetNext.step3
  cases b with
  | none => cases o <;> simp [Heap.relabel_setPrev]
  | some b =>
    simp only [Option.bind_eq_bind, Heap.relabel_setNext]
    cases h.setNext b o with
    | none => rfl
    | some h1 => cases o <;> simp [Heap.relabel_setPrev]

theorem Node.SetNext_relabel (f : NodeKind → NodeKind) (h : Heap) (self : Nat) (b : Ptr) :
    Node.SetNext (Heap.relabel f h) self b = (Node.SetNext h self b).map (Heap.relabel f) := by
  unfold Node.SetNext
  simp only [Heap.relabel_next, Heap.relabel_nextOrNull, Heap.relabel_prevOrNull,
    Option.bind_eq_bind, Node.SetNext.step1_relabel]
  cases h.next self with
  | none => rfl
  | some o =>
  cases h.nextOrNull b with
  | none => rfl
  | some tn =>
  cases h.prevOrNull b with
  | none => rfl
  | some tp =>
  simp only [Option.some_bind]
  cases Node.SetNext.step1 h self b with
  | none => rfl
  | some h1 =>
  simp only [Option.map_some', Option.some_bind, Node.SetNext.step2_relabel]
  cases Node.SetNext.step2 h1 b tp with
  | none => rfl
  | some h2 => simp [Node.SetNext.step3_relabel]

theorem GetRoot_walk_relabel (f : NodeKind → NodeKind) (h : Heap) :
    ∀ fuel p, Node.GetRoot.walk (Heap.relabel f h) fuel p = Node.GetRoot.walk h fuel p := by
  intro fuel
  induction fuel with
  | zero => intro p; rfl
  | succ n ih =>
    intro p
    simp only [Node.GetRoot.walk, Heap.relabel_prev]
    cases h.prev p with
    | none => rfl
    | some q => cases q <;> simp [ih]

theorem GetLast_walk_relabel (f : NodeKind → NodeKind) (h : Heap) :
    ∀ fuel p, Node.GetLast.walk (Heap.relabel f h) fuel p = Node.GetLast.walk h fuel p := by
  intro fuel
  induction fuel with
  | zero => intro p; rfl
  | succ n ih =>
    intro p
    simp only [Node.GetLast.walk, Heap.relabel_next]
    cases h.next p with
    | none => rfl
    | some q => cases q <;> simp [ih]

theorem Node.GetLast_relabel (f : NodeKind → NodeKind) (h : Heap) (p : Nat) :
    Node.GetLast (Heap.relabel f h) p = Node.GetLast h p := by
  simp only [Node.GetLast, Heap.relabel_next, GetLast_walk_relabel, Heap.relabel_length]

theorem castBranchRoot_relabel (f : NodeKind → NodeKind) (hf : KeepsShape f) (h : Heap)
    (p : Nat) : castBranchRoot (Heap.relabel f h) p = castBranchRoot h p := by
  simp only [castBranchRoot, Heap.relabel_get]
  cases h[p]? with
  | none => rfl
  | some n =>
    obtain ⟨k, nx, pv⟩ := n
    cases k with
    | expression v o x =>
      obtain ⟨v', o', x', e⟩ := hf.expression v o x
      simp [Node.relabel, e]
    | _ => simp [Node.relabel, hf.branch, hf.branchRoot, hf.fork, hf.destroyed]

theorem Node.GetRoot_relabel (f : NodeKind → NodeKind) (hf : KeepsShape f) (h : Heap)
    (p : Nat) : Node.GetRoot (Heap.relabel f h) p = Node.GetRoot h p := by
  simp only [Node.GetRoot, Heap.relabel_prev, GetRoot_walk_relabel, Heap.relabel_length]
  cases h.prev p with
  | none => rfl
  | some q =>
    cases q with
    | none => exact castBranchRoot_relabel f hf h p
    | some q =>
      simp only
      cases Node.GetRoot.walk h h.length q with
      | none => rfl
      | some r => exact castBranchRoot_relabel f hf h r

theorem BranchRootNode.IsOrLogic_relabel (f : NodeKind → NodeKind) (hf : KeepsShape f)
    (h : Heap) (p : Nat) :
    BranchRootNode.IsOrLogic (Heap.relabel f h) p = BranchRootNode.IsOrLogic h p := by
  simp only [BranchRootNode.IsOrLogic, Heap.relabel_get]
  cases h[p]? with
  | none => rfl
  | some n =>
    obtain ⟨k, nx, pv⟩ := n
    cases k with
    | expression v o x =>
      obtain ⟨v', o', x', e⟩ := hf.expression v o x
      simp [Node.relabel, e]
    | _ => simp [Node.relabel, hf.branch, hf.branchRoot, hf.fork, hf.destroyed]

theorem BranchNode.GetLogicPathRoot_relabel (f : NodeKind → NodeKind) (hf : KeepsShape f)
    (h : Heap) (p : Nat) (o : Bool) :
    BranchNode.GetLogicPathRoot (Heap.relabel f h) p o = BranchNode.GetLogicPathRoot h p o := by
  simp only [BranchNode.GetLogicPathRoot, Heap.relabel_get]
  cases h[p]? with
  | none => rfl
  | some n =>
    obtain ⟨k, nx, pv⟩ := n
    cases k with
    | expression v o x =>
      obtain ⟨v', o', x', e⟩ := hf.expression v o x
      simp [Node.relabel, e]
    | _ => simp [Node.relabel, hf.branch, hf.branchRoot, hf.fork, hf.destroyed]

theorem ForkNode.GetLinkedRoot_relabel (f : NodeKind → NodeKind) (hf : KeepsShape f)
    (h : Heap) (p : Nat) :
    ForkNode.GetLinkedRoot (Heap.relabel f h) p = ForkNode.GetLinkedRoot h p := by
  simp only [ForkNode.GetLinkedRoot, Heap.relabel_get]
  cases h[p]? with
  | none => rfl
  | some n =>
    obtain ⟨k, nx, pv⟩ := n
    cases k with
    | expression v o x =>
      obtain ⟨v', o', x', e⟩ := hf.expression v o x
      simp [Node.relabel, e]
    | _ => simp [Node.relabel, hf.branch, hf.branchRoot, hf.fork, hf.destroyed]

theorem ForkNode.SetLinkedRoot_relabel (f : NodeKind → NodeKind) (hf : KeepsShape f)
    (h : Heap) (p : Nat) (r : Ptr) :
    ForkNode.SetLinkedRoot (Heap.relabel f h) p r
      = (ForkNode.SetLinkedRoot h p r).map (Heap.relabel f) := by
  simp only [ForkNode.SetLinkedRoot, Heap.relabel_get]
  cases h[p]? with
  | none => rfl
  | some n =>
    obtain ⟨k, nx, pv⟩ := n
    cases k with
    | expression v o x =>
      obtain ⟨v', o', x', e⟩ := hf.expression v o x
      simp [Node.relabel, e]
    | _ => simp [Node.relabel, Heap.relabel, List.map_set, hf.branch, hf.branchRoot, hf.fork,
        hf.destroyed]

theorem BranchRootNode.GetParentBranch_relabel (f : NodeKind → NodeKind) (hf : KeepsShape f)
    (h : Heap) (p : Nat) :
    BranchRootNode.GetParentBranch (Heap.relabel f h) p
      = BranchRootNode.GetParentBranch h p := by
  have key : ∀ b : Nat,
      (match (Heap.relabel f h)[b]? with
        | some ⟨.branch _ _, _, _⟩ => some (some b)
        | _ => (some none : Option Ptr))
      = (match h[b]? with
        | some ⟨.branch _ _, _, _⟩ => some (some b)
        | _ => (some none : Option Ptr)) := by
    intro b
    rw [Heap.relabel_get]
    cases h[b]? with
    | none => rfl
    | some n =>
      obtain ⟨k, nx, pv⟩ := n
      cases k with
      | expression v o x =>
        obtain ⟨v', o', x', e⟩ := hf.expression v o x
        simp [Node.relabel, e]
      | _ => simp [Node.relabel, hf.branch, hf.branchRoot, hf.fork, hf.destroyed]
  simp only [BranchRootNode.GetParentBranch, Heap.relabel_get]
  cases h[p]? with
  | none => rfl
  | some n =>
    obtain ⟨k, nx, pv⟩ := n
    cases k with
    | expression v o x =>
      obtain ⟨v', o', x', e⟩ := hf.expression v o x
      simp [Node.relabel, e]
    | branchRoot b o =>
      simp only [Option.map_some', Node.relabel, hf.branchRoot]
      simpa [Heap.relabel_get] using key b
    | _ => simp [Node.relabel, hf.branch, hf.fork, hf.destroyed]

theorem Heap.relabel_append (f : NodeKind → NodeKind) (h l : Heap) :
    Heap.relabel f (h ++ l) = Heap.relabel f h ++ Heap.relabel f l := by
  simp [Heap.relabel]

theorem Heap.release_relabel (f : NodeKind → NodeKind) (hf : KeepsShape f) (h : Heap)
    (b : Nat) : Heap.release (Heap.relabel f h) b = Heap.relabel f (Heap.release h b) := by
  simp only [Heap.release, Heap.relabel_get]
  cases h[b]? with
  | none => rfl
  | some n => simp [Heap.relabel, Node.relabel, List.map_set, hf.destroyed]

theorem BranchNode.Create_relabel (f : NodeKind → NodeKind) (hf : KeepsShape f) (h : Heap) :
    BranchNode.Create (Heap.relabel f h)
      = (BranchNode.Create h).map fun r => (Heap.relabel f r.1, r.2) := by
  unfold BranchNode.Create
  have e : Heap.relabel f h ++
      [Node.fresh (.branch (some ((Heap.relabel f h).length + 1))
          (some ((Heap.relabel f h).length + 2))),
        Node.fresh (.branchRoot (Heap.relabel f h).length true),
        Node.fresh (.branchRoot (Heap.relabel f h).length false),
        Node.fresh (.fork (some ((Heap.relabel f h).length + 2)))]
      = Heap.relabel f (h ++
      [Node.fresh (.branch (some (h.length + 1)) (some (h.length + 2))),
        Node.fresh (.branchRoot h.length true),
        Node.fresh (.branchRoot h.length false),
        Node.fresh (.fork (some (h.length + 2)))]) := by
    simp [Heap.relabel, Node.relabel, Node.fresh, hf.branch, hf.branchRoot, hf.fork]
  simp only [Option.bind_eq_bind, Option.pure_def]
  rw [e, Node.SetNext_relabel, Heap.relabel_length]
  cases Node.SetNext _ (h.length + 1) (some (h.length + 3)) <;> rfl

theorem OpenBrace_relabel (f : NodeKind → NodeKind) (hf : KeepsShape f) (p : Parser) :
    OpenBrace (p.relabel f) = (OpenBrace p).map (Parser.relabel f) := by
  unfold OpenBrace
  have e : (p.relabel f).heap ++ [Node.fresh (.fork none)]
      = Heap.relabel f (p.heap ++ [Node.fresh (.fork none)]) := by
    simp [Parser.relabel, Heap.relabel, Node.relabel, Node.fresh, hf.fork]
  simp only [Option.bind_eq_bind, Option.pure_def]
  rw [e, BranchNode.Create_relabel f hf]
  cases BranchNode.Create (p.heap ++ [Node.fresh (.fork none)]) with
  | none => rfl
  | some r =>
    obtain ⟨h1, b⟩ := r
    simp only [Option.map_some', Option.some_bind, BranchNode.GetLogicPathRoot_relabel f hf]
    cases BranchNode.GetLogicPathRoot h1 b true with
    | none => rfl
    | some r =>
      have hl : (p.relabel f).heap.length = p.heap.length := by
        simp [Parser.relabel, Heap.relabel]
      simp only [Option.some_bind, hl, ForkNode.SetLinkedRoot_relabel f hf]
      cases ForkNode.SetLinkedRoot h1 p.heap.length r with
      | none => rfl
      | some h2 =>
        have ha : (p.relabel f).m_pActiveBranchRoot = p.m_pActiveBranchRoot := rfl
        simp only [Option.map_some', Option.some_bind, Node.GetLast_relabel, ha]
        cases Node.GetLast h2 p.m_pActiveBranchRoot with
        | none => rfl
        | some last =>
          simp only [Option.some_bind, Node.SetNext_relabel]
          cases Node.SetNext h2 last (some p.heap.length) with
          | none => rfl
          | some h3 =>
            simp only [Option.map_some', Option.some_bind,
              ForkNode.GetLinkedRoot_relabel f hf]
            cases ForkNode.GetLinkedRoot h3 p.heap.length with
            | none => rfl
            | some r =>
              cases r with
              | none => rfl
              | some r =>
                simp [Parser.relabel, Heap.release_relabel f hf]

theorem CloseBrace_relabel (f : NodeKind → NodeKind) (hf : KeepsShape f) (p : Parser) :
    CloseBrace (p.relabel f) = (CloseBrace p).map fun r => (r.1, r.2.relabel f) := by
  unfold CloseBrace
  have hb : (p.relabel f).m_braceForks = p.m_braceForks := rfl
  have hh : (p.relabel f).heap = Heap.relabel f p.heap := rfl
  rw [hb]
  cases p.m_braceForks with
  | nil => rfl
  | cons x rest =>
    simp only [Option.bind_eq_bind, Option.pure_def, hh, Node.GetRoot_relabel f hf]
    cases Node.GetRoot p.heap x with
    | none => rfl
    | some r =>
      simp only [Option.some_bind, BranchRootNode.GetParentBranch_relabel f hf]
      cases BranchRootNode.GetParentBranch p.heap r <;> rfl

theorem addNode_relabel (f : NodeKind → NodeKind) (p : Parser) (n : NodeKind) :
    addNode (p.relabel f) (f n) = (addNode p n).map (Parser.relabel f) := by
  unfold addNode
  have e : (p.relabel f).heap ++ [Node.fresh (f n)]
      = Heap.relabel f (p.heap ++ [Node.fresh n]) := by
    simp [Parser.relabel, Heap.relabel, Node.relabel, Node.fresh]
  have hl : (p.relabel f).heap.length = p.heap.length := by
    simp [Parser.relabel, Heap.relabel]
  have ha : (p.relabel f).m_pActiveBranchRoot = p.m_pActiveBranchRoot := rfl
  rw [e, hl, ha, Node.SetNext_relabel]
  cases Node.SetNext (p.heap ++ [Node.fresh n]) p.m_pActiveBranchRoot (some p.heap.length) <;> rfl

theorem opening_relabel (f : NodeKind → NodeKind) (hf : KeepsShape f) :
    ∀ (k : Nat) (p : Parser), opening k (p.relabel f) = (opening k p).map (Parser.relabel f) := by
  intro k
  induction k with
  | zero => intro p; rfl
  | succ k ih =>
    intro p
    simp only [opening, OpenBrace_relabel f hf]
    cases OpenBrace p with
    | none => rfl
    | some q => simpa using ih q

theorem closeAll_relabel (f : NodeKind → NodeKind) (hf : KeepsShape f) :
    ∀ (m : Nat) (p : Parser),
      closeAll m (p.relabel f) = (closeAll m p).map (Parser.relabel f) := by
  intro m
  induction m with
  | zero => intro p; rfl
  | succ m ih =>
    intro p
    simp only [closeAll, CloseBrace_relabel f hf]
    cases CloseBrace p with
    | none => rfl
    | some r =>
      obtain ⟨b, q⟩ := r
      cases b with
      | false => rfl
      | true => simpa using ih q

theorem Parse.switchLogic_relabel (f : NodeKind → NodeKind) (hf : KeepsShape f) (p : Parser)
    (o : Bool) :
    Parse.switchLogic (p.relabel f) o = (Parse.switchLogic p o).map (Parser.relabel f) := by
  unfold Parse.switchLogic
  have hh : (p.relabel f).heap = Heap.relabel f p.heap := rfl
  have ha : (p.relabel f).m_pActiveBranchRoot = p.m_pActiveBranchRoot := rfl
  have hb : (p.relabel f).m_pActiveBranch = p.m_pActiveBranch := rfl
  simp only [Option.bind_eq_bind, Option.pure_def, hh, ha, hb,
    BranchRootNode.IsOrLogic_relabel f hf]
  cases BranchRootNode.IsOrLogic p.heap p.m_pActiveBranchRoot with
  | none => rfl
  | some isOr =>
    simp only [Option.some_bind]
    by_cases hne : isOr = o
    · simp [hne]
    · simp only [ne_eq, hne, not_false_eq_true, ↓reduceIte]
      cases p.m_pActiveBranch with
      | none => rfl
      | some b =>
        simp only [Option.some_bind, BranchNode.GetLogicPathRoot_relabel f hf]
        cases BranchNode.GetLogicPathRoot p.heap b (!isOr) with
        | none => rfl
        | some r =>
          cases r with
          | none => rfl
          | some r =>
            simp only [Option.some_bind]
            cases o with
            | true => simp [Parser.relabel]
            | false =>
              simp only [↓reduceIte, BranchNode.GetLogicPathRoot_relabel f hf]
              cases BranchNode.GetLogicPathRoot p.heap b true with
              | none => rfl
              | some o1 =>
                cases o1 with
                | none => rfl
                | some o1 =>
                  simp only [Option.some_bind, Heap.relabel_next]
                  cases p.heap.next o1 with
                  | none => rfl
                  | some mv =>
                    simp only [Option.some_bind, Node.SetNext_relabel]
                    cases Node.SetNext p.heap r mv <;> simp [Parser.relabel]

theorem Tok.step_relabel (f : NodeKind → NodeKind) (hf : KeepsShape f) (p : Parser) (t : Tok) :
    (t.relabel f).step (p.relabel f) = (t.step p).map (Parser.relabel f) := by
  cases t with
  | logic o => exact Parse.switchLogic_relabel f hf p o
  | cond k node m =>
    simp only [Tok.relabel, Tok.step, opening_relabel f hf]
    cases opening k p with
    | none => rfl
    | some q =>
      simp only [Option.map_some', Option.some_bind, addNode_relabel]
      cases addNode q node with
      | none => rfl
      | some q1 => simpa using closeAll_relabel f hf m q1

/-- The tree built for given comparisons is the tree built for placeholders,
with the comparisons in their places. -/
theorem acceptAll_relabel (f : NodeKind → NodeKind) (hf : KeepsShape f) :
    ∀ (ts : List Tok) (p : Parser),
      acceptAll (ts.map (Tok.relabel f)) (p.relabel f)
        = (acceptAll ts p).map (Parser.relabel f) := by
  intro ts
  induction ts with
  | nil => intro p; rfl
  | cons t ts ih =>
    intro p
    simp only [List.map_cons, acceptAll, Tok.step_relabel f hf]
    cases t.step p with
    | none => rfl
    | some q => simpa using ih q

/-! ## Accepted tokens -/

theorem closing_of_closeAll : ∀ (m : Nat) (p q : Parser) (loc : Nat),
    closeAll m p = some q → closing m p loc = some (.next (q, loc + m)) := by
  intro m
  induction m with
  | zero => intro p q loc h; simp only [closeAll, Option.some.injEq] at h; subst h; rfl
  | succ m ih =>
    intro p q loc h
    rw [closeAll] at h
    rw [closing]
    cases hC : CloseBrace p with
    | none => rw [hC] at h; simp at h
    | some r =>
      obtain ⟨b, p1⟩ := r
      rw [hC] at h
      cases b with
      | false => simp at h
      | true =>
        simp only at h ⊢
        rw [ih p1 q (loc + 1) h]
        congr 3
        omega

theorem conditionOf_of_step (p q : Parser) (loc k : Nat) (node : NodeKind) (len m : Nat)
    (h : (Tok.cond k node m).step p = some q) :
    conditionOf p loc k node len m = some (.next (q, loc + k + len + m + 1)) := by
  simp only [Tok.step] at h
  unfold conditionOf
  cases hO : opening k p with
  | none => rw [hO] at h; simp at h
  | some p1 =>
    rw [hO] at h
    simp only [Option.some_bind] at h
    cases hA : addNode p1 node with
    | none => rw [hA] at h; simp at h
    | some p2 =>
      rw [hA] at h
      simp only [Option.some_bind] at h
      simp only [hA, closing_of_closeAll m p2 q _ h]

theorem logic_of_step (p q : Parser) (loc : Nat) (data : List Char) (o : Bool)
    (hr : Tok.renders data (.logic o)) (h : (Tok.logic o).step p = some q) :
    Parse.logic p loc data = some (.next (q, loc + data.length + 1)) := by
  simp only [Tok.step] at h
  cases o with
  | true =>
    rcases hr with rfl | rfl
    · have e : Parse.logic p loc "or".data
          = (Parse.switchLogic p true).map fun p => .next (p, loc + "or".data.length + 1) := rfl
      rw [e, h]; rfl
    · have e : Parse.logic p loc "||".data
          = (Parse.switchLogic p true).map fun p => .next (p, loc + "||".data.length + 1) := rfl
      rw [e, h]; rfl
  | false =>
    rcases hr with rfl | rfl
    · have e : Parse.logic p loc "and".data
          = (Parse.switchLogic p false).map fun p => .next (p, loc + "and".data.length + 1) := rfl
      rw [e, h]; rfl
    · have e : Parse.logic p loc "&&".data
          = (Parse.switchLogic p false).map fun p => .next (p, loc + "&&".data.length + 1) := rfl
      rw [e, h]; rfl

/-- A text whose tokens are all accepted is parsed with result OK, and the
tree is the one the accepted tokens build. -/
theorem Parse.loop_accept : ∀ (datas : List (List Char)) (toks : List Tok),
    List.Forall₂ Tok.renders datas toks →
    ∀ (p q : Parser) (loc : Nat) (pc : Bool), alternates pc toks = true →
      acceptAll toks p = some q → Parse.loop datas p loc pc = some (SetResult q .OK 0) := by
  intro datas toks hr
  induction hr with
  | nil =>
    intro p q loc pc _ h
    simp only [acceptAll, Option.some.injEq] at h
    subst h
    rfl
  | @cons data tok datas toks h1 _ ih =>
    intro p q loc pc halt h
    rw [acceptAll] at h
    cases hS : tok.step p with
    | none => rw [hS] at h; simp at h
    | some p1 =>
      rw [hS] at h
      simp only [Option.some_bind] at h
      cases tok with
      | cond k node m =>
        cases pc with
        | true => simp [alternates] at halt
        | false =>
          obtain ⟨hk, t, rfl, rfl⟩ := h1
          rw [Parse.loop_condition _ _ _ _ p1 _
            (by rw [condition_term _ _ _ _ _ hk]; exact conditionOf_of_step _ _ _ _ _ _ _ hS)]
          exact ih p1 q _ true (by simpa [alternates] using halt) h
      | logic o =>
        cases pc with
        | false => simp [alternates] at halt
        | true =>
          rw [Parse.loop_logic _ _ _ _ p1 _ (logic_of_step _ _ _ _ _ h1 hS)]
          exact ih p1 q _ false (by simpa [alternates] using halt) h

theorem emptyTree_relabel (f : NodeKind → NodeKind) (hf : KeepsShape f) :
    emptyTree.relabel f = emptyTree := by
  simp [emptyTree, Parser.relabel, Heap.relabel, Node.relabel, hf.branch, hf.branchRoot, hf.fork]

/-- Parsing a text made of valid terms, brackets and logic words: run the
tokens on placeholders, then put the terms in. -/
theorem parseFresh_of_placeholders (text : List Char) (hne : text ≠ []) (terms : List Term)
    (toks : List Tok) (q : Parser)
    (hr : List.Forall₂ Tok.renders (SplitString text ' ') (toks.map (Tok.relabel (fill terms))))
    (halt : alternates false (toks.map (Tok.relabel (fill terms))) = true)
    (hacc : acceptAll toks emptyTree = some q) :
    parseFresh text = some (SetResult (q.relabel (fill terms)) .OK 0) := by
  rw [parseFresh_eq _ hne]
  refine Parse.loop_accept _ _ hr emptyTree _ 0 false halt ?_
  have h := acceptAll_relabel (fill terms) (fill_keepsShape terms) toks emptyTree
  rw [emptyTree_relabel _ (fill_keepsShape terms), hacc] at h
  exact h

theorem fill_hole (ts : List Term) (i : Nat) :
    fill ts (hole i) = match ts[i]? with
      | some t => t.node
      | none => hole i := rfl

/-- The tree `Parse` builds for `a and b or c`. -/
theorem parse_and_or (a b c : Term) :
    parseFresh (a.text ++ " and ".data ++ b.text ++ " or ".data ++ c.text)
      = some (.OK, treeOf
        [⟨.branch (some 1) (some 2), none, none⟩, ⟨.branchRoot 0 true, some 6, none⟩,
         ⟨.branchRoot 0 false, some 5, none⟩, ⟨.fork (some 2), none, some 6⟩,
         ⟨a.node, none, some 5⟩, ⟨b.node, some 4, some 2⟩, ⟨c.node, some 3, some 1⟩] 1 []) := by
  have hne : a.text ++ " and ".data ++ b.text ++ " or ".data ++ c.text ≠ [] := by
    simp [a.text_ne_nil]
  rw [parseFresh_of_placeholders _ hne [a, b, c]
    [.cond 0 (hole 0) 0, .logic false, .cond 0 (hole 1) 0, .logic true, .cond 0 (hole 2) 0]
    (treeOf
      [⟨.branch (some 1) (some 2), none, none⟩, ⟨.branchRoot 0 true, some 6, none⟩,
       ⟨.branchRoot 0 false, some 5, none⟩, ⟨.fork (some 2), none, some 6⟩,
       ⟨hole 0, none, some 5⟩, ⟨hole 1, some 4, some 2⟩, ⟨hole 2, some 3, some 1⟩] 1 [])
    ?_ rfl (by decide)]
  · rfl
  · rw [split_and_or]
    exact .cons ⟨by norm_num, a, rfl, by simp⟩ (.cons (.inl rfl)
      (.cons ⟨by norm_num, b, rfl, by simp⟩ (.cons (.inl rfl)
      (.cons ⟨by norm_num, c, rfl, by simp⟩ .nil))))

/-- The tree `Parse` builds for `a or b and c`. -/
theorem parse_or_and (a b c : Term) :
    parseFresh (a.text ++ " or ".data ++ b.text ++ " and ".data ++ c.text)
      = some (.OK, treeOf
        [⟨.branch (some 1) (some 2), none, none⟩, ⟨.branchRoot 0 true, some 4, none⟩,
         ⟨.branchRoot 0 false, some 6, none⟩, ⟨.fork (some 2), none, some 4⟩,
         ⟨a.node, some 3, some 1⟩, ⟨b.node, none, some 6⟩, ⟨c.node, some 5, some 2⟩] 2 []) := by
  have hne : a.text ++ " or ".data ++ b.text ++ " and ".data ++ c.text ≠ [] := by
    simp [a.text_ne_nil]
  rw [parseFresh_of_placeholders _ hne [a, b, c]
    [.cond 0 (hole 0) 0, .logic true, .cond 0 (hole 1) 0, .logic false, .cond 0 (hole 2) 0]
    (treeOf
      [⟨.branch (some 1) (some 2), none, none⟩, ⟨.branchRoot 0 true, some 4, none⟩,
       ⟨.branchRoot 0 false, some 6, none⟩, ⟨.fork (some 2), none, some 4⟩,
       ⟨hole 0, some 3, some 1⟩, ⟨hole 1, none, some 6⟩, ⟨hole 2, some 5, some 2⟩] 2 [])
    ?_ rfl (by decide)]
  · rfl
  · rw [split_or_and]
    exact .cons ⟨by norm_num, a, rfl, by simp⟩ (.cons (.inl rfl)
      (.cons ⟨by norm_num, b, rfl, by simp⟩ (.cons (.inl rfl)
      (.cons ⟨by norm_num, c, rfl, by simp⟩ .nil))))

/-- The tree `Parse` builds for `a and (b or c)`. -/
theorem parse_and_bracket (a b c : Term) :
    parseFresh (a.text ++ " and (".data ++ b.text ++ " or ".data ++ c.text ++ ")".data)
      = some (.OK, treeOf
        [⟨.branch (some 1) (some 2), none, none⟩, ⟨.branchRoot 0 true, some 3, none⟩,
         ⟨.branchRoot 0 false, some 4, none⟩, ⟨.fork (some 2), none, some 1⟩,
         ⟨a.node, some 5, some 2⟩, ⟨.fork (some 7), none, some 4⟩, ⟨.destroyed, none, none⟩,
         ⟨.branchRoot 6 true, some 11, none⟩, ⟨.branchRoot 6 false, none, none⟩,
         ⟨.fork (some 8), none, some 10⟩, ⟨b.node, some 9, some 11⟩,
         ⟨c.node, some 10, some 7⟩] 2 []) := by
  have hne : a.text ++ " and (".data ++ b.text ++ " or ".data ++ c.text ++ ")".data ≠ [] := by
    simp [a.text_ne_nil]
  rw [parseFresh_of_placeholders _ hne [a, b, c]
    [.cond 0 (hole 0) 0, .logic false, .cond 1 (hole 1) 0, .logic true, .cond 0 (hole 2) 1]
    (treeOf
      [⟨.branch (some 1) (some 2), none, none⟩, ⟨.branchRoot 0 true, some 3, none⟩,
       ⟨.branchRoot 0 false, some 4, none⟩, ⟨.fork (some 2), none, some 1⟩,
       ⟨hole 0, some 5, some 2⟩, ⟨.fork (some 7), none, some 4⟩, ⟨.destroyed, none, none⟩,
       ⟨.branchRoot 6 true, some 11, none⟩, ⟨.branchRoot 6 false, none, none⟩,
       ⟨.fork (some 8), none, some 10⟩, ⟨hole 1, some 9, some 11⟩,
       ⟨hole 2, some 10, some 7⟩] 2 [])
    ?_ rfl (by decide)]
  · rfl
  · rw [split_bracket]
    exact .cons ⟨by norm_num, a, rfl, by simp⟩ (.cons (.inl rfl)
      (.cons ⟨by norm_num, b, rfl, by simp⟩ (.cons (.inl rfl)
      (.cons ⟨by norm_num, c, rfl, by simp⟩ .nil))))

/-- `Evaluate` on the tree of `a and b or c`. -/
theorem eval_and_or (a b c : Term) (v : Int) :
    Evaluate
      (treeOf
      [⟨.branch (some 1) (some 2), none, none⟩, ⟨.branchRoot 0 true, some 6, none⟩,
       ⟨.branchRoot 0 false, some 5, none⟩, ⟨.fork (some 2), none, some 6⟩,
       ⟨a.node, none, some 5⟩, ⟨b.node, some 4, some 2⟩, ⟨c.node, some 3, some 1⟩] 1 []) v
      = some ((a.holds v && b.holds v) || c.holds v) := by
  simp [treeOf, Evaluate, Node.Evaluate, Term.node, Term.compare_eq, Node.GetRoot,
    Node.GetRoot.walk, Heap.prev, castBranchRoot, BranchRootNode.IsOrLogic]
  cases a.holds v <;> cases b.holds v <;> cases c.holds v <;> rfl

/-- `Evaluate` on the tree of `a or b and c`. -/
theorem eval_or_and (a b c : Term) (v : Int) :
    Evaluate
      (treeOf
      [⟨.branch (some 1) (some 2), none, none⟩, ⟨.branchRoot 0 true, some 4, none⟩,
       ⟨.branchRoot 0 false, some 6, none⟩, ⟨.fork (some 2), none, some 4⟩,
       ⟨a.node, some 3, some 1⟩, ⟨b.node, none, some 6⟩, ⟨c.node, some 5, some 2⟩] 2 []) v
      = some (a.holds v || (b.holds v && c.holds v)) := by
  simp [treeOf, Evaluate, Node.Evaluate, Term.node, Term.compare_eq, Node.GetRoot,
    Node.GetRoot.walk, Heap.prev, castBranchRoot, BranchRootNode.IsOrLogic]
  cases a.holds v <;> cases b.holds v <;> cases c.holds v <;> rfl

/-- `Evaluate` on the tree of `a and (b or c)`. -/
theorem eval_and_bracket (a b c : Term) (v : Int) :
    Evaluate
      (treeOf
      [⟨.branch (some 1) (some 2), none, none⟩, ⟨.branchRoot 0 true, some 3, none⟩,
       ⟨.branchRoot 0 false, some 4, none⟩, ⟨.fork (some 2), none, some 1⟩,
       ⟨a.node, some 5, some 2⟩, ⟨.fork (some 7), none, some 4⟩, ⟨.destroyed, none, none⟩,
       ⟨.branchRoot 6 true, some 11, none⟩, ⟨.branchRoot 6 false, none, none⟩,
       ⟨.fork (some 8), none, some 10⟩, ⟨b.node, some 9, some 11⟩,
       ⟨c.node, some 10, some 7⟩] 2 []) v
      = some (a.holds v && (b.holds v || c.holds v)) := by
  simp [treeOf, Evaluate, Node.Evaluate, Term.node, Term.compare_eq, Node.GetRoot,
    Node.GetRoot.walk, Heap.prev, castBranchRoot, BranchRootNode.IsOrLogic]
  cases a.holds v <;> cases b.holds v <;> cases c.holds v <;> rfl

/-- C3. For all valid comparison terms `a`, `b`, `c` and every integer `v`:
`Parse("a and b or c")` on a new instance returns OK and `Evaluate(v)` is
`(a(v) and b(v)) or c(v)`; `Parse("a or b and c")` on a new instance returns
OK and `Evaluate(v)` is `a(v) or (b(v) and c(v))`. -/
theorem and_binds_tighter_three_terms (a b c : Term) (v : Int) :
    run (a.text ++ " and ".data ++ b.text ++ " or ".data ++ c.text) v
      = some (.OK, some ((a.holds v && b.holds v) || c.holds v)) ∧
    run (a.text ++ " or ".data ++ b.text ++ " and ".data ++ c.text) v
      = some (.OK, some (a.holds v || (b.holds v && c.holds v))) := by
  constructor
  · rw [run, parse_and_or, Option.map_some', eval_and_or]
  · rw [run, parse_or_and, Option.map_some', eval_or_and]

/-- C4. For all valid comparison terms `a`, `b`, `c` and every integer `v`:
`Parse("a and (b or c)")` on a new instance returns OK and `Evaluate(v)` is
`a(v) and (b(v) or c(v))`. -/
theorem bracket_overrides_three_terms (a b c : Term) (v : Int) :
    run (a.text ++ " and (".data ++ b.text ++ " or ".data ++ c.text ++ ")".data) v
      = some (.OK, some (a.holds v && (b.holds v || c.holds v))) := by
  rw [run, parse_and_bracket, Option.map_some', eval_and_bracket]

/-! ## Failure exits -/

theorem Parse.fail_eq (p : Parser) (c : ParseResult) (a : Nat) :
    Parse.fail p c a = some (SetResult emptyTree c a) := rfl

/-- What `Parse` leaves behind on a failure exit: the state of `Clear` with
the result code and offset set afterwards. -/
theorem Parse.leading_ret (data : List Char) : ∀ (n ci : Nat) (p : Parser) (loc : Nat)
    (x : ParseResult × Parser), Parse.leading data n ci p loc = some (.ret x) →
    ∃ a, x = SetResult emptyTree .ParsingInvalidCharacter a := by
  intro n
  induction n with
  | zero => intro ci p loc x h; simp [Parse.leading] at h
  | succ n ih =>
    intro ci p loc x h
    rw [Parse.leading] at h
    split at h
    · simp at h
    · split at h
      · rw [Parse.fail_eq] at h
        simp only [Option.map_some', Option.some.injEq, Flow.ret.injEq] at h
        exact ⟨_, h.symm⟩
      · split at h
        · simp at h
        · exact ih _ _ _ _ h

theorem Parse.trailing_ret (data : List Char) : ∀ (n ci : Nat) (p : Parser) (loc : Nat)
    (x : ParseResult × Parser), Parse.trailing data n ci p loc = some (.ret x) →
    ∃ c a, c ∈ loopFailures ∧ x = SetResult emptyTree c a := by
  intro n
  induction n with
  | zero => intro ci p loc x h; simp [Parse.trailing] at h
  | succ n ih =>
    intro ci p loc x h
    rw [Parse.trailing] at h
    split at h
    · simp at h
    · split at h
      · rw [Parse.fail_eq] at h
        simp only [Option.map_some', Option.some.injEq, Flow.ret.injEq] at h
        exact ⟨_, _, by decide, h.symm⟩
      · split at h
        · simp at h
        · rw [Parse.fail_eq] at h
          simp only [Option.map_some', Option.some.injEq, Flow.ret.injEq] at h
          exact ⟨_, _, by decide, h.symm⟩
        · exact ih _ _ _ _ h

theorem Parse.condition_ret (p : Parser) (loc : Nat) (data : List Char)
    (x : ParseResult × Parser) (h : Parse.condition p loc data = some (.ret x)) :
    ∃ c a, c ∈ loopFailures ∧ x = SetResult emptyTree c a := by
  unfold Parse.condition at h
  split at h
  · simp at h
  · simp only at h
    split at h
    · simp at h
    · split at h
      · simp at h
      · next hl =>
        simp only [Option.some.injEq, Flow.ret.injEq] at h
        subst h
        obtain ⟨a, ha⟩ := Parse.leading_ret _ _ _ _ _ _ hl
        exact ⟨_, a, by decide, ha⟩
      · split at h
        · simp at h
        · rw [Parse.fail_eq] at h
          simp only [Option.map_some', Option.some.injEq, Flow.ret.injEq] at h
          exact ⟨_, _, by decide, h.symm⟩
        · split at h
          · simp at h
          · next ht =>
            simp only [Option.some.injEq, Flow.ret.injEq] at h
            subst h
            exact Parse.trailing_ret _ _ _ _ _ _ ht
          · simp at h

theorem Parse.logic_ret (p : Parser) (loc : Nat) (data : List Char)
    (x : ParseResult × Parser) (h : Parse.logic p loc data = some (.ret x)) :
    ∃ a, x = SetResult emptyTree .InvalidLogic a := by
  unfold Parse.logic at h
  simp only at h
  split at h
  · rw [Parse.fail_eq] at h
    simp only [Option.map_some', Option.some.injEq, Flow.ret.injEq] at h
    exact ⟨_, h.symm⟩
  · cases hS : Parse.switchLogic p _ with
    | none => rw [hS] at h; simp at h
    | some q => rw [hS] at h; simp at h

theorem Parse.loop_failure : ∀ (datas : List (List Char)) (p : Parser) (loc : Nat) (pc : Bool)
    (x : ParseResult × Parser), Parse.loop datas p loc pc = some x → x.1 ≠ .OK →
    ∃ c a, c ∈ loopFailures ∧ x = SetResult emptyTree c a := by
  intro datas
  induction datas with
  | nil =>
    intro p loc pc x h hx
    simp only [Parse.loop, Option.some.injEq] at h
    subst h
    exact absurd rfl hx
  | cons data rest ih =>
    intro p loc pc x h hx
    rw [Parse.loop] at h
    split at h
    · simp at h
    · next r hr =>
      simp only [Option.some.injEq] at h
      subst h
      cases pc with
      | false => exact Parse.condition_ret _ _ _ _ (by simpa using hr)
      | true =>
        obtain ⟨a, ha⟩ := Parse.logic_ret _ _ _ _ (by simpa using hr)
        exact ⟨_, a, by decide, ha⟩
    · exact ih _ _ _ _ h hx

/-- C6. Failure is atomic: when `Parse` on a new (or reset) instance returns
a code other than OK, the tree, the current branch, the current root and
the fork stack it leaves are those of a newly reset instance, so `Evaluate`
is false at every integer, and `GetResultCode` still gives the returned
code: the parser left is the reset one with the code and an offset set. -/
theorem failure_is_atomic (text : List Char) (r : ParseResult) (q : Parser)
    (h : parseFresh text = some (r, q)) (hr : r ≠ .OK) :
    (∃ n, new = some n ∧ q.heap = n.heap ∧ q.m_pBaseBranch = n.m_pBaseBranch ∧
      q.m_pActiveBranch = n.m_pActiveBranch ∧
      q.m_pActiveBranchRoot = n.m_pActiveBranchRoot ∧ q.m_braceForks = n.m_braceForks ∧
      q.m_isValid = n.m_isValid ∧ (r, q) = SetResult n r (GetErrorLocation q)) ∧
    (∀ v, Evaluate q v = some false) ∧ GetResultCode q = r := by
  have key : ∃ c a, c ≠ ParseResult.OK ∧ (r, q) = SetResult emptyTree c a := by
    by_cases hne : text = []
    · subst hne
      have e : parseFresh [] = some (SetResult emptyTree .EmptyStatement 0) := rfl
      rw [e] at h
      exact ⟨_, _, by decide, (Option.some.inj h).symm⟩
    · rw [parseFresh_eq _ hne] at h
      obtain ⟨c, a, hc, e⟩ := Parse.loop_failure _ _ _ _ _ h hr
      exact ⟨c, a, by rintro rfl; exact absurd hc (by decide), e⟩
  obtain ⟨c, a, _, e⟩ := key
  simp only [SetResult, Prod.mk.injEq] at e
  obtain ⟨rfl, rfl⟩ := e
  exact ⟨⟨emptyTree, rfl, rfl, rfl, rfl, rfl, rfl, rfl, rfl⟩, fun v => rfl, rfl⟩

/-- C6 at `">5)"`: the result is ClosingUnopenedBrace and the parser left
evaluates to false, also where `>5` holds. -/
theorem failure_is_atomic_witness :
    parseFresh ">5)".data
      = some (.ClosingUnopenedBrace,
          { emptyTree with m_result := .ClosingUnopenedBrace, m_errorAt := 2 }) ∧
    Evaluate { emptyTree with m_result := .ClosingUnopenedBrace, m_errorAt := 2 } 7
      = some false :=
  ⟨rfl, (failure_is_atomic ">5)".data .ClosingUnopenedBrace
    { emptyTree with m_result := .ClosingUnopenedBrace, m_errorAt := 2 } rfl (by decide)).2.1 7⟩

/-! ## The pass over the first tokens of a text -/

theorem Parse.loop_through : ∀ (pre rest : List (List Char)) (p : Parser) (loc : Nat)
    (pc : Bool),
    Parse.loop (pre ++ rest) p loc pc =
      match Parse.through pre p loc pc with
      | none => none
      | some (.ret r) => some r
      | some (.next (q, loc', pc')) => Parse.loop rest q loc' pc' := by
  intro pre
  induction pre with
  | nil => intro rest p loc pc; rfl
  | cons d ds ih =>
    intro rest p loc pc
    rw [List.cons_append, Parse.loop, Parse.through]
    cases (if (!pc) = true then Parse.condition p loc d else Parse.logic p loc d) with
    | none => rfl
    | some fl =>
      cases fl with
      | ret r => rfl
      | next a =>
        obtain ⟨q, l⟩ := a
        exact ih rest q l (!pc)

theorem closing_next_loc : ∀ (m : Nat) (p q : Parser) (loc l : Nat),
    closing m p loc = some (.next (q, l)) → l = loc + m := by
  intro m
  induction m with
  | zero =>
    intro p q loc l h
    simp only [closing, Option.some.injEq, Flow.next.injEq, Prod.mk.injEq] at h
    omega
  | succ m ih =>
    intro p q loc l h
    rw [closing] at h
    split at h
    · simp at h
    · rw [Parse.fail_eq] at h; simp at h
    · have := ih _ _ _ _ h
      omega

theorem Parse.condition_next_loc (p q : Parser) (loc l : Nat) (data : List Char)
    (hlen : data.length < 2 ^ 31) (h : Parse.condition p loc data = some (.next (q, l))) :
    l = loc + data.length + 1 := by
  cases hcs : find_first_not_of data '(' with
  | none => simp [Parse.condition, hcs] at h
  | some cs =>
    obtain ⟨h1, _, _⟩ := find_first_not_of_spec '(' data cs hcs
    obtain ⟨g1, _, _⟩ := find_last_not_of_spec ')' data
    have hle := conditionStart_le_endPlusOne data cs hcs
    rw [condition_eq p loc data cs hcs (by omega)] at h
    split at h
    · simp at h
    · split at h
      · simp at h
      · rw [Parse.fail_eq] at h; simp at h
      · split at h
        · simp at h
        · simp at h
        · next hc =>
          simp only [Option.some.injEq, Flow.next.injEq, Prod.mk.injEq] at h
          have := closing_next_loc _ _ _ _ _ hc
          omega

theorem Parse.logic_next_loc (p q : Parser) (loc l : Nat) (data : List Char)
    (h : Parse.logic p loc data = some (.next (q, l))) : l = loc + data.length + 1 := by
  unfold Parse.logic at h
  simp only at h
  split at h
  · rw [Parse.fail_eq] at h; simp at h
  · cases hS : Parse.switchLogic p _ with
    | none => rw [hS] at h; simp at h
    | some q' =>
      rw [hS] at h
      simp only [Option.map_some', Option.some.injEq, Flow.next.injEq, Prod.mk.injEq] at h
      omega

/-- After accepted tokens `currentLocationInString` is the sum of their
lengths plus one per token, and `parsingCondition` has flipped once per token. -/
theorem Parse.through_loc : ∀ (pre : List (List Char)) (p q : Parser) (loc l : Nat)
    (pc pc' : Bool), (∀ d ∈ pre, d.length < 2 ^ 31) →
    Parse.through pre p loc pc = some (.next (q, l, pc')) →
    l = loc + (pre.map fun d => d.length + 1).sum ∧
      pc' = (if pre.length % 2 = 0 then pc else !pc) := by
  intro pre
  induction pre with
  | nil =>
    intro p q loc l pc pc' _ h
    simp only [Parse.through, Option.some.injEq, Flow.next.injEq, Prod.mk.injEq] at h
    simp [h.2.1.symm, h.2.2.symm]
  | cons d ds ih =>
    intro p q loc l pc pc' hlen h
    rw [Parse.through] at h
    split at h
    · simp at h
    · simp at h
    · next p1 l1 hstep =>
      have hl1 : l1 = loc + d.length + 1 := by
        cases pc with
        | false =>
          exact Parse.condition_next_loc _ _ _ _ _ (hlen d (by simp)) (by simpa using hstep)
        | true => exact Parse.logic_next_loc _ _ _ _ _ (by simpa using hstep)
      obtain ⟨e1, e2⟩ := ih _ _ _ _ _ _ (fun x hx => hlen x (by simp [hx])) h
      refine ⟨by simp only [List.map_cons, List.sum_cons]; omega, ?_⟩
      rw [e2]
      simp only [List.length_cons]
      by_cases hp : ds.length % 2 = 0
      · have : (ds.length + 1) % 2 ≠ 0 := by omega
        simp [hp, this]
      · have : (ds.length + 1) % 2 = 0 := by omega
        simp [hp, this]

/-- Where the tokens of `SplitString` stand in the text: every token is
followed by one space, up to the token looked at. -/
theorem SplitString.go_spec (d : Char) : ∀ (input cur : List Char)
    (pre : List (List Char)) (data : List Char) (post : List (List Char)),
    SplitString.go d input cur = pre ++ data :: post →
    ∃ tail, cur ++ input = (pre.map fun t => t ++ [d]).flatten ++ data ++ tail := by
  intro input
  induction input with
  | nil =>
    intro cur pre data post h
    rw [SplitString.go] at h
    split at h
    · simp at h
    · cases pre with
      | nil =>
        simp only [List.nil_append, List.cons.injEq] at h
        exact ⟨[], by simp [h.1]⟩
      | cons t ts =>
        simp only [List.cons_append, List.cons.injEq] at h
        have := h.2
        simp at this
  | cons c cs ih =>
    intro cur pre data post h
    rw [SplitString.go] at h
    split at h
    · next hc =>
      cases pre with
      | nil =>
        simp only [List.nil_append, List.cons.injEq] at h
        exact ⟨c :: cs, by simp [h.1]⟩
      | cons t ts =>
        simp only [List.cons_append, List.cons.injEq] at h
        obtain ⟨tail, ht⟩ := ih [] ts data post h.2
        refine ⟨tail, ?_⟩
        simp only [List.nil_append] at ht
        simp [ht, h.1, hc]
    · obtain ⟨tail, ht⟩ := ih (cur ++ [c]) pre data post h
      exact ⟨tail, by simpa using ht⟩

theorem SplitString_spec (text : List Char) (pre : List (List Char)) (data : List Char)
    (post : List (List Char)) (h : SplitString text ' ' = pre ++ data :: post) :
    ∃ tail, text = (pre.map fun t => t ++ [' ']).flatten ++ data ++ tail := by
  simpa using SplitString.go_spec ' ' text [] pre data post h

theorem flatten_length (pre : List (List Char)) :
    ((pre.map fun t => t ++ [' ']).flatten).length = (pre.map fun d => d.length + 1).sum := by
  induction pre with
  | nil => rfl
  | cons d ds ih =>
    rw [List.map_cons, List.flatten_cons, List.length_append, ih]
    simp

theorem mem_length_le_sum (pre : List (List Char)) (d : List Char) (hd : d ∈ pre) :
    d.length + 1 ≤ (pre.map fun d => d.length + 1).sum := by
  induction pre with
  | nil => simp at hd
  | cons x xs ih =>
    rcases List.mem_cons.mp hd with rfl | h
    · simp
    · have := ih h
      simp only [List.map_cons, List.sum_cons]
      omega

/-- The facts about a token of a text used below: the text is not empty, the
earlier tokens and the token are no longer than the text, and the token
stands at the offset given by the earlier tokens. -/
theorem token_position (text : List Char) (pre : List (List Char)) (data : List Char)
    (post : List (List Char)) (h : SplitString text ' ' = pre ++ data :: post) :
    text ≠ [] ∧ (∀ d ∈ pre, d.length ≤ text.length) ∧ data.length ≤ text.length ∧
    ∃ tail, text.drop (pre.map fun d => d.length + 1).sum = data ++ tail := by
  obtain ⟨tail, ht⟩ := SplitString_spec text pre data post h
  have hl : text.length
      = (pre.map fun d => d.length + 1).sum + data.length + tail.length := by
    rw [ht, List.length_append, List.length_append, flatten_length]
  refine ⟨?_, ?_, by omega, tail, ?_⟩
  · rintro rfl
    simp [SplitString, SplitString.go] at h
  · intro d hd
    have := mem_length_le_sum pre d hd
    omega
  · rw [ht, List.append_assoc, List.drop_left' (flatten_length pre)]

theorem Malformed.invalid (cond : List Char) (h : Malformed cond) :
    (ExpressionNode.new cond).IsValid = false := by
  unfold ExpressionNode.new
  cases hn : find_first_of_digit cond with
  | none => rfl
  | some n =>
    simp only
    by_cases h12 : n ≠ 1 ∧ n ≠ 2
    · rw [if_pos h12]; rfl
    · rw [if_neg h12]
      rcases h with h | h | h
      · rw [hn] at h
        exact absurd ⟨fun e => h.1 (by rw [e]), fun e => h.2 (by rw [e])⟩ h12
      · obtain ⟨n', hn', hop⟩ := h
        rw [hn] at hn'
        cases hn'
        simp only [List.mem_cons, List.mem_singleton, List.not_mem_nil, or_false, not_or] at hop
        obtain ⟨h1, h2, h3, h4, h5, h6⟩ := hop
        simp only [if_neg h1, if_neg h2, if_neg h3, if_neg h4, if_neg h5, if_neg h6]
        rfl
      · obtain ⟨n', hn', hv⟩ := h
        rw [hn] at hn'
        cases hn'
        have hs : stoi (List.drop n cond) = none := by
          unfold stoi
          simp only
          split <;> rfl
        rw [hs]
        split <;> rfl

theorem AddExpression_invalid (p : Parser) (cond : List Char)
    (h : (ExpressionNode.new cond).IsValid = false) : AddExpression p cond = some (false, p) := by
  simp [AddExpression, h]

/-! ## The three failures located in the text -/

/-- A malformed condition in a token that has a character other than `(`.
For a token in condition position whose earlier tokens are accepted by the
pass, that has a character other than `(` and whose leading `(` are opened,
if the condition left after stripping the leading `(` and the trailing `)` is
malformed (first digit not at index 1 or 2, no comparator before it, or a
value above `INT_MAX`), then `Parse` on a new instance returns
InvalidExpression and the reported offset is where that condition starts in
the text.  A token without such a character is the subject of
`parseFresh_without_condition`. -/
theorem invalid_expression_offset (text : List Char) (hlen : text.length < 2 ^ 31)
    (pre : List (List Char)) (data : List Char) (post : List (List Char))
    (hsplit : SplitString text ' ' = pre ++ data :: post) (hpos : pre.length % 2 = 0)
    (p : Parser) (loc : Nat) (pc : Bool)
    (hacc : Parse.through pre emptyTree 0 false = some (.next (p, loc, pc)))
    (cs : Nat) (hcs : find_first_not_of data '(' = some cs)
    (p1 : Parser) (hopen : opening cs p = some p1)
    (hbad : Malformed
      ((data.drop cs).take (endPlusOne (find_last_not_of data ')') - cs))) :
    ∃ q, parseFresh text = some (.InvalidExpression, q) ∧
      GetResultCode q = .InvalidExpression ∧
      GetErrorLocation q = (pre.map fun d => d.length + 1).sum + cs ∧
      ∃ tail, text.drop (GetErrorLocation q)
        = (data.drop cs).take (endPlusOne (find_last_not_of data ')') - cs) ++ tail := by
  obtain ⟨hne, hpre, hdata, tail, htail⟩ := token_position text pre data post hsplit
  obtain ⟨hloc, hpc⟩ := Parse.through_loc pre _ _ _ _ _ _
    (fun d hd => lt_of_le_of_lt (hpre d hd) hlen) hacc
  have hpc' : pc = false := by rw [hpc]; simp [hpos]
  subst hpc'
  obtain ⟨hcs1, _, _⟩ := find_first_not_of_spec '(' data cs hcs
  have hcond : Parse.condition p loc data
      = some (.ret (SetResult emptyTree .InvalidExpression (loc + cs))) := by
    rw [condition_eq p loc data cs hcs (by omega), hopen]
    simp only [AddExpression_invalid p1 _ (Malformed.invalid _ hbad), Parse.fail_eq]
    rfl
  refine ⟨(SetResult emptyTree .InvalidExpression (loc + cs)).2, ?_, rfl, ?_, ?_⟩
  · rw [parseFresh_eq _ hne, hsplit, Parse.loop_through, hacc]
    simp only [Parse.loop, Bool.not_false, ↓reduceIte, hcond]
    rfl
  · simp only [GetErrorLocation, SetResult]
    omega
  · simp only [GetErrorLocation, SetResult]
    refine ⟨List.drop (endPlusOne (find_last_not_of data ')') - cs) (List.drop cs data) ++ tail,
      ?_⟩
    rw [hloc, Nat.zero_add, ← List.drop_drop, htail, List.drop_append_of_le_length (by omega),
      ← List.append_assoc, List.take_append_drop]

/-- The two texts of the specification, `"5<10"` (a digit at index 0) and
`"<abc"` (no digit): InvalidExpression at offset 0. -/
theorem invalid_expression_offset_witness :
    (∃ q, parseFresh "5<10".data = some (.InvalidExpression, q) ∧
      GetResultCode q = .InvalidExpression ∧ GetErrorLocation q = 0 + 0 ∧
      ∃ tail, "5<10".data.drop (GetErrorLocation q) = "5<10".data ++ tail) ∧
    (∃ q, parseFresh "<abc".data = some (.InvalidExpression, q) ∧
      GetResultCode q = .InvalidExpression ∧ GetErrorLocation q = 0 + 0 ∧
      ∃ tail, "<abc".data.drop (GetErrorLocation q) = "<abc".data ++ tail) :=
  ⟨invalid_expression_offset "5<10".data (by decide) [] "5<10".data [] (by decide) (by decide)
      emptyTree 0 false rfl 0 (by decide) emptyTree rfl (.inl (by decide)),
    invalid_expression_offset "<abc".data (by decide) [] "<abc".data [] (by decide) (by decide)
      emptyTree 0 false rfl 0 (by decide) emptyTree rfl (.inl (by decide))⟩

theorem OpenBrace_isValid (p q : Parser) (h : OpenBrace p = some q) :
    q.m_isValid = p.m_isValid := by
  simp only [OpenBrace, Option.bind_eq_bind, Option.pure_def, Option.bind_eq_some] at h
  obtain ⟨_, _, _, _, _, _, _, _, _, _, _, _, _, _, h⟩ := h
  simp only [Option.some.injEq] at h
  subst h
  rfl

theorem CloseBrace_isValid (p q : Parser) (b : Bool) (h : CloseBrace p = some (b, q)) :
    q.m_isValid = p.m_isValid := by
  unfold CloseBrace at h
  split at h
  · simp only [Option.some.injEq, Prod.mk.injEq] at h
    rw [← h.2]
  · simp only [Option.bind_eq_bind, Option.pure_def, Option.bind_eq_some, Option.some.injEq,
      Prod.mk.injEq] at h
    obtain ⟨_, _, _, _, _, h⟩ := h
    subst h
    rfl

theorem AddExpression_isValid (p q : Parser) (b : Bool) (data : List Char)
    (h : AddExpression p data = some (b, q)) : q.m_isValid = p.m_isValid := by
  unfold AddExpression at h
  simp only at h
  split at h
  · simp only [Option.some.injEq, Prod.mk.injEq] at h
    rw [← h.2]
  · simp only [Option.bind_eq_bind, Option.pure_def, Option.bind_eq_some, Option.some.injEq,
      Prod.mk.injEq] at h
    obtain ⟨_, _, _, h⟩ := h
    subst h
    rfl

theorem Parse.switchLogic_isValid (p q : Parser) (o : Bool)
    (h : Parse.switchLogic p o = some q) : q.m_isValid = p.m_isValid := by
  simp only [Parse.switchLogic, Option.bind_eq_bind, Option.pure_def, Option.bind_eq_some] at h
  obtain ⟨isOr, _, h⟩ := h
  split at h
  · simp only [Option.bind_eq_some] at h
    obtain ⟨_, _, _, _, _, _, h⟩ := h
    split at h
    · simp only [Option.bind_eq_some, Option.some.injEq] at h
      obtain ⟨_, _, _, _, _, _, _, _, h⟩ := h
      subst h
      rfl
    · simp only [Option.some.injEq] at h
      subst h
      rfl
  · simp only [Option.some.injEq] at h
    subst h
    rfl

theorem Parse.leading_isValid (data : List Char) : ∀ (n ci : Nat) (p q : Parser) (loc l : Nat),
    Parse.leading data n ci p loc = some (.next (q, l)) → q.m_isValid = p.m_isValid := by
  intro n
  induction n with
  | zero =>
    intro ci p q loc l h
    simp only [Parse.leading, Option.some.injEq, Flow.next.injEq, Prod.mk.injEq] at h
    rw [← h.1]
  | succ n ih =>
    intro ci p q loc l h
    rw [Parse.leading] at h
    split at h
    · simp at h
    · split at h
      · rw [Parse.fail_eq] at h; simp at h
      · split at h
        · simp at h
        · next p1 hO => rw [ih _ _ _ _ _ h, OpenBrace_isValid _ _ hO]

theorem Parse.trailing_isValid (data : List Char) : ∀ (n ci : Nat) (p q : Parser) (loc l : Nat),
    Parse.trailing data n ci p loc = some (.next (q, l)) → q.m_isValid = p.m_isValid := by
  intro n
  induction n with
  | zero =>
    intro ci p q loc l h
    simp only [Parse.trailing, Option.some.injEq, Flow.next.injEq, Prod.mk.injEq] at h
    rw [← h.1]
  | succ n ih =>
    intro ci p q loc l h
    rw [Parse.trailing] at h
    split at h
    · simp at h
    · split at h
      · rw [Parse.fail_eq] at h; simp at h
      · split at h
        · simp at h
        · rw [Parse.fail_eq] at h; simp at h
        · next p1 hC => rw [ih _ _ _ _ _ h, CloseBrace_isValid _ _ _ hC]

theorem Parse.condition_isValid (p q : Parser) (loc l : Nat) (data : List Char)
    (h : Parse.condition p loc data = some (.next (q, l))) : q.m_isValid = p.m_isValid := by
  unfold Parse.condition at h
  split at h
  · simp at h
  · simp only at h
    split at h
    · simp at h
    · split at h
      · simp at h
      · simp at h
      · next p1 l1 hl =>
        split at h
        · simp at h
        · rw [Parse.fail_eq] at h; simp at h
        · next p2 hA =>
          split at h
          · simp at h
          · simp at h
          · next p3 l3 ht =>
            simp only [Option.some.injEq, Flow.next.injEq, Prod.mk.injEq] at h
            rw [← h.1, Parse.trailing_isValid _ _ _ _ _ _ _ ht,
              AddExpression_isValid _ _ _ _ hA, Parse.leading_isValid _ _ _ _ _ _ _ hl]

theorem Parse.logic_isValid (p q : Parser) (loc l : Nat) (data : List Char)
    (h : Parse.logic p loc data = some (.next (q, l))) : q.m_isValid = p.m_isValid := by
  unfold Parse.logic at h
  simp only at h
  split at h
  · rw [Parse.fail_eq] at h; simp at h
  · cases hS : Parse.switchLogic p _ with
    | none => rw [hS] at h; simp at h
    | some q' =>
      rw [hS] at h
      simp only [Option.map_some', Option.some.injEq, Flow.next.injEq, Prod.mk.injEq] at h
      rw [← h.1, Parse.switchLogic_isValid _ _ _ hS]

/-- The loop of `Parse` returns OK or one of its four failure codes, and
leaves `m_isValid` false when it was: nothing in `Parse` sets the flag. -/
theorem Parse.loop_result : ∀ (datas : List (List Char)) (p : Parser) (loc : Nat) (pc : Bool)
    (x : ParseResult × Parser), Parse.loop datas p loc pc = some x → p.m_isValid = false →
    (x.1 = .OK ∨ x.1 ∈ loopFailures) ∧ x.2.m_isValid = false := by
  intro datas
  induction datas with
  | nil =>
    intro p loc pc x h hv
    simp only [Parse.loop, Option.some.injEq] at h
    subst h
    exact ⟨.inl rfl, hv⟩
  | cons data rest ih =>
    intro p loc pc x h hv
    rw [Parse.loop] at h
    split at h
    · simp at h
    · next r hr =>
      simp only [Option.some.injEq] at h
      subst h
      have : ∃ c a, c ∈ loopFailures ∧ r = SetResult emptyTree c a := by
        cases pc with
        | false => exact Parse.condition_ret _ _ _ _ (by simpa using hr)
        | true =>
          obtain ⟨a, ha⟩ := Parse.logic_ret _ _ _ _ (by simpa using hr)
          exact ⟨_, a, by decide, ha⟩
      obtain ⟨c, a, hc, rfl⟩ := this
      exact ⟨.inr hc, rfl⟩
    · next p1 l1 hstep =>
      refine ih _ _ _ _ h ?_
      cases pc with
      | false => rw [Parse.condition_isValid _ _ _ _ _ (by simpa using hstep), hv]
      | true => rw [Parse.logic_isValid _ _ _ _ _ (by simpa using hstep), hv]

/-- `Parse` neither sets `m_isValid` nor, on an instance where it is false,
returns AlreadyConstructed. -/
theorem Parse_isValid (p q : Parser) (text : List Char) (r : ParseResult)
    (h : Parse p text = some (r, q)) (hv : p.m_isValid = false) :
    r ≠ .AlreadyConstructed ∧ q.m_isValid = false := by
  unfold Parse at h
  rw [if_neg (by simp [hv])] at h
  split at h
  · simp only [SetResult, Option.some.injEq, Prod.mk.injEq] at h
    obtain ⟨rfl, rfl⟩ := h
    exact ⟨by decide, hv⟩
  · obtain ⟨h1, h2⟩ := Parse.loop_result _ _ _ _ _ h hv
    refine ⟨?_, h2⟩
    rintro rfl
    simp only at h1
    rcases h1 with h1 | h1
    · exact absurd h1 (by decide)
    · exact absurd h1 (by decide)

/-- Whatever is parsed first on a new instance and whatever comes second, the
second `Parse` does not return AlreadyConstructed. -/
theorem second_Parse_never_AlreadyConstructed (X Y : List Char) (r r' : ParseResult)
    (p q : Parser) (h : parseFresh X = some (r, p)) (h' : Parse p Y = some (r', q)) :
    r' ≠ .AlreadyConstructed := by
  have hp : p.m_isValid = false := (Parse_isValid emptyTree p X r h rfl).2
  exact (Parse_isValid p q Y r' h' hp).1

/-- The evaluations the specification lists as testable properties, on the
code: default precedence at 200 and at 5, and the bracket override at 200. -/
theorem specification_examples :
    run ">10 and <50 or >100".data 200 = some (.OK, some true) ∧
    run ">10 and <50 or >100".data 5 = some (.OK, some false) ∧
    run ">10 and (<50 or >100)".data 200 = some (.OK, some true) := by
  refine ⟨rfl, rfl, rfl⟩

/-! ## Decimal literals -/

theorem digitChar_spec : ∀ m, m < 10 →
    isDigit (Nat.digitChar m) = true ∧ (Nat.digitChar m).toNat - 48 = m := by
  decide

theorem digitsValue_snoc (xs : List Char) (c : Char) :
    digitsValue (xs ++ [c]) = 10 * digitsValue xs + (c.toNat - 48) := by
  simp [digitsValue, List.foldl_append]

theorem toDigitsCore_spec : ∀ (fuel n : Nat) (ds : List Char), n < fuel →
    ∃ pre, Nat.toDigitsCore 10 fuel n ds = pre ++ ds ∧ pre ≠ [] ∧
      (∀ c ∈ pre, isDigit c = true) ∧ digitsValue pre = n := by
  intro fuel
  induction fuel with
  | zero => intro n ds h; omega
  | succ fuel ih =>
    intro n ds h
    obtain ⟨hd1, hd2⟩ := digitChar_spec (n % 10) (Nat.mod_lt _ (by norm_num))
    rw [Nat.toDigitsCore]
    by_cases h0 : n / 10 = 0
    · simp only [h0, ↓reduceIte]
      refine ⟨[Nat.digitChar (n % 10)], rfl, by simp, by simpa using hd1, ?_⟩
      have : digitsValue [Nat.digitChar (n % 10)] = (Nat.digitChar (n % 10)).toNat - 48 := by
        simp [digitsValue]
      rw [this, hd2]
      omega
    · simp only [h0, ↓reduceIte]
      obtain ⟨pre, e, hne, hall, hv⟩ := ih (n / 10) (Nat.digitChar (n % 10) :: ds) (by omega)
      refine ⟨pre ++ [Nat.digitChar (n % 10)], by simp [e], by simp, ?_, ?_⟩
      · intro c hc
        rcases List.mem_append.mp hc with hc | hc
        · exact hall c hc
        · rw [List.mem_singleton.mp hc]; exact hd1
      · rw [digitsValue_snoc, hv, hd2]
        omega

/-- The decimal literal of `n` is a non-empty run of digits that denotes `n`. -/
theorem toDigits_spec (n : Nat) :
    Nat.toDigits 10 n ≠ [] ∧ (∀ c ∈ Nat.toDigits 10 n, isDigit c = true) ∧
      digitsValue (Nat.toDigits 10 n) = n := by
  obtain ⟨pre, e, hne, hall, hv⟩ := toDigitsCore_spec (n + 1) n [] (by omega)
  rw [List.append_nil] at e
  rw [Nat.toDigits, e]
  exact ⟨hne, hall, hv⟩

/-! ## A text of one term -/

/-- The tree `Parse` builds for a text made of one valid term. -/
theorem parse_single (t : Term) :
    parseFresh t.text = some (.OK, treeOf
      [⟨.branch (some 1) (some 2), none, none⟩, ⟨.branchRoot 0 true, some 4, none⟩,
       ⟨.branchRoot 0 false, none, none⟩, ⟨.fork (some 2), none, some 4⟩,
       ⟨t.node, some 3, some 1⟩] 1 []) := by
  rw [parseFresh_of_placeholders _ t.text_ne_nil [t] [.cond 0 (hole 0) 0]
    (treeOf
      [⟨.branch (some 1) (some 2), none, none⟩, ⟨.branchRoot 0 true, some 4, none⟩,
       ⟨.branchRoot 0 false, none, none⟩, ⟨.fork (some 2), none, some 4⟩,
       ⟨hole 0, some 3, some 1⟩] 1 [])
    ?_ rfl (by decide)]
  · rfl
  · rw [SplitString_last _ t.text_no_space t.text_ne_nil]
    exact .cons ⟨by norm_num, t, rfl, by simp⟩ .nil

/-- `Evaluate` on the tree of one term. -/
theorem eval_single (t : Term) (v : Int) :
    Evaluate (treeOf
      [⟨.branch (some 1) (some 2), none, none⟩, ⟨.branchRoot 0 true, some 4, none⟩,
       ⟨.branchRoot 0 false, none, none⟩, ⟨.fork (some 2), none, some 4⟩,
       ⟨t.node, some 3, some 1⟩] 1 []) v = some (t.holds v) := by
  simp [treeOf, Evaluate, Node.Evaluate, Term.node, Term.compare_eq, Node.GetRoot,
    Node.GetRoot.walk, Heap.prev, castBranchRoot, BranchRootNode.IsOrLogic]

/-- C11. For every comparator `c` and every `n` with `0 <= n <= INT_MAX`,
`Parse` of `c` followed by the decimal literal of `n` returns OK on a new
instance, and `Evaluate(v)` is `v < n`, `v <= n`, `v = n`, `v != n`, `v >= n`
or `v > n` according to `c`. -/
theorem single_comparison (c : Comparator) (n : Nat) (hn : n ≤ 2147483647) (v : Int) :
    run (c.text ++ Nat.toDigits 10 n) v = some (.OK, some (c.holds v n)) := by
  obtain ⟨h1, h2, h3⟩ := toDigits_spec n
  have e := parse_single ⟨c, Nat.toDigits 10 n, h1, h2, by rw [h3]; exact hn⟩
  simp only [Term.text] at e
  rw [run, e, Option.map_some', eval_single]
  simp only [Term.holds, Term.value, h3]

/-- C11 at `>=100`: true at 100, false at 99. -/
theorem single_comparison_witness :
    run ">=100".data 100 = some (.OK, some true) ∧ run ">=100".data 99 = some (.OK, some false) :=
  ⟨single_comparison .ge 100 (by decide) 100, single_comparison .ge 100 (by decide) 99⟩

/-! ## Signs, trailing characters and trailing logic words -/

/-- A text of one token that starts with a character other than `(`, ends
with a character other than `)` and holds an invalid condition: `Parse`
returns InvalidExpression at offset 0 and leaves the reset state. -/
theorem parseFresh_single_invalid (data : List Char) (hns : ∀ c ∈ data, c ≠ ' ')
    (hfirst : find_first_not_of data '(' = some 0)
    (hlast : endPlusOne (find_last_not_of data ')') = data.length)
    (hinv : (ExpressionNode.new data).IsValid = false) :
    parseFresh data = some (SetResult emptyTree .InvalidExpression 0) := by
  have hne : data ≠ [] := by
    rintro rfl
    simp [find_first_not_of] at hfirst
  rw [parseFresh_eq _ hne, SplitString_last _ hns hne, Parse.loop]
  have hc : Parse.condition emptyTree 0 data
      = some (.ret (SetResult emptyTree .InvalidExpression 0)) := by
    rw [condition_eq emptyTree 0 data 0 hfirst (by norm_num), hlast]
    simp only [opening, List.drop_zero, Nat.sub_zero, List.take_length,
      AddExpression_invalid emptyTree data hinv, Parse.fail_eq]
    rfl
  simp only [Bool.not_false, ↓reduceIte, hc]

/-- A comparator followed by `-` and digits is not a valid condition: the
first digit is at index 2 behind something that is no comparator, or at
index 3. -/
theorem signed_invalid (c : Comparator) (ds : List Char) (hne : ds ≠ [])
    (hall : ∀ x ∈ ds, isDigit x = true) :
    (ExpressionNode.new (c.text ++ '-' :: ds)).IsValid = false := by
  obtain ⟨d, rest, rfl⟩ := List.exists_cons_of_ne_nil hne
  have hd : isDigit d = true := hall d (by simp)
  apply Malformed.invalid
  have hnum : find_first_of_digit (c.text ++ '-' :: d :: rest) = some (c.text.length + 1) := by
    have e : c.text ++ '-' :: d :: rest = (c.text ++ ['-']) ++ d :: rest := by simp
    rw [e, find_first_of_digit_append _ _ d hd rest]
    · simp
    · intro x hx
      rcases List.mem_append.mp hx with hx | hx
      · obtain ⟨_, _, _, _, _, h4, _⟩ := c.text_cases
        exact (h4 x hx).1
      · rw [List.mem_singleton.mp hx]; decide
  cases c
  all_goals first
    | exact .inl ⟨by rw [hnum]; decide, by rw [hnum]; decide⟩
    | exact .inr (.inl ⟨2, hnum, by simp [Comparator.text]⟩)

/-- C12, the claim refuted at `">-5"`: `Parse` returns InvalidExpression, so
the result is not OK with `Evaluate(0)` equal to `0 > -5`. -/
theorem signed_operand_rejected_example :
    (parseFresh ">-5".data).map Prod.fst = some .InvalidExpression ∧
    run ">-5".data 0 ≠ some (.OK, some (decide ((0 : Int) > -5))) := by
  decide

/-- C12 as amended. For every comparator `c` and every `n`, the token made of
`c`, a `-` and the decimal literal of `n` (the literal of the negative
integer `-n`) is rejected: `Parse` on a new instance returns
InvalidExpression at offset 0 and leaves the reset state. -/
theorem signed_operand_rejected (c : Comparator) (n : Nat) :
    parseFresh (c.text ++ '-' :: Nat.toDigits 10 n)
      = some (.InvalidExpression,
          { emptyTree with m_result := .InvalidExpression, m_errorAt := 0 }) := by
  obtain ⟨h1, h2, _⟩ := toDigits_spec n
  obtain ⟨x, rest, hx, hx1, _, hall, _⟩ := c.text_cases
  have hlastd : Nat.toDigits 10 n
      = (Nat.toDigits 10 n).dropLast ++ [(Nat.toDigits 10 n).getLast h1] :=
    (List.dropLast_append_getLast h1).symm
  have hy : (Nat.toDigits 10 n).getLast h1 ≠ ')' :=
    (isDigit_not_paren _ (h2 _ (List.getLast_mem h1))).2.1
  refine parseFresh_single_invalid _ ?_ ?_ ?_ (signed_invalid c _ h1 h2)
  · intro y hy'
    rcases List.mem_append.mp hy' with h | h
    · exact (hall y h).2
    · rcases List.mem_cons.mp h with rfl | h
      · decide
      · exact (isDigit_not_paren y (h2 y h)).2.2
  · rw [hx]
    simp [find_first_not_of, hx1]
  · have e : c.text ++ '-' :: Nat.toDigits 10 n
        = (c.text ++ '-' :: (Nat.toDigits 10 n).dropLast)
          ++ (Nat.toDigits 10 n).getLast h1 :: List.replicate 0 ')' := by
      conv_lhs => rw [hlastd]
      simp
    have hl := endPlusOne_find_last ')' _ hy 0 (c.text ++ '-' :: (Nat.toDigits 10 n).dropLast)
    rw [← e] at hl
    rw [hl]
    conv_rhs => rw [hlastd]
    simp only [List.length_append, List.length_cons, List.length_nil]
    omega

/-- C13, the code at the failing inputs. In `"<5abc"` and `"<5("` the text
after the comparator is not a decimal literal, yet `Parse` returns OK and the
tree is the one of `<5`: `std::stoi` stops at the first character that is
no digit and what follows is dropped. -/
theorem trailing_characters_accepted :
    (∀ v : Int, run "<5abc".data v = some (.OK, some (decide (v < 5)))) ∧
    parseFresh "<5abc".data = parseFresh "<5".data ∧
    parseFresh "<5(".data = parseFresh "<5".data ∧
    (parseFresh "<5".data).map Prod.fst = some .OK := by
  refine ⟨fun v => ?_, rfl, rfl, rfl⟩
  have e : parseFresh "<5abc".data = some (.OK, treeOf
      [⟨.branch (some 1) (some 2), none, none⟩, ⟨.branchRoot 0 true, some 4, none⟩,
       ⟨.branchRoot 0 false, none, none⟩, ⟨.fork (some 2), none, some 4⟩,
       ⟨.expression true 1 5, some 3, some 1⟩] 1 []) := rfl
  rw [run, e]
  simp [treeOf, Evaluate, Node.Evaluate, ExpressionNode.compare, Node.GetRoot,
    Node.GetRoot.walk, Heap.prev, castBranchRoot, BranchRootNode.IsOrLogic]

/-- C14, the code at the failing input. `">5 and"` splits into two tokens, the
last one a logic word with no comparison after it, and `Parse` returns OK;
the tree evaluates as `>5`. -/
theorem trailing_logic_accepted :
    SplitString ">5 and".data ' ' = [">5".data, "and".data] ∧
    (parseFresh ">5 and".data).map Prod.fst = some .OK ∧
    (parseFresh ">5 or".data).map Prod.fst = some .OK ∧
    run ">5 and".data 7 = some (.OK, some true) ∧
    run ">5 and".data 3 = some (.OK, some false) := by
  decide

/-- C15, the code at the failing inputs. (1) For the token `"("`
`find_first_not_of` gives `npos` and `substr` throws: `Parse` does not
return. (2) A leading space makes an empty first token, with the same
effect. (3) After `"((>1)"` the current branch is null (the branch of the
inner bracket is destroyed), and the switch to AND in `"((>1) and >2)"`
dereferences it. (4) In `">1 and (>2 and >3 and (>4 and >5"` the chain of the
fork on top of the stack is headed by node 11, an expression, not a root:
`CloseBrace` finds no Root, and with one `)` more `Parse` does not return. -/
theorem Parse_not_total :
    (find_first_not_of "(".data '(' = none ∧ parseFresh "(".data = none) ∧
    (SplitString " >5".data ' ' = [[], ">5".data] ∧ parseFresh " >5".data = none) ∧
    ((∃ p, parseFresh "((>1)".data = some (.OK, p) ∧ p.m_pActiveBranch = none) ∧
      parseFresh "((>1) and >2)".data = none) ∧
    ((∃ p f, parseFresh ">1 and (>2 and >3 and (>4 and >5".data = some (.OK, p) ∧
        p.m_braceForks.head? = some f ∧
        Node.GetRoot.walk p.heap p.heap.length f = some 11 ∧
        (p.heap[11]?).map Node.kind = some (.expression true 2 3) ∧
        castBranchRoot p.heap 11 = none ∧ CloseBrace p = none) ∧
      parseFresh ">1 and (>2 and >3 and (>4 and >5)".data = none) := by
  refine ⟨⟨rfl, rfl⟩, ⟨rfl, rfl⟩, ⟨⟨_, rfl, rfl⟩, rfl⟩, ⟨⟨_, _, rfl, rfl, rfl, rfl, rfl, rfl⟩, rfl⟩⟩

theorem headerExample_step (fuel : Nat) :
    Node.Evaluate headerExample (fuel + 3) 3 7 =
      match Node.Evaluate headerExample fuel 3 7 with
      | none => none
      | some result => some result := by
  simp [headerExample, Node.Evaluate, ExpressionNode.compare, Node.GetRoot, Node.GetRoot.walk,
    Heap.prev, castBranchRoot, BranchRootNode.IsOrLogic]

theorem headerExample_diverges : ∀ fuel, Node.Evaluate headerExample fuel 3 7 = none := by
  intro fuel
  induction fuel using Nat.strong_induction_on with
  | _ fuel ih =>
    match fuel with
    | 0 => rfl
    | 1 => rfl
    | 2 => rfl
    | f + 3 => rw [headerExample_step, ih f (by omega)]

/-- C16, the code at the failing input. In the tree built for the example of
the header, the fork at node 3 targets the AND root at node 2 and stands in
the chain headed by that root: evaluating the fork at 7 calls the fork again
and never returns, whatever the depth allowed. `Evaluate` itself returns,
because nothing reachable from the base branch leads to that chain any more. -/
theorem fork_in_its_own_chain :
    parseFresh "(>3 or <10) and !=5".data = some (.OK, treeOf headerExample 2 []) ∧
    ForkNode.GetLinkedRoot headerExample 3 = some (some 2) ∧
    Node.GetRoot headerExample 3 = some 2 ∧
    (∀ fuel, Node.Evaluate headerExample fuel 3 7 = none) ∧
    Evaluate (treeOf headerExample 2 []) 7 = some true :=
  ⟨rfl, rfl, rfl, headerExample_diverges, rfl⟩

/-! ## The empty text -/

theorem Reachable.isValid (p : Parser) (h : Reachable p) : p.m_isValid = false := by
  induction h with
  | constructed p h =>
    rw [new_eq] at h
    cases h
    rfl
  | cleared p q _ h _ =>
    have e : Clear p = some emptyTree := rfl
    rw [e] at h
    cases h
    rfl
  | parsed p q text r _ h ih => exact (Parse_isValid p q text r h ih).2

/-- C18. On every instance state a program can reach, `Parse` of the empty
text returns EmptyStatement with offset 0 and changes nothing but the result
code and the offset, and `Parse` of a text that is not empty never returns
EmptyStatement. -/
theorem EmptyStatement_iff_empty (p : Parser) (hp : Reachable p) :
    Parse p [] = some (.EmptyStatement,
      { p with m_result := .EmptyStatement, m_errorAt := 0 }) ∧
    ∀ (text : List Char) (r : ParseResult) (q : Parser), Parse p text = some (r, q) →
      (r = .EmptyStatement ↔ text = []) := by
  have hv := Reachable.isValid p hp
  have h0 : Parse p [] = some (.EmptyStatement,
      { p with m_result := .EmptyStatement, m_errorAt := 0 }) := by
    simp [Parse, hv, SetResult]
  refine ⟨h0, ?_⟩
  intro text r q h
  constructor
  · rintro rfl
    by_contra hne
    unfold Parse at h
    rw [if_neg (by simp [hv]), if_neg hne] at h
    obtain ⟨h1, _⟩ := Parse.loop_result _ _ _ _ _ h hv
    simp only at h1
    rcases h1 with h1 | h1
    · exact absurd h1 (by decide)
    · exact absurd h1 (by decide)
  · rintro rfl
    rw [h0] at h
    simp only [Option.some.injEq, Prod.mk.injEq] at h
    exact h.1.symm

/-- C18 on the instance left by a successful `Parse(">5")`: the empty text
gives EmptyStatement at offset 0 and the tree of `>5` stays. -/
theorem EmptyStatement_iff_empty_witness :
    Parse (treeOf
      [⟨.branch (some 1) (some 2), none, none⟩, ⟨.branchRoot 0 true, some 4, none⟩,
       ⟨.branchRoot 0 false, none, none⟩, ⟨.fork (some 2), none, some 4⟩,
       ⟨.expression true 2 5, some 3, some 1⟩] 1 []) []
      = some (.EmptyStatement,
        { treeOf
            [⟨.branch (some 1) (some 2), none, none⟩, ⟨.branchRoot 0 true, some 4, none⟩,
             ⟨.branchRoot 0 false, none, none⟩, ⟨.fork (some 2), none, some 4⟩,
             ⟨.expression true 2 5, some 3, some 1⟩] 1 [] with
          m_result := .EmptyStatement, m_errorAt := 0 }) :=
  (EmptyStatement_iff_empty _
    (.parsed emptyTree _ ">5".data .OK (.constructed emptyTree rfl) rfl)).1

/-! ## The splice primitive on well linked chains -/

theorem Heap.setNext_effect (h : Heap) (p : Nat) (v : Ptr) (n : Node) (hp : h[p]? = some n) :
    ∃ h' : Heap, h.setNext p v = some h' ∧
      (∀ x, h'.next x = if x = p then some v else h.next x) ∧
      (∀ x, h'.prev x = h.prev x) ∧
      (∀ x, h'.kindAt x = h.kindAt x) := by
  have hlt : p < h.length := by
    rcases Nat.lt_or_ge p h.length with hl | hl
    · exact hl
    · rw [List.getElem?_eq_none hl] at hp; cases hp
  refine ⟨h.set p { n with m_pNext := v }, by simp [Heap.setNext, hp], ?_, ?_, ?_⟩
  · intro x
    by_cases hx : x = p
    · subst hx; simp [Heap.next, List.getElem?_set, hlt]
    · simp [Heap.next, List.getElem?_set, hx, Ne.symm hx]
  · intro x
    by_cases hx : x = p
    · subst hx; simp [Heap.prev, List.getElem?_set, hlt, hp]
    · simp [Heap.prev, List.getElem?_set, Ne.symm hx]
  · intro x
    by_cases hx : x = p
    · subst hx; simp [Heap.kindAt, List.getElem?_set, hlt, hp]
    · simp [Heap.kindAt, List.getElem?_set, Ne.symm hx]

theorem Heap.setPrev_effect (h : Heap) (p : Nat) (v : Ptr) (n : Node) (hp : h[p]? = some n) :
    ∃ h' : Heap, h.setPrev p v = some h' ∧
      (∀ x, h'.next x = h.next x) ∧
      (∀ x, h'.prev x = if x = p then some v else h.prev x) ∧
      (∀ x, h'.kindAt x = h.kindAt x) := by
  have hlt : p < h.length := by
    rcases Nat.lt_or_ge p h.length with hl | hl
    · exact hl
    · rw [List.getElem?_eq_none hl] at hp; cases hp
  refine ⟨h.set p { n with m_pPrev := v }, by simp [Heap.setPrev, hp], ?_, ?_, ?_⟩
  · intro x
    by_cases hx : x = p
    · subst hx; simp [Heap.next, List.getElem?_set, hlt, hp]
    · simp [Heap.next, List.getElem?_set, Ne.symm hx]
  · intro x
    by_cases hx : x = p
    · subst hx; simp [Heap.prev, List.getElem?_set, hlt]
    · simp [Heap.prev, List.getElem?_set, hx, Ne.symm hx]
  · intro x
    by_cases hx : x = p
    · subst hx; simp [Heap.kindAt, List.getElem?_set, hlt, hp]
    · simp [Heap.kindAt, List.getElem?_set, Ne.symm hx]

/-- A node exists where the heap has a successor link to read. -/
theorem Heap.node_of_next (h : Heap) (x : Nat) (q : Ptr) (hx : h.next x = some q) :
    ∃ n, h[x]? = some n := by
  unfold Heap.next at hx
  cases hn : h[x]? with
  | none => rw [hn] at hx; cases hx
  | some n => exact ⟨n, rfl⟩

theorem Heap.node_of_prev (h : Heap) (x : Nat) (q : Ptr) (hx : h.prev x = some q) :
    ∃ n, h[x]? = some n := by
  unfold Heap.prev at hx
  cases hn : h[x]? with
  | none => rw [hn] at hx; cases hx
  | some n => exact ⟨n, rfl⟩

/-- The write `q->m_pPrev = v` guarded by `q != nullptr`. -/
theorem Heap.setPrev_guarded (h : Heap) (q : Ptr) (v : Ptr) (f : Option Heap)
    (hf : f = match q with
      | some r => h.setPrev r v
      | none => some h)
    (hq : ∀ r, q = some r → ∃ n, h[r]? = some n) :
    ∃ h' : Heap, f = some h' ∧
      (∀ x, h'.next x = h.next x) ∧
      (∀ x, h'.prev x = if some x = q then some v else h.prev x) ∧
      (∀ x, h'.kindAt x = h.kindAt x) := by
  subst hf
  cases q with
  | none => exact ⟨h, rfl, fun _ => rfl, fun x => by simp, fun _ => rfl⟩
  | some r =>
    obtain ⟨n, hn⟩ := hq r rfl
    obtain ⟨h', e, h1, h2, h3⟩ := Heap.setPrev_effect h r v n hn
    exact ⟨h', e, h1, fun x => by simpa using h2 x, h3⟩
theorem Heap.node_of_kindAt (h : Heap) (x : Nat) (n : Node) (h' : Heap)
    (hk : h'.kindAt x = h.kindAt x) (hx : h[x]? = some n) : ∃ n', h'[x]? = some n' := by
  unfold Heap.kindAt at hk
  rw [hx] at hk
  cases hn : h'[x]? with
  | none => rw [hn] at hk; cases hk
  | some n' => exact ⟨n', rfl⟩

/-- The links `Node::SetNext` leaves, when the new next node `B` is another
node than `this` and has no successor if it has no predecessor.  Writes are
listed last first. -/
theorem Node.SetNext_links_any (h : Heap) (A B : Nat) (a b : Node)
    (hA : h[A]? = some a) (hB : h[B]? = some b) (hAB : A ≠ B)
    (hS : ∀ s, a.m_pNext = some s → ∃ n, h[s]? = some n)
    (hN : ∀ s, b.m_pNext = some s → ∃ n, h[s]? = some n)
    (hP : ∀ p, b.m_pPrev = some p → ∃ n, h[p]? = some n)
    (hPN : b.m_pPrev = none → b.m_pNext = none) :
    ∃ h' : Heap, Node.SetNext h A (some B) = some h' ∧
      (∀ x, h'.next x =
        if x = B then some a.m_pNext
        else if some x = b.m_pPrev then some b.m_pNext
        else if x = A then some (some B) else h.next x) ∧
      (∀ x, h'.prev x =
        if some x = a.m_pNext then some (some B)
        else if some x = b.m_pNext then some b.m_pPrev
        else if x = B then some (some A) else h.prev x) ∧
      (∀ x, h'.kindAt x = h.kindAt x) := by
  have rA : h.next A = some a.m_pNext := by simp [Heap.next, hA]
  have rBn : h.next B = some b.m_pNext := by simp [Heap.next, hB]
  have rBp : h.prev B = some b.m_pPrev := by simp [Heap.prev, hB]
  -- step 1
  obtain ⟨h1, e1, n1, p1, k1⟩ := Heap.setNext_effect h A (some B) a hA
  obtain ⟨b1, hb1⟩ := Heap.node_of_kindAt h B b h1 (k1 B) hB
  obtain ⟨h2, e2, n2, p2, k2⟩ := Heap.setPrev_effect h1 B (some A) b1 hb1
  have s1 : Node.SetNext.step1 h A (some B) = some h2 := by
    simp [Node.SetNext.step1, e1, e2]
  have n2' : ∀ x, h2.next x = if x = A then some (some B) else h.next x := by
    intro x; rw [n2, n1]
  have p2' : ∀ x, h2.prev x = if x = B then some (some A) else h.prev x := by
    intro x; rw [p2, p1]
  have k2' : ∀ x, h2.kindAt x = h.kindAt x := by
    intro x; rw [k2, k1]
  have valid2 : ∀ (x : Nat) (n : Node), h[x]? = some n → ∃ n' : Node, h2[x]? = some n' :=
    fun x n hx => Heap.node_of_kindAt h x n h2 (k2' x) hx
  -- step 2
  have s2 : ∃ h3 : Heap, Node.SetNext.step2 h2 (some B) b.m_pPrev = some h3 ∧
      (∀ x, h3.next x = if some x = b.m_pPrev then some b.m_pNext else h2.next x) ∧
      (∀ x, h3.prev x = if some x = b.m_pNext then some b.m_pPrev else h2.prev x) ∧
      (∀ x, h3.kindAt x = h2.kindAt x) := by
    cases hp : b.m_pPrev with
    | none =>
      refine ⟨h2, rfl, fun x => by simp, fun x => ?_, fun _ => rfl⟩
      rw [hPN hp]
      simp
    | some p =>
      obtain ⟨pn, hpn⟩ := hP p hp
      obtain ⟨pn2, hpn2⟩ := valid2 p pn hpn
      have rv : h2.nextOrNull (some B) = some b.m_pNext := by
        simp only [Heap.nextOrNull, n2', if_neg (Ne.symm hAB), rBn]
      obtain ⟨h2a, ea, na, pa, ka⟩ := Heap.setNext_effect h2 p b.m_pNext pn2 hpn2
      have rq : h2a.next p = some b.m_pNext := by rw [na, if_pos rfl]
      obtain ⟨h3, e3, n3, p3, k3⟩ := Heap.setPrev_guarded h2a b.m_pNext (some p) _ rfl (by
        intro r hr
        obtain ⟨n, hn⟩ := hN r hr
        obtain ⟨n', hn'⟩ := valid2 r n hn
        exact Heap.node_of_kindAt h2 r n' h2a (ka r) hn')
      refine ⟨h3, ?_, ?_, ?_, ?_⟩
      · simp only [Node.SetNext.step2, Option.bind_eq_bind, rv, Option.some_bind, ea, rq]
        exact e3
      · intro x
        rw [n3, na]
        by_cases hx : x = p
        · simp [hx]
        · simp [hx]
      · intro x
        rw [p3, pa]
      · intro x
        rw [k3, ka]
  obtain ⟨h3, e3, n3, p3, k3⟩ := s2
  have valid3 : ∀ (x : Nat) (n : Node), h[x]? = some n → ∃ n' : Node, h3[x]? = some n' := by
    intro x n hx
    obtain ⟨n', hn'⟩ := valid2 x n hx
    exact Heap.node_of_kindAt h2 x n' h3 (k3 x) hn'
  -- step 3
  obtain ⟨b3, hb3⟩ := valid3 B b hB
  obtain ⟨h4, e4, n4, p4, k4⟩ := Heap.setNext_effect h3 B a.m_pNext b3 hb3
  obtain ⟨h5, e5, n5, p5, k5⟩ := Heap.setPrev_guarded h4 a.m_pNext (some B) _ rfl (by
    intro r hr
    obtain ⟨n, hn⟩ := hS r hr
    obtain ⟨n', hn'⟩ := valid3 r n hn
    exact Heap.node_of_kindAt h3 r n' h4 (k4 r) hn')
  have s3 : Node.SetNext.step3 h3 (some B) a.m_pNext = some h5 := by
    simp only [Node.SetNext.step3, Option.bind_eq_bind, e4, Option.some_bind]
    exact e5
  refine ⟨h5, ?_, ?_, ?_, ?_⟩
  · simp only [Node.SetNext, Option.bind_eq_bind, rA, Heap.nextOrNull, Heap.prevOrNull, rBn, rBp,
      Option.some_bind, s1, e3, s3]
  · intro x
    rw [n5, n4, n3, n2']
  · intro x
    rw [p5, p4, p3, p2']
  · intro x
    rw [k5, k4, k3, k2']

/-- The links `Node::SetNext` leaves, when the new next node `B` is another
node than `this`, is not the successor of `this`, is not its own predecessor,
and has no successor if it has no predecessor.  Writes are listed last first. -/
theorem Node.SetNext_links (h : Heap) (A B : Nat) (a b : Node)
    (hA : h[A]? = some a) (hB : h[B]? = some b) (hAB : A ≠ B)
    (hS : ∀ s, a.m_pNext = some s → ∃ n, h[s]? = some n)
    (hN : ∀ s, b.m_pNext = some s → ∃ n, h[s]? = some n)
    (hP : ∀ p, b.m_pPrev = some p → ∃ n, h[p]? = some n)
    (_ : b.m_pPrev ≠ some A) (_ : b.m_pPrev ≠ some B)
    (hPN : b.m_pPrev = none → b.m_pNext = none) :
    ∃ h' : Heap, Node.SetNext h A (some B) = some h' ∧
      (∀ x, h'.next x =
        if x = B then some a.m_pNext
        else if some x = b.m_pPrev then some b.m_pNext
        else if x = A then some (some B) else h.next x) ∧
      (∀ x, h'.prev x =
        if some x = a.m_pNext then some (some B)
        else if some x = b.m_pNext then some b.m_pPrev
        else if x = B then some (some A) else h.prev x) ∧
      (∀ x, h'.kindAt x = h.kindAt x) :=
  Node.SetNext_links_any h A B a b hA hB hAB hS hN hP hPN

/-- C19. The splice primitive. In a heap whose links are consistent (`x.next
= y` iff `y.prev = x`), for distinct nodes `A` and `B` where `B` is standalone
or has a predecessor `P` other than `A` (and other than `B` itself),
`A.SetNext(B)` returns and leaves: `A.next = B` and `B.prev = A`; `B.next` the
former successor `S` of `A` and, if `S` exists, `S.prev = B`; `P.next` the
former successor `N` of `B` and, if `N` exists, `N.prev = P`; every other
link and every node's kind unchanged; the links consistent again; and, when
the nodes after `A` were the list `tail` without repetition, the nodes from
`B` on are `B` followed by `tail` without `B`. -/
theorem SetNext_splice (h : Heap) (A B : Nat) (a b : Node) (hw : h.WellLinked)
    (hA : h[A]? = some a) (hB : h[B]? = some b) (hAB : A ≠ B)
    (hB' : (b.m_pPrev = none ∧ b.m_pNext = none) ∨
      ∃ P, b.m_pPrev = some P ∧ P ≠ A ∧ P ≠ B) :
    ∃ h' : Heap, Node.SetNext h A (some B) = some h' ∧
      h'.next A = some (some B) ∧ h'.prev B = some (some A) ∧
      h'.next B = some a.m_pNext ∧
      (∀ S, a.m_pNext = some S → h'.prev S = some (some B)) ∧
      (∀ P, b.m_pPrev = some P → h'.next P = some b.m_pNext ∧
        ∀ N, b.m_pNext = some N → h'.prev N = some (some P)) ∧
      (∀ x, x ≠ A → x ≠ B → some x ≠ b.m_pPrev → h'.next x = h.next x) ∧
      (∀ x, x ≠ B → some x ≠ a.m_pNext → some x ≠ b.m_pNext → h'.prev x = h.prev x) ∧
      (∀ x, h'.kindAt x = h.kindAt x) ∧
      h'.WellLinked ∧
      (∀ tail, h.IsChain a.m_pNext tail → (A :: tail).Nodup →
        h'.IsChain (some B) (B :: tail.erase B)) := by
  have fA : h.next A = some a.m_pNext := by simp [Heap.next, hA]
  have fBn : h.next B = some b.m_pNext := by simp [Heap.next, hB]
  have fBp : h.prev B = some b.m_pPrev := by simp [Heap.prev, hB]
  have wS : ∀ s, a.m_pNext = some s → h.prev s = some (some A) :=
    fun s hs => (hw A s).mp (by rw [fA, hs])
  have wN : ∀ n, b.m_pNext = some n → h.prev n = some (some B) :=
    fun n hn => (hw B n).mp (by rw [fBn, hn])
  have wP : ∀ p, b.m_pPrev = some p → h.next p = some (some B) :=
    fun p hp => (hw p B).mpr (by rw [fBp, hp])
  have hPA : b.m_pPrev ≠ some A := by
    rcases hB' with ⟨h1, _⟩ | ⟨P, h1, h2, _⟩
    · rw [h1]; simp
    · rw [h1]; simpa using h2
  have hPB : b.m_pPrev ≠ some B := by
    rcases hB' with ⟨h1, _⟩ | ⟨P, h1, _, h3⟩
    · rw [h1]; simp
    · rw [h1]; simpa using h3
  have hPN : b.m_pPrev = none → b.m_pNext = none := by
    intro hp
    rcases hB' with ⟨_, h2⟩ | ⟨P, h1, _, _⟩
    · exact h2
    · rw [h1] at hp; cases hp
  have hSB : a.m_pNext ≠ some B := by
    intro e
    have := wS B e
    rw [fBp] at this
    exact hPA (Option.some.inj this)
  have hNB : b.m_pNext ≠ some B := by
    intro e
    have := wN B e
    rw [fBp] at this
    exact hPB (Option.some.inj this)
  have hSN : ∀ s, a.m_pNext = some s → b.m_pNext ≠ some s := by
    intro s h1 h2
    have e1 := wS s h1
    rw [wN s h2] at e1
    exact hAB (Option.some.inj (Option.some.inj e1)).symm
  obtain ⟨h', e, nf, pf, kf⟩ := Node.SetNext_links h A B a b hA hB hAB
    (fun s hs => Heap.node_of_prev h s _ (wS s hs))
    (fun s hs => Heap.node_of_prev h s _ (wN s hs))
    (fun p hp => Heap.node_of_next h p _ (wP p hp)) hPA hPB hPN
  have nA : h'.next A = some (some B) := by
    rw [nf, if_neg hAB, if_neg (fun e => hPA e.symm), if_pos rfl]
  have nB : h'.next B = some a.m_pNext := by rw [nf, if_pos rfl]
  have nOther : ∀ x, x ≠ A → x ≠ B → some x ≠ b.m_pPrev → h'.next x = h.next x := by
    intro x h1 h2 h3
    rw [nf, if_neg h2, if_neg h3, if_neg h1]
  have nP : ∀ P, b.m_pPrev = some P → h'.next P = some b.m_pNext := by
    intro P hp
    rw [nf, if_neg (fun e => hPB (by rw [hp, e])), if_pos hp.symm]
  refine ⟨h', e, nA, ?_, nB, ?_, ?_, nOther, ?_, kf, ?_, ?_⟩
  · rw [pf, if_neg (fun e => hSB e.symm), if_neg (fun e => hNB e.symm), if_pos rfl]
  · intro S hS
    rw [pf, if_pos hS.symm]
  · intro P hp
    refine ⟨nP P hp, ?_⟩
    intro N hN
    have h1 : some N ≠ a.m_pNext := fun e => hSN N e.symm hN
    rw [pf, if_neg h1, if_pos hN.symm, hp]
  · intro x h1 h2 h3
    rw [pf, if_neg h2, if_neg h3, if_neg h1]
  · intro x y
    rw [nf, pf]
    constructor
    · intro hx
      by_cases hxB : x = B
      · rw [if_pos hxB] at hx
        have hS : a.m_pNext = some y := Option.some.inj hx
        rw [if_pos hS.symm, hxB]
      · rw [if_neg hxB] at hx
        by_cases hxP : some x = b.m_pPrev
        · rw [if_pos hxP] at hx
          have hN : b.m_pNext = some y := Option.some.inj hx
          rw [if_neg (fun e => hSN y e.symm hN), if_pos hN.symm, hxP]
        · rw [if_neg hxP] at hx
          by_cases hxA : x = A
          · rw [if_pos hxA] at hx
            have hy : y = B := (Option.some.inj (Option.some.inj hx)).symm
            rw [hy, if_neg (fun e => hSB e.symm), if_neg (fun e => hNB e.symm), if_pos rfl, hxA]
          · rw [if_neg hxA] at hx
            have hp := (hw x y).mp hx
            have h1 : some y ≠ a.m_pNext := by
              intro e
              rw [wS y e.symm] at hp
              exact hxA (Option.some.inj (Option.some.inj hp)).symm
            have h2 : some y ≠ b.m_pNext := by
              intro e
              rw [wN y e.symm] at hp
              exact hxB (Option.some.inj (Option.some.inj hp)).symm
            have h3 : y ≠ B := by
              intro e
              rw [e, fBp] at hp
              exact hxP (Option.some.inj hp).symm
            rw [if_neg h1, if_neg h2, if_neg h3, hp]
    · intro hy
      by_cases hyS : some y = a.m_pNext
      · rw [if_pos hyS] at hy
        have hx : x = B := (Option.some.inj (Option.some.inj hy)).symm
        rw [if_pos hx, hyS]
      · rw [if_neg hyS] at hy
        by_cases hyN : some y = b.m_pNext
        · rw [if_pos hyN] at hy
          have hp : b.m_pPrev = some x := Option.some.inj hy
          rw [if_neg (fun e => hPB (by rw [hp, e])), if_pos hp.symm, hyN]
        · rw [if_neg hyN] at hy
          by_cases hyB : y = B
          · rw [if_pos hyB] at hy
            have hx : x = A := (Option.some.inj (Option.some.inj hy)).symm
            rw [hx, if_neg hAB, if_neg (fun e => hPA e.symm), if_pos rfl, hyB]
          · rw [if_neg hyB] at hy
            have hn := (hw x y).mpr hy
            have h1 : x ≠ B := by
              intro e
              rw [e, fBn] at hn
              exact hyN (Option.some.inj hn).symm
            have h2 : some x ≠ b.m_pPrev := by
              intro e
              rw [wP x e.symm] at hn
              exact hyB (Option.some.inj (Option.some.inj hn)).symm
            have h3 : x ≠ A := by
              intro e
              rw [e, fA] at hn
              exact hyS (Option.some.inj hn).symm
            rw [if_neg h1, if_neg h2, if_neg h3, hn]
  · intro tail hc hnd
    have key : ∀ (l : List Nat) (q : Ptr), h.IsChain q l → A ∉ l → l.Nodup →
        h'.IsChain (if q = some B then b.m_pNext else q) (l.erase B) := by
      intro l
      induction l with
      | nil =>
        intro q hq _ _
        simp only [Heap.IsChain] at hq
        subst hq
        simp [Heap.IsChain]
      | cons x xs ih =>
        intro q hq hAl hnd
        obtain ⟨hqx, q2, hq2, hrest⟩ := hq
        have hxA : x ≠ A := fun e => hAl (by simp [e])
        have hAxs : A ∉ xs := fun e => hAl (by simp [e])
        have hndxs : xs.Nodup := (List.nodup_cons.mp hnd).2
        have hxxs : x ∉ xs := (List.nodup_cons.mp hnd).1
        have ih' := ih q2 hrest hAxs hndxs
        by_cases hxB : x = B
        · subst hxB
          rw [fBn] at hq2
          have e2 : q2 = b.m_pNext := (Option.some.inj hq2).symm
          rw [e2, if_neg hNB, List.erase_of_not_mem hxxs] at ih'
          rw [hqx, if_pos rfl, List.erase_cons_head]
          exact ih'
        · rw [hqx, if_neg (fun e => hxB (Option.some.inj e)),
            List.erase_cons_tail (by simpa using hxB)]
          refine ⟨rfl, ?_⟩
          by_cases hxP : some x = b.m_pPrev
          · have e2 : q2 = some B := by
              have := wP x hxP.symm
              rw [hq2] at this
              exact Option.some.inj this
            rw [e2, if_pos rfl] at ih'
            exact ⟨b.m_pNext, nP x hxP.symm, ih'⟩
          · have hne : q2 ≠ some B := by
              intro e2
              rw [e2] at hq2
              have := (hw x B).mp hq2
              rw [fBp] at this
              exact hxP (Option.some.inj this).symm
            rw [if_neg hne] at ih'
            exact ⟨q2, by rw [nOther x hxA hxB hxP, hq2], ih'⟩
    have hAt : A ∉ tail := (List.nodup_cons.mp hnd).1
    have := key tail a.m_pNext hc hAt (List.nodup_cons.mp hnd).2
    rw [if_neg hSB] at this
    exact ⟨rfl, a.m_pNext, nB, this⟩

/-- C19 at the third worked example of the comments of `SetNext`: in the
chain `0 1 2 3 4 5`, `1.SetNext(4)` gives the chain `0 1 4 2 3 5`; here the
nodes after node 1 go from `2 3 4 5` to `4 2 3 5`. -/
theorem SetNext_splice_witness :
    ∃ h' : Heap, Node.SetNext
        [⟨.branchRoot 0 true, some 1, none⟩, ⟨.expression true 1 1, some 2, some 0⟩,
         ⟨.expression true 1 2, some 3, some 1⟩, ⟨.expression true 1 3, some 4, some 2⟩,
         ⟨.expression true 1 4, some 5, some 3⟩, ⟨.expression true 1 5, none, some 4⟩]
        1 (some 4) = some h' ∧
      h'.next 1 = some (some 4) ∧ h'.prev 4 = some (some 1) ∧ h'.next 4 = some (some 2) ∧
      h'.IsChain (some 4) (4 :: [2, 3, 4, 5].erase 4) := by
  obtain ⟨h', e, h1, h2, h3, _, _, _, _, _, _, h4⟩ := SetNext_splice
    [⟨.branchRoot 0 true, some 1, none⟩, ⟨.expression true 1 1, some 2, some 0⟩,
     ⟨.expression true 1 2, some 3, some 1⟩, ⟨.expression true 1 3, some 4, some 2⟩,
     ⟨.expression true 1 4, some 5, some 3⟩, ⟨.expression true 1 5, none, some 4⟩]
    1 4 ⟨.expression true 1 1, some 2, some 0⟩ ⟨.expression true 1 4, some 5, some 3⟩
    (by
      intro x y
      constructor
      · intro hx
        rcases x with _ | _ | _ | _ | _ | _ | x <;> simp [Heap.next] at hx <;>
          subst hx <;> rfl
      · intro hy
        rcases y with _ | _ | _ | _ | _ | _ | y <;> simp [Heap.prev] at hy <;>
          subst hy <;> rfl)
    rfl rfl (by decide) (.inr ⟨3, rfl, by decide, by decide⟩)
  exact ⟨h', e, h1, h2, h3, h4 [2, 3, 4, 5]
    ⟨rfl, _, rfl, rfl, _, rfl, rfl, _, rfl, rfl, _, rfl, rfl⟩ (by decide)⟩

/-! ## Operations on a heap placed behind other nodes -/

theorem Heap.frame_get (pre l : Heap) (i : Nat) :
    (Heap.frame pre l)[pre.length + i]? = (l[i]?).map (Node.shift pre.length) := by
  simp [Heap.frame, List.getElem?_append_right]

theorem Heap.frame_length (pre l : Heap) :
    (Heap.frame pre l).length = pre.length + l.length := by
  simp [Heap.frame]

theorem Heap.frame_next (pre l : Heap) (i : Nat) :
    (Heap.frame pre l).next (pre.length + i) = (l.next i).map (Option.map (pre.length + ·)) := by
  simp only [Heap.next, Heap.frame_get, Option.map_map]
  rfl

theorem Heap.frame_prev (pre l : Heap) (i : Nat) :
    (Heap.frame pre l).prev (pre.length + i) = (l.prev i).map (Option.map (pre.length + ·)) := by
  simp only [Heap.prev, Heap.frame_get, Option.map_map]
  rfl

theorem Heap.frame_set (pre l : Heap) (i : Nat) (n : Node) :
    (Heap.frame pre l).set (pre.length + i) (n.shift pre.length) = Heap.frame pre (l.set i n) := by
  simp [Heap.frame, List.set_append, List.map_set]

theorem Heap.frame_setNext (pre l : Heap) (i : Nat) (v : Ptr) :
    (Heap.frame pre l).setNext (pre.length + i) (v.map (pre.length + ·))
      = (l.setNext i v).map (Heap.frame pre) := by
  unfold Heap.setNext
  rw [Heap.frame_get]
  cases l[i]? with
  | none => rfl
  | some n =>
    simp only [Option.map_some']
    rw [← Heap.frame_set]
    rfl

theorem Heap.frame_setPrev (pre l : Heap) (i : Nat) (v : Ptr) :
    (Heap.frame pre l).setPrev (pre.length + i) (v.map (pre.length + ·))
      = (l.setPrev i v).map (Heap.frame pre) := by
  unfold Heap.setPrev
  rw [Heap.frame_get]
  cases l[i]? with
  | none => rfl
  | some n =>
    simp only [Option.map_some']
    rw [← Heap.frame_set]
    rfl

theorem Heap.frame_nextOrNull (pre l : Heap) (b : Ptr) :
    (Heap.frame pre l).nextOrNull (b.map (pre.length + ·))
      = (l.nextOrNull b).map (Option.map (pre.length + ·)) := by
  cases b with
  | none => rfl
  | some b => exact Heap.frame_next pre l b

theorem Heap.frame_prevOrNull (pre l : Heap) (b : Ptr) :
    (Heap.frame pre l).prevOrNull (b.map (pre.length + ·))
      = (l.prevOrNull b).map (Option.map (pre.length + ·)) := by
  cases b with
  | none => rfl
  | some b => exact Heap.frame_prev pre l b
theorem Node.SetNext.step1_frame (pre l : Heap) (self : Nat) (b : Ptr) :
    Node.SetNext.step1 (Heap.frame pre l) (pre.length + self) (b.map (pre.length + ·))
      = (Node.SetNext.step1 l self b).map (Heap.frame pre) := by
  unfold Node.SetNext.step1
  simp only [Option.bind_eq_bind, Heap.frame_setNext]
  cases l.setNext self b with
  | none => rfl
  | some h1 =>
    cases b with
    | none => rfl
    | some b =>
      simp only [Option.map_some', Option.some_bind]
      exact Heap.frame_setPrev pre h1 b (some self)

theorem Node.SetNext.step2_frame (pre l : Heap) (b q : Ptr) :
    Node.SetNext.step2 (Heap.frame pre l) (b.map (pre.length + ·)) (q.map (pre.length + ·))
      = (Node.SetNext.step2 l b q).map (Heap.frame pre) := by
  unfold Node.SetNext.step2
  cases q with
  | none => rfl
  | some q =>
    simp only [Option.map_some', Option.bind_eq_bind, Heap.frame_nextOrNull]
    cases l.nextOrNull b with
    | none => rfl
    | some v =>
      simp only [Option.map_some', Option.some_bind, Heap.frame_setNext]
      cases l.setNext q v with
      | none => rfl
      | some h1 =>
        simp only [Option.map_some', Option.some_bind, Heap.frame_next]
        cases h1.next q with
        | none => rfl
        | some qn =>
          cases qn with
          | none => rfl
          | some r =>
            simp only [Option.map_some', Option.some_bind]
            exact Heap.frame_setPrev pre h1 r (some q)

theorem Node.SetNext.step3_frame (pre l : Heap) (b o : Ptr) :
    Node.SetNext.step3 (Heap.frame pre l) (b.map (pre.length + ·)) (o.map (pre.length + ·))
      = (Node.SetNext.step3 l b o).map (Heap.frame pre) := by
  unfold Node.SetNext.step3
  cases b with
  | none =>
    cases o with
    | none => rfl
    | some o =>
      simp only [Option.map_none', Option.map_some', Option.bind_eq_bind, Option.some_bind]
      exact Heap.frame_setPrev pre l o none
  | some b =>
    simp only [Option.map_some', Option.bind_eq_bind, Heap.frame_setNext]
    cases l.setNext b o with
    | none => rfl
    | some h1 =>
      cases o with
      | none => rfl
      | some o =>
        simp only [Option.map_some', Option.some_bind]
        exact Heap.frame_setPrev pre h1 o (some b)

theorem Node.SetNext_frame (pre l : Heap) (self : Nat) (b : Ptr) :
    Node.SetNext (Heap.frame pre l) (pre.length + self) (b.map (pre.length + ·))
      = (Node.SetNext l self b).map (Heap.frame pre) := by
  unfold Node.SetNext
  simp only [Heap.frame_next, Heap.frame_nextOrNull, Heap.frame_prevOrNull,
    Option.bind_eq_bind, Node.SetNext.step1_frame]
  cases l.next self with
  | none => rfl
  | some o =>
  cases l.nextOrNull b with
  | none => rfl
  | some tn =>
  cases l.prevOrNull b with
  | none => rfl
  | some tp =>
  simp only [Option.map_some', Option.some_bind]
  cases Node.SetNext.step1 l self b with
  | none => rfl
  | some h1 =>
  simp only [Option.map_some', Option.some_bind, Node.SetNext.step2_frame]
  cases Node.SetNext.step2 h1 b tp with
  | none => rfl
  | some h2 =>
    simp only [Option.map_some', Option.some_bind]
    exact Node.SetNext.step3_frame pre h2 b o
theorem Heap.frame_append (pre l l2 : Heap) :
    Heap.frame pre l ++ l2.map (Node.shift pre.length) = Heap.frame pre (l ++ l2) := by
  simp [Heap.frame]

theorem BranchNode.Create_frame (pre l : Heap) :
    BranchNode.Create (Heap.frame pre l)
      = (BranchNode.Create l).map fun r => (Heap.frame pre r.1, pre.length + r.2) := by
  unfold BranchNode.Create
  have e : Heap.frame pre l ++
      [Node.fresh (.branch (some ((Heap.frame pre l).length + 1))
          (some ((Heap.frame pre l).length + 2))),
        Node.fresh (.branchRoot (Heap.frame pre l).length true),
        Node.fresh (.branchRoot (Heap.frame pre l).length false),
        Node.fresh (.fork (some ((Heap.frame pre l).length + 2)))]
      = Heap.frame pre (l ++
      [Node.fresh (.branch (some (l.length + 1)) (some (l.length + 2))),
        Node.fresh (.branchRoot l.length true),
        Node.fresh (.branchRoot l.length false),
        Node.fresh (.fork (some (l.length + 2)))]) := by
    rw [← Heap.frame_append, Heap.frame_length]
    simp [Node.shift, Node.fresh, NodeKind.shift, Nat.add_assoc]
  simp only [Option.bind_eq_bind, Option.pure_def]
  rw [e, Heap.frame_length]
  have h := Node.SetNext_frame pre (l ++
      [Node.fresh (.branch (some (l.length + 1)) (some (l.length + 2))),
        Node.fresh (.branchRoot l.length true),
        Node.fresh (.branchRoot l.length false),
        Node.fresh (.fork (some (l.length + 2)))]) (l.length + 1) (some (l.length + 3))
  simp only [Option.map_some', ← Nat.add_assoc] at h
  rw [h]
  cases Node.SetNext _ (l.length + 1) (some (l.length + 3)) <;> rfl

theorem BranchNode.GetLogicPathRoot_frame (pre l : Heap) (p : Nat) (o : Bool) :
    BranchNode.GetLogicPathRoot (Heap.frame pre l) (pre.length + p) o
      = (BranchNode.GetLogicPathRoot l p o).map (Option.map (pre.length + ·)) := by
  unfold BranchNode.GetLogicPathRoot
  rw [Heap.frame_get]
  cases l[p]? with
  | none => rfl
  | some n =>
    obtain ⟨k, a, b⟩ := n
    cases k <;> cases o <;> rfl

theorem ForkNode.GetLinkedRoot_frame (pre l : Heap) (f : Nat) :
    ForkNode.GetLinkedRoot (Heap.frame pre l) (pre.length + f)
      = (ForkNode.GetLinkedRoot l f).map (Option.map (pre.length + ·)) := by
  unfold ForkNode.GetLinkedRoot
  rw [Heap.frame_get]
  cases l[f]? with
  | none => rfl
  | some n =>
    obtain ⟨k, a, b⟩ := n
    cases k <;> rfl

theorem ForkNode.SetLinkedRoot_frame (pre l : Heap) (f : Nat) (r : Ptr) :
    ForkNode.SetLinkedRoot (Heap.frame pre l) (pre.length + f) (r.map (pre.length + ·))
      = (ForkNode.SetLinkedRoot l f r).map (Heap.frame pre) := by
  unfold ForkNode.SetLinkedRoot
  rw [Heap.frame_get]
  cases l[f]? with
  | none => rfl
  | some n =>
    obtain ⟨k, a, b⟩ := n
    cases k with
    | fork x =>
      simp only [Option.map_some', Node.shift, NodeKind.shift]
      rw [← Heap.frame_set]
      rfl
    | _ => rfl

theorem Heap.release_frame (pre l : Heap) (b : Nat) :
    Heap.release (Heap.frame pre l) (pre.length + b) = Heap.frame pre (Heap.release l b) := by
  unfold Heap.release
  rw [Heap.frame_get]
  cases l[b]? with
  | none => rfl
  | some n =>
    simp only [Option.map_some']
    rw [← Heap.frame_set]
    rfl

theorem castBranchRoot_frame (pre l : Heap) (p : Nat) :
    castBranchRoot (Heap.frame pre l) (pre.length + p)
      = (castBranchRoot l p).map (pre.length + ·) := by
  unfold castBranchRoot
  rw [Heap.frame_get]
  cases l[p]? with
  | none => rfl
  | some n =>
    obtain ⟨k, a, b⟩ := n
    cases k <;> rfl

theorem BranchRootNode.IsOrLogic_frame (pre l : Heap) (p : Nat) :
    BranchRootNode.IsOrLogic (Heap.frame pre l) (pre.length + p)
      = BranchRootNode.IsOrLogic l p := by
  unfold BranchRootNode.IsOrLogic
  rw [Heap.frame_get]
  cases l[p]? with
  | none => rfl
  | some n =>
    obtain ⟨k, a, b⟩ := n
    cases k <;> rfl

theorem GetLast_walk_frame (pre l : Heap) : ∀ fuel p,
    Node.GetLast.walk (Heap.frame pre l) fuel (pre.length + p)
      = (Node.GetLast.walk l fuel p).map (pre.length + ·) := by
  intro fuel
  induction fuel with
  | zero => intro p; rfl
  | succ n ih =>
    intro p
    simp only [Node.GetLast.walk, Heap.frame_next]
    cases l.next p with
    | none => rfl
    | some q =>
      cases q with
      | none => rfl
      | some q => exact ih q

theorem GetRoot_walk_frame (pre l : Heap) : ∀ fuel p,
    Node.GetRoot.walk (Heap.frame pre l) fuel (pre.length + p)
      = (Node.GetRoot.walk l fuel p).map (pre.length + ·) := by
  intro fuel
  induction fuel with
  | zero => intro p; rfl
  | succ n ih =>
    intro p
    simp only [Node.GetRoot.walk, Heap.frame_prev]
    cases l.prev p with
    | none => rfl
    | some q =>
      cases q with
      | none => rfl
      | some q => exact ih q

theorem GetLast_walk_mono (h : Heap) : ∀ fuel p r, Node.GetLast.walk h fuel p = some r →
    ∀ more, Node.GetLast.walk h (fuel + more) p = some r := by
  intro fuel
  induction fuel with
  | zero => intro p r hw; simp [Node.GetLast.walk] at hw
  | succ n ih =>
    intro p r hw more
    rw [Nat.add_right_comm]
    simp only [Node.GetLast.walk] at hw ⊢
    cases hq : h.next p with
    | none => rw [hq] at hw; simp at hw
    | some q =>
      rw [hq] at hw
      cases q with
      | none => exact hw
      | some q => exact ih q r hw more

theorem GetRoot_walk_mono (h : Heap) : ∀ fuel p r, Node.GetRoot.walk h fuel p = some r →
    ∀ more, Node.GetRoot.walk h (fuel + more) p = some r := by
  intro fuel
  induction fuel with
  | zero => intro p r hw; simp [Node.GetRoot.walk] at hw
  | succ n ih =>
    intro p r hw more
    rw [Nat.add_right_comm]
    simp only [Node.GetRoot.walk] at hw ⊢
    cases hq : h.prev p with
    | none => rw [hq] at hw; simp at hw
    | some q =>
      rw [hq] at hw
      cases q with
      | none => exact hw
      | some q => exact ih q r hw more

theorem Node.GetLast_frame (pre l : Heap) (p r : Nat) (h : Node.GetLast l p = some r) :
    Node.GetLast (Heap.frame pre l) (pre.length + p) = some (pre.length + r) := by
  unfold Node.GetLast at h ⊢
  rw [Heap.frame_next]
  cases hq : l.next p with
  | none => rw [hq] at h; simp at h
  | some q =>
    rw [hq] at h
    cases q with
    | none =>
      simp only [Option.some.injEq] at h
      subst h
      rfl
    | some q =>
      simp only [Option.map_some'] at h ⊢
      rw [Heap.frame_length, Nat.add_comm pre.length l.length,
        GetLast_walk_mono _ l.length _ (pre.length + r)]
      rw [GetLast_walk_frame, h]
      rfl

theorem Node.GetRoot_frame (pre l : Heap) (p r : Nat) (h : Node.GetRoot l p = some r) :
    Node.GetRoot (Heap.frame pre l) (pre.length + p) = some (pre.length + r) := by
  unfold Node.GetRoot at h ⊢
  rw [Heap.frame_prev]
  cases hq : l.prev p with
  | none => rw [hq] at h; simp at h
  | some q =>
    rw [hq] at h
    cases q with
    | none =>
      simp only [Option.map_some', Option.map_none'] at h ⊢
      rw [castBranchRoot_frame, h]
      rfl
    | some q =>
      simp only [Option.map_some'] at h ⊢
      cases hw : Node.GetRoot.walk l l.length q with
      | none => rw [hw] at h; simp at h
      | some w =>
        rw [hw] at h
        simp only [Option.some_bind] at h
        rw [Heap.frame_length, Nat.add_comm pre.length l.length,
          GetRoot_walk_mono _ l.length _ (pre.length + w)]
        · simp only [Option.some_bind]
          rw [castBranchRoot_frame, h]
          rfl
        · rw [GetRoot_walk_frame, hw]
          rfl
theorem OpenBrace_frame (pre : Heap) (outer : List Nat) (p q : Parser)
    (h : OpenBrace p = some q) :
    OpenBrace (p.frame pre outer) = some (q.frame pre outer) := by
  unfold OpenBrace at h ⊢
  have e : (p.frame pre outer).heap ++ [Node.fresh (.fork none)]
      = Heap.frame pre (p.heap ++ [Node.fresh (.fork none)]) := by
    rw [← Heap.frame_append]
    rfl
  have hl : (p.frame pre outer).heap.length = pre.length + p.heap.length :=
    Heap.frame_length pre p.heap
  simp only [Option.bind_eq_bind, Option.pure_def] at h ⊢
  rw [e, BranchNode.Create_frame]
  cases hC : BranchNode.Create (p.heap ++ [Node.fresh (.fork none)]) with
  | none => rw [hC] at h; simp at h
  | some r1 =>
    obtain ⟨h1, b⟩ := r1
    rw [hC] at h
    simp only [Option.map_some', Option.some_bind, BranchNode.GetLogicPathRoot_frame] at h ⊢
    cases hG : BranchNode.GetLogicPathRoot h1 b true with
    | none => rw [hG] at h; simp at h
    | some r =>
      rw [hG] at h
      simp only [Option.map_some', Option.some_bind, hl, ForkNode.SetLinkedRoot_frame] at h ⊢
      cases hS : ForkNode.SetLinkedRoot h1 p.heap.length r with
      | none => rw [hS] at h; simp at h
      | some h2 =>
        rw [hS] at h
        simp only [Option.map_some', Option.some_bind] at h ⊢
        cases hL : Node.GetLast h2 p.m_pActiveBranchRoot with
        | none => rw [hL] at h; simp at h
        | some last =>
          rw [hL] at h
          have hL2 : Node.GetLast (Heap.frame pre h2) (p.frame pre outer).m_pActiveBranchRoot
              = some (pre.length + last) := Node.GetLast_frame pre h2 _ _ hL
          rw [hL2]
          simp only [Option.some_bind] at h ⊢
          have hN := Node.SetNext_frame pre h2 last (some p.heap.length)
          simp only [Option.map_some'] at hN
          rw [hN]
          cases hN2 : Node.SetNext h2 last (some p.heap.length) with
          | none => rw [hN2] at h; simp at h
          | some h3 =>
            rw [hN2] at h
            simp only [Option.map_some', Option.some_bind, ForkNode.GetLinkedRoot_frame] at h ⊢
            cases hR : ForkNode.GetLinkedRoot h3 p.heap.length with
            | none => rw [hR] at h; simp at h
            | some r2 =>
              rw [hR] at h
              cases r2 with
              | none => simp at h
              | some r2 =>
                simp only [Option.some_bind, Option.some.injEq] at h
                subst h
                simp [Parser.frame, Heap.release_frame]

theorem addNode_frame (pre : Heap) (outer : List Nat) (p : Parser) (v : Bool) (o : Nat)
    (x : Int) :
    addNode (p.frame pre outer) (.expression v o x)
      = (addNode p (.expression v o x)).map (Parser.frame pre outer) := by
  unfold addNode
  have e : (p.frame pre outer).heap ++ [Node.fresh (.expression v o x)]
      = Heap.frame pre (p.heap ++ [Node.fresh (.expression v o x)]) := by
    rw [← Heap.frame_append]
    rfl
  have hl : (p.frame pre outer).heap.length = pre.length + p.heap.length :=
    Heap.frame_length pre p.heap
  have hN := Node.SetNext_frame pre (p.heap ++ [Node.fresh (.expression v o x)])
    p.m_pActiveBranchRoot (some p.heap.length)
  simp only [Option.map_some'] at hN
  rw [e, hl]
  have hr : (p.frame pre outer).m_pActiveBranchRoot = pre.length + p.m_pActiveBranchRoot := rfl
  rw [hr, hN]
  cases Node.SetNext (p.heap ++ [Node.fresh (.expression v o x)])
    p.m_pActiveBranchRoot (some p.heap.length) <;> rfl

theorem Node.Evaluate_frame (pre l : Heap) (value : Int) : ∀ (fuel i : Nat) (r : Bool),
    Node.Evaluate l fuel i value = some r →
      Node.Evaluate (Heap.frame pre l) fuel (pre.length + i) value = some r := by
  intro fuel
  induction fuel with
  | zero => intro i r h; simp [Node.Evaluate] at h
  | succ n ih =>
    intro i r h
    have root : ∀ o, (Node.GetRoot l i).bind (BranchRootNode.IsOrLogic l) = some o →
        (Node.GetRoot (Heap.frame pre l) (pre.length + i)).bind
          (BranchRootNode.IsOrLogic (Heap.frame pre l)) = some o := by
      intro o ho
      cases hg : Node.GetRoot l i with
      | none => rw [hg] at ho; simp at ho
      | some g =>
        rw [hg] at ho
        rw [Node.GetRoot_frame pre l i g hg]
        simp only [Option.some_bind] at ho ⊢
        rw [BranchRootNode.IsOrLogic_frame, ho]
    rw [Node.Evaluate] at h ⊢
    rw [Heap.frame_get]
    cases hi : l[i]? with
    | none => rw [hi] at h; simp at h
    | some me =>
      rw [hi] at h
      obtain ⟨k, nx, pv⟩ := me
      simp only [Option.map_some', Node.shift] at h ⊢
      cases k with
      | destroyed => simp at h
      | branch a b =>
        cases a with
        | none => simp at h
        | some a => exact ih a r h
      | branchRoot a b =>
        cases nx with
        | none => exact h
        | some nx => exact ih nx r h
      | fork a =>
        cases a with
        | none => simp at h
        | some a =>
          simp only [NodeKind.shift, Option.map_some'] at h ⊢
          cases he : Node.Evaluate l n a value with
          | none => rw [he] at h; simp at h
          | some res =>
            rw [he] at h
            rw [ih a res he]
            cases nx with
            | none => exact h
            | some nx =>
              simp only [Option.map_some'] at h ⊢
              cases ho : (Node.GetRoot l i).bind (BranchRootNode.IsOrLogic l) with
              | none => rw [ho] at h; simp at h
              | some o =>
                rw [ho] at h
                rw [root o ho]
                simp only at h ⊢
                by_cases hc : res = o
                · rw [if_pos hc] at h ⊢
                  exact h
                · rw [if_neg hc] at h ⊢
                  exact ih nx r h
      | expression a b c =>
        simp only [NodeKind.shift] at h ⊢
        by_cases ha : a = false
        · rw [if_pos ha] at h ⊢
          exact h
        · rw [if_neg ha] at h ⊢
          cases hcmp : ExpressionNode.compare b value c with
          | none => rw [hcmp] at h; exact h
          | some res =>
            rw [hcmp] at h
            cases nx with
            | none => exact h
            | some nx =>
              simp only [Option.map_some'] at h ⊢
              cases ho : (Node.GetRoot l i).bind (BranchRootNode.IsOrLogic l) with
              | none => rw [ho] at h; simp at h
              | some o =>
                rw [ho] at h
                rw [root o ho]
                simp only at h ⊢
                by_cases hc : res = o
                · rw [if_pos hc] at h ⊢
                  exact h
                · rw [if_neg hc] at h ⊢
                  exact ih nx r h
/-! ## Brackets opened and never closed -/

theorem emptyTree_eq_nested : emptyTree = nested 0 true := rfl

theorem OpenBrace_nested : ∀ (m : Nat) (top : Bool),
    OpenBrace (nested m top) = some (nested (m + 1) top) := by
  intro m
  induction m with
  | zero => intro top; cases top <;> decide
  | succ m ih =>
    intro top
    exact OpenBrace_frame (openBlock top) [4] _ _ (ih false)

theorem opening_nested : ∀ (n m : Nat) (top : Bool),
    opening n (nested m top) = some (nested (m + n) top) := by
  intro n
  induction n with
  | zero => intro m top; rfl
  | succ n ih =>
    intro m top
    rw [opening, OpenBrace_nested, Option.some_bind, ih, Nat.add_right_comm, Nat.add_assoc]

theorem addNode_nested (v : Bool) (o : Nat) (x : Int) : ∀ (m : Nat) (top : Bool),
    addNode (nested m top) (.expression v o x)
      = some (nestedLeaf (.expression v o x) m top) := by
  intro m
  induction m with
  | zero =>
    intro top
    simp [addNode, nested, nestedLeaf, treeOf, lastBlock, leafBlock, Node.fresh, Node.SetNext,
      Node.SetNext.step1, Node.SetNext.step2, Node.SetNext.step3, Heap.next, Heap.prev,
      Heap.nextOrNull, Heap.prevOrNull, Heap.setNext, Heap.setPrev]
  | succ m ih =>
    intro top
    rw [nested, addNode_frame, ih]
    rfl
theorem Evaluate_nestedLeaf (t : Term) (v : Int) : ∀ (m : Nat) (top : Bool) (f : Nat),
    Node.Evaluate (nestedLeaf t.node m top).heap (f + 3 * m + 4) 1 v = some (t.holds v) := by
  intro m
  induction m with
  | zero =>
    intro top f
    simp [nestedLeaf, treeOf, leafBlock, Node.Evaluate, Term.node, Term.compare_eq,
      Node.GetRoot, Node.GetRoot.walk, Heap.prev, castBranchRoot, BranchRootNode.IsOrLogic]
  | succ m ih =>
    intro top f
    have inner := Node.Evaluate_frame (openBlock top) (nestedLeaf t.node m false).heap v
      (f + 3 * m + 4) 1 _ (ih false f)
    have e : f + 3 * (m + 1) + 4 = (f + 3 * m + 4) + 3 := by ring
    have hheap : (nestedLeaf t.node (m + 1) top).heap
        = Heap.frame (openBlock top) (nestedLeaf t.node m false).heap := rfl
    have h1 : (Heap.frame (openBlock top) (nestedLeaf t.node m false).heap)[1]?
        = some ⟨.branchRoot 0 true, some 3, none⟩ := by
      simp [Heap.frame, openBlock]
    have h2 : (Heap.frame (openBlock top) (nestedLeaf t.node m false).heap)[2]?
        = some ⟨.branchRoot 0 false, none, none⟩ := by
      simp [Heap.frame, openBlock]
    have h3 : (Heap.frame (openBlock top) (nestedLeaf t.node m false).heap)[3]?
        = some ⟨.fork (some 2), some 4, some 1⟩ := by
      simp [Heap.frame, openBlock]
    have h4 : (Heap.frame (openBlock top) (nestedLeaf t.node m false).heap)[4]?
        = some ⟨.fork (some 6), none, some 3⟩ := by
      simp [Heap.frame, openBlock]
    have hroot : Node.GetRoot (Heap.frame (openBlock top) (nestedLeaf t.node m false).heap) 3
        = some 1 := by
      have hl : (Heap.frame (openBlock top) (nestedLeaf t.node m false).heap).length
          = ((nestedLeaf t.node m false).heap.length + 4) + 1 := by
        rw [Heap.frame_length]
        simp [openBlock]
        omega
      simp only [Node.GetRoot, Heap.prev, h3, Option.map_some', hl, Node.GetRoot.walk, h1,
        Option.some_bind, castBranchRoot]
    have hor : BranchRootNode.IsOrLogic
        (Heap.frame (openBlock top) (nestedLeaf t.node m false).heap) 1 = some true := by
      simp only [BranchRootNode.IsOrLogic, h1]
    have hlen5 : (openBlock top).length + 1 = 6 := rfl
    rw [hlen5] at inner
    rw [hheap, e]
    rw [Node.Evaluate, h1]
    simp only
    rw [Node.Evaluate, h3]
    simp only
    rw [Node.Evaluate, h2]
    simp only [hroot, hor, Option.some_bind, Bool.false_eq_true, ↓reduceIte]
    rw [Node.Evaluate, h4]
    simp only [inner]

theorem Evaluate_nested_term (t : Term) (v : Int) (m : Nat) :
    Evaluate (nestedLeaf t.node m true) v = some (t.holds v) := by
  have h := Evaluate_nestedLeaf t v m true (2 * m + 1)
  have hl : ∀ (n : Nat) (top : Bool), (nestedLeaf t.node n top).heap.length = 5 * n + 5 := by
    intro n
    induction n with
    | zero => intro top; rfl
    | succ n ih =>
      intro top
      have : (nestedLeaf t.node (n + 1) top).heap
          = Heap.frame (openBlock top) (nestedLeaf t.node n false).heap := rfl
      rw [this, Heap.frame_length, ih]
      simp [openBlock]
      omega
  have h0 : ∀ n : Nat, (nestedLeaf t.node n true).heap[0]?
      = some ⟨.branch (some 1) (some 2), none, none⟩ := by
    intro n
    cases n with
    | zero => rfl
    | succ n => rfl
  have hb : ∀ (n : Nat) (top : Bool), (nestedLeaf t.node n top).m_pBaseBranch = 0 := by
    intro n
    induction n with
    | zero => intro top; rfl
    | succ n ih => intro top; exact ih false
  have e : 5 * m + 5 = 2 * m + 1 + 3 * m + 4 := by omega
  unfold Evaluate
  rw [hb, hl, Node.Evaluate, h0]
  simp only
  rw [e]
  exact h
theorem toInt32_toNat_le (n : Nat) : (toInt32 n).toNat ≤ n := by
  have h1 : n % 2 ^ 32 ≤ n := Nat.mod_le _ _
  unfold toInt32
  split <;> omega

/-- The body of the loop of `Parse` for a term after `k` characters `(`,
whatever `k` is: the loop over the leading characters runs `(int)k` times
when that is positive and not at all otherwise. -/
theorem condition_open (p : Parser) (loc : Nat) (t : Term) (k : Nat) :
    Parse.condition p loc (List.replicate k '(' ++ t.text) =
      match opening (toInt32 k).toNat p with
      | none => none
      | some p =>
        match addNode p t.node with
        | none => none
        | some p => some (.next (p, loc + (toInt32 k).toNat + t.text.length + 1)) := by
  obtain ⟨x, rest, hx, hx1, _, _, _⟩ := t.op.text_cases
  have hne : t.digits ≠ [] := t.digits_ne
  have hlast : t.digits = t.digits.dropLast ++ [t.digits.getLast hne] :=
    (List.dropLast_append_getLast hne).symm
  have hy : t.digits.getLast hne ≠ ')' :=
    (isDigit_not_paren _ (t.digits_all _ (List.getLast_mem hne))).2.1
  have hfirst : find_first_not_of (List.replicate k '(' ++ t.text) '(' = some k := by
    have : List.replicate k '(' ++ t.text
        = List.replicate k '(' ++ x :: (rest ++ t.digits) := by
      simp [Term.text, hx]
    rw [this]
    exact find_first_not_of_replicate '(' x hx1 _ k
  have hend : endPlusOne (find_last_not_of (List.replicate k '(' ++ t.text) ')')
      = k + t.text.length := by
    have : List.replicate k '(' ++ t.text
        = (List.replicate k '(' ++ t.op.text ++ t.digits.dropLast)
          ++ t.digits.getLast hne :: List.replicate 0 ')' := by
      conv_lhs => rw [Term.text, hlast]
      simp
    rw [this, endPlusOne_find_last ')' _ hy 0]
    conv_rhs => rw [Term.text, hlast]
    simp
    omega
  obtain ⟨h1, h2, _⟩ := find_first_not_of_spec '(' _ k hfirst
  have hlen : (List.replicate k '(' ++ t.text).length = k + t.text.length := by simp
  have hcond : List.take (k + t.text.length - k)
      (List.drop k (List.replicate k '(' ++ t.text)) = t.text := by
    rw [List.drop_left' (by simp), Nat.add_sub_cancel_left, List.take_length]
  have hadd : ∀ q : Parser, AddExpression q t.text = (addNode q t.node).map fun r => (true, r) := by
    intro q
    unfold AddExpression addNode
    rw [ExpressionNode.new_term]
    simp only [Term.node, NodeKind.IsValid, Bool.true_eq_false, ↓reduceIte]
    cases Node.SetNext (q.heap ++ [Node.fresh (.expression true t.op.flags t.value)])
      q.m_pActiveBranchRoot (some q.heap.length) <;> rfl
  have hn := toInt32_toNat_le k
  unfold Parse.condition
  simp only [hfirst, hend, substr, hlen, if_neg (show ¬ k > k + t.text.length by omega), hcond]
  rw [leading_eq_opening _ (toInt32 k).toNat 0 p loc (fun i _ hi => h2 i (by omega))]
  cases hO : opening (toInt32 k).toNat p with
  | none => rfl
  | some p1 =>
    simp only [Option.map_some', hadd]
    cases hA : addNode p1 t.node with
    | none => rfl
    | some p2 =>
      simp only [Option.map_some', Nat.sub_self, Parse.trailing]

/-- The tree `Parse` builds for a term after `k` characters `(`. -/
theorem parse_open (k : Nat) (t : Term) :
    parseFresh (List.replicate k '(' ++ t.text)
      = some (SetResult (nestedLeaf t.node (toInt32 k).toNat true) .OK 0) := by
  have hns : ∀ c ∈ List.replicate k '(' ++ t.text, c ≠ ' ' := by
    intro c hc
    rcases List.mem_append.mp hc with h | h
    · rw [(List.mem_replicate.mp h).2]
      decide
    · exact t.text_no_space c h
  have hne : List.replicate k '(' ++ t.text ≠ [] := by
    intro h
    exact t.text_ne_nil (List.append_eq_nil.mp h).2
  have hc := condition_open emptyTree 0 t k
  rw [emptyTree_eq_nested, opening_nested] at hc
  simp only [Term.node, addNode_nested] at hc
  rw [parseFresh_eq _ hne, SplitString_last _ hns hne, emptyTree_eq_nested,
    Parse.loop_condition _ _ _ _ _ _ hc]
  simp [Parse.loop, Term.node]

/-- C17. For every `k` and every valid comparison term `t`, `Parse` of the
text made of `k` characters `(` followed by `t` returns OK on a new instance,
and for every integer `v`, `Evaluate(v)` returns the value of `t` at `v`. -/
theorem unmatched_open_accepted (k : Nat) (t : Term) (v : Int) :
    run (List.replicate k '(' ++ t.text) v = some (.OK, some (t.holds v)) := by
  rw [run, parse_open, Option.map_some']
  have h := Evaluate_nested_term t v (toInt32 k).toNat
  simp only [SetResult]
  have e : Evaluate { nestedLeaf t.node (toInt32 k).toNat true with
      m_result := .OK, m_errorAt := 0 } v
      = Evaluate (nestedLeaf t.node (toInt32 k).toNat true) v := rfl
  rw [e, h]

/-! ## The character tests of `Parse` -/

theorem closing_ret : ∀ (n : Nat) (p : Parser) (loc : Nat) (x : ParseResult × Parser),
    closing n p loc = some (.ret x) → x.1 = .ClosingUnopenedBrace := by
  intro n
  induction n with
  | zero => intro p loc x h; simp [closing] at h
  | succ n ih =>
    intro p loc x h
    rw [closing] at h
    split at h
    · simp at h
    · rw [Parse.fail_eq] at h
      simp only [Option.map_some', Option.some.injEq, Flow.ret.injEq] at h
      rw [← h]
      rfl
    · exact ih _ _ _ h

/-- The body of the loop of `Parse` for a token in condition position
returns from `Parse` only with InvalidExpression or ClosingUnopenedBrace:
the characters the leading loop reads are before the first character other
than `(` and those the trailing loop reads are after the last character other
than `)`. -/
theorem Parse.condition_exits (p : Parser) (loc : Nat) (data : List Char)
    (x : ParseResult × Parser) (h : Parse.condition p loc data = some (.ret x)) :
    x.1 = .InvalidExpression ∨ x.1 = .ClosingUnopenedBrace := by
  unfold Parse.condition at h
  cases hcs : find_first_not_of data '(' with
  | none => rw [hcs] at h; simp at h
  | some cs =>
    rw [hcs] at h
    simp only at h
    obtain ⟨h1, h2, _⟩ := find_first_not_of_spec '(' data cs hcs
    obtain ⟨g1, g2, _⟩ := find_last_not_of_spec ')' data
    have hn := toInt32_toNat_le cs
    rw [leading_eq_opening data _ 0 p loc (fun i _ hi => h2 i (by omega))] at h
    split at h
    · simp at h
    · next conditionData hsub =>
      cases hO : opening (toInt32 cs).toNat p with
      | none => rw [hO] at h; simp at h
      | some p1 =>
        rw [hO] at h
        simp only [Option.map_some'] at h
        split at h
        · simp at h
        · rw [Parse.fail_eq] at h
          simp only [Option.map_some', Option.some.injEq, Flow.ret.injEq] at h
          left
          rw [← h]
          rfl
        · next p2 hA =>
          rw [trailing_eq_closing data _ _ p2 _ (fun i hi1 hi2 => g2 i hi1 (by omega))] at h
          split at h
          · simp at h
          · next r hr =>
            simp only [Option.some.injEq, Flow.ret.injEq] at h
            subst h
            right
            exact closing_ret _ _ _ _ hr
          · simp at h

theorem Parse.loop_valid_characters : ∀ (datas : List (List Char)) (p : Parser) (loc : Nat)
    (pc : Bool) (x : ParseResult × Parser), Parse.loop datas p loc pc = some x →
    x.1 ≠ .ParsingInvalidCharacter := by
  intro datas
  induction datas with
  | nil =>
    intro p loc pc x h
    simp only [Parse.loop, Option.some.injEq] at h
    subst h
    simp [SetResult]
  | cons data rest ih =>
    intro p loc pc x h
    rw [Parse.loop] at h
    split at h
    · simp at h
    · next r hr =>
      simp only [Option.some.injEq] at h
      subst h
      cases pc with
      | false =>
        rcases Parse.condition_exits _ _ _ _ (by simpa using hr) with e | e <;> rw [e] <;> decide
      | true =>
        obtain ⟨a, ha⟩ := Parse.logic_ret _ _ _ _ (by simpa using hr)
        rw [ha]
        simp [SetResult]
    · exact ih _ _ _ _ h

/-- C24. For every state of the instance and every text, the result of
`Parse` is not ParsingInvalidCharacter. -/
theorem never_ParsingInvalidCharacter (p : Parser) (text : List Char) :
    (Parse p text).map Prod.fst ≠ some .ParsingInvalidCharacter := by
  unfold Parse
  split
  · simp [SetResult]
  · split
    · simp [SetResult]
    · cases h : Parse.loop (SplitString text ' ') p 0 false with
      | none => simp
      | some x =>
        simp only [Option.map_some', ne_eq, Option.some.injEq]
        exact Parse.loop_valid_characters _ _ _ _ _ h

/-! ## Evaluation of a chain -/

theorem Node.Evaluate_mono (h : Heap) (value : Int) : ∀ (fuel i : Nat) (r : Bool),
    Node.Evaluate h fuel i value = some r →
      ∀ more, Node.Evaluate h (fuel + more) i value = some r := by
  intro fuel
  induction fuel with
  | zero => intro i r hE; simp [Node.Evaluate] at hE
  | succ n ih =>
    intro i r hE more
    rw [Nat.add_right_comm]
    rw [Node.Evaluate] at hE ⊢
    cases hi : h[i]? with
    | none => rw [hi] at hE; simp at hE
    | some me =>
      rw [hi] at hE
      obtain ⟨k, nx, pv⟩ := me
      simp only at hE ⊢
      cases k with
      | destroyed => simp at hE
      | branch a b =>
        cases a with
        | none => simp at hE
        | some a => exact ih a r hE more
      | branchRoot a b =>
        cases nx with
        | none => exact hE
        | some nx => exact ih nx r hE more
      | fork a =>
        cases a with
        | none => simp at hE
        | some a =>
          simp only at hE ⊢
          cases he : Node.Evaluate h n a value with
          | none => rw [he] at hE; simp at hE
          | some res =>
            rw [he] at hE
            rw [ih a res he more]
            cases nx with
            | none => exact hE
            | some nx =>
              simp only at hE ⊢
              cases ho : (Node.GetRoot h i).bind (BranchRootNode.IsOrLogic h) with
              | none => rw [ho] at hE; simp at hE
              | some o =>
                rw [ho] at hE
                simp only at hE ⊢
                by_cases hc : res = o
                · rw [if_pos hc] at hE ⊢
                  exact hE
                · rw [if_neg hc] at hE ⊢
                  exact ih nx r hE more
      | expression a b c =>
        simp only at hE ⊢
        by_cases ha : a = false
        · rw [if_pos ha] at hE ⊢
          exact hE
        · rw [if_neg ha] at hE ⊢
          cases hcmp : ExpressionNode.compare b value c with
          | none => rw [hcmp] at hE; exact hE
          | some res =>
            rw [hcmp] at hE
            cases nx with
            | none => exact hE
            | some nx =>
              simp only at hE ⊢
              cases ho : (Node.GetRoot h i).bind (BranchRootNode.IsOrLogic h) with
              | none => rw [ho] at hE; simp at hE
              | some o =>
                rw [ho] at hE
                simp only at hE ⊢
                by_cases hc : res = o
                · rw [if_pos hc] at hE ⊢
                  exact hE
                · rw [if_neg hc] at hE ⊢
                  exact ih nx r hE more

theorem Node.Evaluate_le (h : Heap) (value : Int) (fuel fuel' i : Nat) (r : Bool)
    (hE : Node.Evaluate h fuel i value = some r) (hle : fuel ≤ fuel') :
    Node.Evaluate h fuel' i value = some r := by
  have := Node.Evaluate_mono h value fuel i r hE (fuel' - fuel)
  rwa [Nat.add_sub_cancel' hle] at this

theorem chainValue_single (o r : Bool) : chainValue o [r] = r := by
  cases o <;> cases r <;> rfl

theorem chainValue_cons (o r r2 : Bool) (rest : List Bool) :
    chainValue o (r :: r2 :: rest) = if r = o then r else chainValue o (r2 :: rest) := by
  cases o <;> cases r <;> simp [chainValue]

theorem length_le_of_nodup_lt (l : List Nat) (L : Nat) (hnd : l.Nodup)
    (hlt : ∀ x ∈ l, x < L) : l.length ≤ L := by
  calc l.length = l.toFinset.card := (List.toFinset_card_of_nodup hnd).symm
    _ ≤ (Finset.range L).card :=
      Finset.card_le_card (fun x hx => Finset.mem_range.mpr (hlt x (List.mem_toFinset.mp hx)))
    _ = L := Finset.card_range L

theorem Heap.IsDoubleChain_lt (h : Heap) : ∀ (xs : List Nat) (last : Nat),
    h.IsDoubleChain last xs → ∀ x ∈ xs, x < h.length := by
  intro xs
  induction xs with
  | nil => intro last _ x hx; simp at hx
  | cons y ys ih =>
    intro last hc x hx
    obtain ⟨_, hp, hrest⟩ := hc
    rcases List.mem_cons.mp hx with rfl | hx
    · unfold Heap.prev at hp
      cases hy : h[x]? with
      | none => rw [hy] at hp; simp at hp
      | some n => exact (List.getElem?_eq_some.mp hy).1
    · exact ih y hrest x hx
/-- The continuation rule along a chain: the first node of `xs` evaluates to
the value of the chain, given that the walk back from the node before it
finds the root. -/
theorem Node.Evaluate_chain (h : Heap) (R b : Nat) (o : Bool) (nxR : Ptr) (v : Int) (f : Nat)
    (hR : h[R]? = some ⟨.branchRoot b o, nxR, none⟩) :
    ∀ (xs : List Nat) (rs : List Bool) (last k : Nat),
      h.IsDoubleChain last xs →
      List.Forall₂ (fun x r => Node.result h f x v = some r) xs rs →
      (∀ fuel, k ≤ fuel → Node.GetRoot.walk h fuel last = some R) →
      k + xs.length ≤ h.length + 1 →
      ∀ x xs', xs = x :: xs' →
        ∀ fuel, f + xs.length ≤ fuel → Node.Evaluate h fuel x v = some (chainValue o rs) := by
  intro xs
  induction xs with
  | nil => intro rs last k _ _ _ _ x xs' e; cases e
  | cons y ys ih =>
    intro rs last k hc hres hk hb x xs' e fuel hfuel
    cases e
    obtain ⟨hn, hp, hrest⟩ := hc
    cases hres with
    | @cons _ r _ rs' hr hres' =>
    obtain ⟨fuel', rfl⟩ : ∃ fuel', fuel = fuel' + 1 :=
      ⟨fuel - 1, by simp only [List.length_cons] at hfuel; omega⟩
    simp only [List.length_cons] at hfuel hb
    -- the root found from `x`
    have hroot : (Node.GetRoot h y).bind (BranchRootNode.IsOrLogic h) = some o := by
      have hw := hk h.length (by omega)
      simp only [Node.GetRoot, hp, hw, Option.some_bind, castBranchRoot, hR,
        BranchRootNode.IsOrLogic]
    -- the walk back from `x`
    have hk' : ∀ fuel, k + 1 ≤ fuel → Node.GetRoot.walk h fuel y = some R := by
      intro fuel hf
      obtain ⟨g, rfl⟩ : ∃ g, fuel = g + 1 := ⟨fuel - 1, by omega⟩
      rw [Node.GetRoot.walk, hp]
      exact hk g (by omega)
    -- what follows `x`
    have hnext : ∀ me : Node, h[y]? = some me → ∀ res, res = r →
        (match me.m_pNext with
          | none => some res
          | some n =>
            match (Node.GetRoot h y).bind (BranchRootNode.IsOrLogic h) with
            | none => none
            | some o => if res = o then some res else Node.Evaluate h fuel' n v)
          = some (chainValue o (r :: rs')) := by
      intro me hme res hres
      subst hres
      cases ys with
      | nil =>
        cases hres'
        have : h.next y = some none := hrest
        simp only [Heap.next, hme, Option.map_some', Option.some.injEq] at this
        rw [this, chainValue_single]
      | cons z zs =>
        cases hres' with
        | @cons _ r2 _ rs2 hr2 hres2 =>
        have hz : h.next y = some (some z) := hrest.1
        simp only [Heap.next, hme, Option.map_some', Option.some.injEq] at hz
        rw [hz, hroot, chainValue_cons]
        simp only
        by_cases hc : res = o
        · rw [if_pos hc, if_pos hc]
        · rw [if_neg hc, if_neg hc]
          exact ih (r2 :: rs2) y (k + 1) hrest (.cons hr2 hres2) hk'
            (by simp only [List.length_cons] at hb ⊢; omega) z zs rfl fuel'
            (by simp only [List.length_cons] at hfuel ⊢; omega)
    unfold Node.result at hr
    rw [Node.Evaluate]
    cases hx : h[y]? with
    | none => rw [hx] at hr; simp at hr
    | some me =>
      rw [hx] at hr
      have hnx := hnext me hx
      obtain ⟨kind, nx, pv⟩ := me
      simp only at hr hnx ⊢
      cases kind with
      | destroyed => simp at hr
      | branch a b => simp at hr
      | branchRoot a b => simp at hr
      | fork a =>
        cases a with
        | none => simp at hr
        | some a =>
          simp only at hr ⊢
          rw [Node.Evaluate_le h v f fuel' a r hr (by omega)]
          exact hnx r rfl
      | expression a b c =>
        simp only at hr ⊢
        by_cases ha : a = false
        · rw [if_pos ha] at hr
          simp at hr
        · rw [if_neg ha] at hr ⊢
          rw [hr]
          exact hnx r rfl

/-- Evaluating the root of a well formed chain gives the value of the chain,
at every depth that covers the chain and the targets of its forks. -/
theorem Node.Evaluate_root (h : Heap) (R : Nat) (o : Bool) (xs : List Nat) (rs : List Bool)
    (v : Int) (f : Nat) (hc : IsChainOf h R o xs rs v f) (fuel : Nat)
    (hfuel : f + xs.length + 1 ≤ fuel) :
    Node.Evaluate h fuel R v = some (chainValue o rs) := by
  obtain ⟨b, nx, hR⟩ := hc.root
  have hlen : xs.length + 1 ≤ h.length := by
    have := length_le_of_nodup_lt (R :: xs) h.length hc.nodup (by
      intro x hx
      rcases List.mem_cons.mp hx with rfl | hx
      · exact (List.getElem?_eq_some.mp hR).1
      · exact Heap.IsDoubleChain_lt h xs R hc.chain x hx)
    simpa using this
  have hk : ∀ fuel, 1 ≤ fuel → Node.GetRoot.walk h fuel R = some R := by
    intro fuel hf
    obtain ⟨g, rfl⟩ : ∃ g, fuel = g + 1 := ⟨fuel - 1, by omega⟩
    simp [Node.GetRoot.walk, Heap.prev, hR]
  obtain ⟨fuel', rfl⟩ : ∃ fuel', fuel = fuel' + 1 := ⟨fuel - 1, by omega⟩
  rw [Node.Evaluate, hR]
  simp only
  cases xs with
  | nil =>
    have hres := hc.results
    cases hres
    have : h.next R = some none := hc.chain
    simp only [Heap.next, hR, Option.map_some', Option.some.injEq] at this
    rw [this]
    cases o <;> rfl
  | cons x xs' =>
    have hx : h.next R = some (some x) := hc.chain.1
    simp only [Heap.next, hR, Option.map_some', Option.some.injEq] at hx
    rw [hx]
    simp only
    exact Node.Evaluate_chain h R b o nx v f hR (x :: xs') rs R 1 hc.chain hc.results hk
      (by simp only [List.length_cons] at hlen ⊢; omega) x xs' rfl fuel'
      (by simp only [List.length_cons] at hfuel ⊢; omega)

theorem chainValue_perm (o : Bool) (rs rs' : List Bool) (hp : rs'.Perm rs) :
    chainValue o rs' = chainValue o rs := by
  cases rs with
  | nil => rw [List.perm_nil.mp hp]
  | cons r rest =>
    cases rs' with
    | nil => exact absurd hp.symm (List.cons_ne_nil _ _ ∘ List.perm_nil.mp)
    | cons r' rest' =>
      cases o
      · simp only [chainValue]
        rw [Bool.eq_iff_iff]
        simp only [List.all_eq_true]
        exact ⟨fun hall x hx => hall x (hp.symm.subset hx), fun hall x hx => hall x (hp.subset hx)⟩
      · simp only [chainValue]
        rw [Bool.eq_iff_iff]
        simp only [List.any_eq_true]
        exact ⟨fun ⟨x, hx, e⟩ => ⟨x, hp.subset hx, e⟩, fun ⟨x, hx, e⟩ => ⟨x, hp.symm.subset hx, e⟩⟩
/-- C23. For a well formed chain headed by a root, whose nodes taken alone
have the results `rs` at `v`, evaluating the root returns, at every depth
that covers the chain and the targets of its forks, false when the chain has
no node, the disjunction of `rs` under an OR root and the conjunction of `rs`
under an AND root; hence a chain of the same kind whose nodes have the same
results in another order evaluates to the same value. -/
theorem chain_order_independent (h : Heap) (R : Nat) (o : Bool) (xs : List Nat)
    (rs : List Bool) (v : Int) (f : Nat) (hc : IsChainOf h R o xs rs v f) :
    (∀ fuel, f + xs.length + 1 ≤ fuel →
      Node.Evaluate h fuel R v = some (chainValue o rs)) ∧
    (xs = [] → ∀ fuel, 1 ≤ fuel → Node.Evaluate h fuel R v = some false) ∧
    (∀ (h' : Heap) (R' : Nat) (xs' : List Nat) (rs' : List Bool) (f' : Nat),
      IsChainOf h' R' o xs' rs' v f' → rs'.Perm rs →
      ∀ fuel fuel', f + xs.length + 1 ≤ fuel → f' + xs'.length + 1 ≤ fuel' →
        Node.Evaluate h' fuel' R' v = Node.Evaluate h fuel R v) := by
  refine ⟨Node.Evaluate_root h R o xs rs v f hc, ?_, ?_⟩
  · intro hxs fuel hfuel
    subst hxs
    have hres := hc.results
    cases hres
    have hc0 : IsChainOf h R o [] [] v 0 := ⟨hc.root, hc.chain, hc.nodup, .nil⟩
    have := Node.Evaluate_root h R o [] [] v 0 hc0 fuel (by simpa using hfuel)
    rw [this]
    cases o <;> rfl
  · intro h' R' xs' rs' f' hc' hp fuel fuel' hfuel hfuel'
    rw [Node.Evaluate_root h R o xs rs v f hc fuel hfuel,
      Node.Evaluate_root h' R' o xs' rs' v f' hc' fuel' hfuel', chainValue_perm o rs rs' hp]

/-- C23 on the OR chain of `>3` and a fork to the AND chain of `<10`, at 2:
the results are false and true, the root gives true, and so does the root
of the chain with the two nodes in the other order. -/
theorem chain_order_independent_witness :
    Node.Evaluate chainExample 5 0 2 = some true ∧
    Node.Evaluate chainExampleSwapped 5 0 2 = Node.Evaluate chainExample 5 0 2 :=
  have hc : IsChainOf chainExample 0 true [1, 2] [false, true] 2 2 :=
    ⟨⟨5, some 1, rfl⟩, ⟨rfl, rfl, rfl, rfl, rfl⟩, by decide, .cons rfl (.cons rfl .nil)⟩
  have hc' : IsChainOf chainExampleSwapped 0 true [2, 1] [true, false] 2 2 :=
    ⟨⟨5, some 2, rfl⟩, ⟨rfl, rfl, rfl, rfl, rfl⟩, by decide, .cons rfl (.cons rfl .nil)⟩
  ⟨(chain_order_independent chainExample 0 true [1, 2] [false, true] 2 2 hc).1 5 (by decide),
   (chain_order_independent chainExample 0 true [1, 2] [false, true] 2 2 hc).2.2
     chainExampleSwapped 0 [2, 1] [true, false] 2 hc' (by decide) 5 5 (by decide) (by decide)⟩
/-! ## The current branch inside a bracket -/

theorem OpenBrace_activeBranch (p q : Parser) (h : OpenBrace p = some q) :
    q.m_pActiveBranch = p.m_pActiveBranch ∧ q.m_pBaseBranch = p.m_pBaseBranch := by
  simp only [OpenBrace, Option.bind_eq_bind, Option.pure_def, Option.bind_eq_some] at h
  obtain ⟨_, _, _, _, _, _, _, _, _, _, _, _, _, _, h⟩ := h
  simp only [Option.some.injEq] at h
  subst h
  exact ⟨rfl, rfl⟩

/-- C21, the code at the failing input. After `"(>1"` the current root is
the OR root of the bracket (node 6, of the branch at node 5), but the current
branch is still the base branch (node 0), and the branch of the bracket has
been destroyed.  The switch to AND that the token `and` makes inside the
bracket takes the AND root of the base branch (node 2), not the one of the
bracket (node 7), and moves the head of the OR chain of the base branch
(node 3) behind it; the chains of the bracket stay as they were.  So
`"(>1 and >3)"` is true at 2, where `2 > 1 and 2 > 3` is false. -/
theorem OpenBrace_keeps_enclosing_branch :
    (∃ p, parseFresh "(>1".data = some (.OK, p) ∧
      p.m_pBaseBranch = 0 ∧ p.m_pActiveBranch = some 0 ∧ p.m_pActiveBranchRoot = 6 ∧
      p.heap.kindAt 5 = some .destroyed ∧
      p.heap.kindAt 6 = some (.branchRoot 5 true) ∧
      p.heap.kindAt 7 = some (.branchRoot 5 false) ∧
      p.heap.kindAt 2 = some (.branchRoot 0 false) ∧
      p.heap.IsDoubleChain 1 [3, 4] ∧ p.heap.IsDoubleChain 2 [] ∧
      p.heap.IsDoubleChain 6 [9, 8] ∧ p.heap.IsDoubleChain 7 [] ∧
      ∃ q, Parse.switchLogic p false = some q ∧
        q.m_pActiveBranch = some 0 ∧ q.m_pActiveBranchRoot = 2 ∧
        q.heap.IsDoubleChain 1 [4] ∧ q.heap.IsDoubleChain 2 [3] ∧
        q.heap.IsDoubleChain 6 [9, 8] ∧ q.heap.IsDoubleChain 7 []) ∧
    run "(>1 and >3)".data 2 = some (.OK, some true) ∧
    (decide ((2 : Int) > 1 ∧ (2 : Int) > 3)) = false := by
  refine ⟨⟨_, rfl, rfl, rfl, rfl, rfl, rfl, rfl, rfl, ⟨rfl, rfl, rfl, rfl, rfl⟩, rfl,
    ⟨rfl, rfl, rfl, rfl, rfl⟩, rfl, _, rfl, rfl, rfl, ⟨rfl, rfl, rfl⟩, ⟨rfl, rfl, rfl⟩,
    ⟨rfl, rfl, rfl, rfl, rfl⟩, rfl⟩, rfl, rfl⟩

/-! ## The fork from the OR chain to the AND root -/

/-- C22, the code at the failing inputs. In the tree `Parse` builds for
`"(>1) and >2"` the OR chain of the base branch (root at node 1) holds one
node, the fork of the bracket (node 4, target node 6), and no fork to the AND
root of the branch (node 2): the fork `BranchNode::Create` put there (node 3)
is in the AND chain, behind `>2`.  The same holds in the tree of the example
of the header. -/
theorem Create_fork_leaves_OR_chain :
    (∃ p, parseFresh "(>1) and >2".data = some (.OK, p) ∧
      p.m_pBaseBranch = 0 ∧
      BranchNode.GetLogicPathRoot p.heap 0 true = some (some 1) ∧
      BranchNode.GetLogicPathRoot p.heap 0 false = some (some 2) ∧
      p.heap.IsDoubleChain 1 [4] ∧ p.heap.kindAt 4 = some (.fork (some 6)) ∧
      p.heap.IsDoubleChain 2 [10, 3] ∧ p.heap.kindAt 3 = some (.fork (some 2))) ∧
    (parseFresh "(>3 or <10) and !=5".data = some (.OK, treeOf headerExample 2 []) ∧
      BranchNode.GetLogicPathRoot headerExample 0 true = some (some 1) ∧
      BranchNode.GetLogicPathRoot headerExample 0 false = some (some 2) ∧
      headerExample.IsDoubleChain 1 [4] ∧ headerExample.kindAt 4 = some (.fork (some 6)) ∧
      headerExample.IsDoubleChain 2 [11, 3] ∧
      headerExample.kindAt 3 = some (.fork (some 2))) := by
  refine ⟨⟨_, rfl, rfl, rfl, rfl, ⟨rfl, rfl, rfl⟩, rfl, ⟨rfl, rfl, rfl, rfl, rfl⟩, rfl⟩,
    rfl, rfl, rfl, ⟨rfl, rfl, rfl⟩, rfl, ⟨rfl, rfl, rfl, rfl, rfl⟩, rfl⟩

/-! ## A condition token without a condition -/

/-- A token in condition position without a character other than `(` (a run
of `(`, or the empty token a leading or doubled space makes), after tokens the
pass accepts: `find_first_not_of` gives `npos`, `substr` throws and `Parse`
does not return. -/
theorem parseFresh_without_condition (text : List Char) (hlen : text.length < 2 ^ 31)
    (pre : List (List Char)) (data : List Char) (post : List (List Char))
    (hsplit : SplitString text ' ' = pre ++ data :: post) (hpos : pre.length % 2 = 0)
    (p : Parser) (loc : Nat) (pc : Bool)
    (hacc : Parse.through pre emptyTree 0 false = some (.next (p, loc, pc)))
    (hnone : find_first_not_of data '(' = none) :
    parseFresh text = none := by
  obtain ⟨hne, hpre, _, _, _⟩ := token_position text pre data post hsplit
  obtain ⟨_, hpc⟩ := Parse.through_loc pre _ _ _ _ _ _
    (fun d hd => lt_of_le_of_lt (hpre d hd) hlen) hacc
  have hpc' : pc = false := by rw [hpc]; simp [hpos]
  subst hpc'
  rw [parseFresh_eq _ hne, hsplit, Parse.loop_through, hacc]
  simp [Parse.loop, Parse.condition, hnone]

/-- C10, the code at the failing inputs. The token `"("` stands in condition
position and nothing is left of it once its `(` are stripped: a condition
without a digit, which is malformed.  `find_first_not_of` gives `npos`,
`substr` throws, and `Parse` does not return InvalidExpression: it does not
return.  The same holds for the empty token that a doubled space makes in
`">5 and  <3"`, and for the token `"(("` after accepted tokens in `">5 or (("`. -/
theorem malformed_condition_not_reported :
    Malformed [] ∧
    (SplitString "(".data ' ' = ["(".data] ∧ find_first_not_of "(".data '(' = none ∧
      parseFresh "(".data = none) ∧
    (SplitString ">5 and  <3".data ' ' = [">5".data, "and".data, [], "<3".data] ∧
      find_first_not_of [] '(' = none ∧ parseFresh ">5 and  <3".data = none) ∧
    (SplitString ">5 or ((".data ' ' = [">5".data, "or".data, "((".data] ∧
      find_first_not_of "((".data '(' = none ∧ parseFresh ">5 or ((".data = none) :=
  ⟨.inl (by decide), ⟨rfl, rfl, rfl⟩, ⟨rfl, rfl, rfl⟩, ⟨rfl, rfl, rfl⟩⟩

/-! ## The splice primitive on neighbours -/

end ExpressionParser
